import Mathlib

/-!
# contain-sentry: rule engine and Dockerfile stage model

A shallow embedding of `internal/engine/engine.go`, `internal/dockerfile/context.go`,
`internal/dockerfile/driver_runner.go`, of the expressions of
`internal/entities/expression.go` (matchers, match DSL, mount extraction, run facts, regex
and user id expressions) and of the rule loader of `internal/entities/rule.go`, followed by
theorems about them.

Conventions of the embedding:

* a Go `string` is read as its sequence of runes (`GoString`);
* the Unicode case tables of the Go runtime (`unicode.ToLower`, `unicode.ToUpper`,
  `unicode.SimpleFold`) are not part of the repository; every function that folds case
  takes them as a parameter `T : CaseTables`, so the general theorems hold for every table;
  `asciiTables` is the table used to evaluate the code on plain ASCII text, where it
  agrees with the runtime;
* the regular expressions of Go's `regexp` package are a parameter `R : RegexLib` in the
  same way; the one expression the code itself compiles, `--mount=([^\s]+)`, is embedded
  as the scan it denotes (`scanMounts`);
* the shell parser `mvdan.cc/sh/v3/syntax` is a parameter `P : ShellParser`, a parsed
  script being a value of `ShNode`;
* a JSON text is read as the fields `encoding/json` decodes from it into the struct the
  code hands over (`MatcherJSON`, `NodeJSON`, `ExprJSON`, `baseRuleAlias`);
* a Go string is sliced by bytes (`s[n:]`): `byteDrop` and `byteTake` count the bytes of
  the UTF-8 encoding of each rune;
* pointer receivers that are mutated in place become explicit state passing;
* a parsed instruction of the buildkit library is a value of `Instruction`, which keeps
  the fields the code reads and the text its `String()` method returns; a node of the
  recipe carries the outcome of `instructions.ParseInstruction` on it;
* the unbounded `for` loop of `Engine.Run` carries a fuel argument and returns
  `none` when the fuel runs out.
-/

namespace ContainSentry

/-! ## Go strings -/

/-- Go string, as the list of its runes. -/
abbrev GoString := List Char

/-- Case tables of the Go runtime: `lower` is `unicode.ToLower`, `upper` is
`unicode.ToUpper`, `fold` sends a rune to a fixed representative of its
`unicode.SimpleFold` orbit. -/
structure CaseTables where
  lower : Char → Char
  fold : Char → Char
  upper : Char → Char

/-- The tables restricted to ASCII letters; other runes are left alone. -/
def asciiTables : CaseTables :=
  { lower := Char.toLower, fold := Char.toLower, upper := Char.toUpper }

namespace unicode

/-- Go `unicode.IsSpace`: the Latin-1 spaces and the runes with property White_Space. -/
def IsSpace (c : Char) : Bool :=
  let n := c.toNat
  (9 ≤ n && n ≤ 13) || n == 32 || n == 0x85 || n == 0xA0 || n == 0x1680
    || (0x2000 ≤ n && n ≤ 0x200A) || n == 0x2028 || n == 0x2029 || n == 0x202F
    || n == 0x205F || n == 0x3000

end unicode

namespace strings

/-- Go `strings.TrimSpace`: drop leading and trailing white space. -/
def TrimSpace (s : GoString) : GoString :=
  ((s.dropWhile unicode.IsSpace).reverse.dropWhile unicode.IsSpace).reverse

/-- Go `strings.ToLower`: map every rune to lower case. -/
def ToLower (T : CaseTables) (s : GoString) : GoString :=
  s.map T.lower

/-- Go `strings.EqualFold`: rune by rune, equal up to simple case folding. -/
def EqualFold (T : CaseTables) (s t : GoString) : Bool :=
  s.map T.fold == t.map T.fold

/-- Go `strings.HasPrefix`. -/
def HasPrefix : GoString → GoString → Bool
  | _, [] => true
  | [], _ :: _ => false
  | c :: s, p :: ps => c == p && HasPrefix s ps

/-- Go `strings.Contains`: `sub` occurs in `s` as a contiguous block. -/
def Contains : GoString → GoString → Bool
  | [], sub => sub.isEmpty
  | c :: s, sub => HasPrefix (c :: s) sub || Contains s sub

end strings

/-! ## Go maps with string keys -/

/-- Go `m[k] = v` on a map kept as an association list with distinct keys. -/
def mapSet {α : Type} : List (GoString × α) → GoString → α → List (GoString × α)
  | [], k, v => [(k, v)]
  | (k0, v0) :: m, k, v => if k0 = k then (k, v) :: m else (k0, v0) :: mapSet m k v

/-- Go `v, ok := m[k]`. -/
def mapGet {α : Type} : List (GoString × α) → GoString → Option α
  | [], _ => none
  | (k0, v0) :: m, k => if k0 = k then some v0 else mapGet m k

/-! ## internal/dockerfile/context.go: data -/

structure Position where
  Line : Int := 0
  Character : Int := 0
deriving DecidableEq, Repr

structure SourceRef where
  Start : Position := {}
  End : Position := {}
deriving DecidableEq, Repr

structure AbsString where
  Kind : GoString := []
  Known : GoString := []
  Expr : GoString := []
  Deps : List GoString := []
deriving DecidableEq, Repr

structure Tracked (α : Type) where
  Val : α
  Location : SourceRef := {}
deriving DecidableEq, Repr

structure DockerStageState where
  StageIndex : Nat := 0
  StageName : GoString := []
  BaseImage : GoString := []
  User : Tracked AbsString := { Val := {} }
  Workdir : Tracked AbsString := { Val := {} }
  Shell : Tracked (List GoString) := { Val := [] }
  Entrypoint : Tracked (List GoString) := { Val := [] }
  Cmd : Tracked (List GoString) := { Val := [] }
  Env : List (GoString × Tracked AbsString) := []
  Args : List (GoString × Tracked AbsString) := []
  HasUser : Bool := false
  HasCopyFrom : Bool := false
  HasHealthcheck : Bool := false
  HasBuildTooling : Bool := false
deriving DecidableEq, Repr

/-- Stage model of one recipe. The field `command` of the source is never read or
written and is left out. -/
structure DockerStageEval where
  Stages : List DockerStageState := []
  Final : DockerStageState := {}
  hasFinal : Bool := false
deriving DecidableEq, Repr

/-! ## Parsed instructions (buildkit `instructions` package, as far as the code looks) -/

structure KeyValuePair where
  Key : GoString
  Value : GoString
deriving DecidableEq, Repr

structure KeyValuePairOptional where
  Key : GoString
  Value : Option GoString
deriving DecidableEq, Repr

/-- Result of `instructions.ParseInstruction`: one constructor per dynamic type the
code switches on. `text` is what the `String()` method of the command returns. -/
inductive Instruction where
  | Stage (Name BaseName SourceCode OrigCmd : GoString)
  | RunCommand (text : GoString) (CmdLine FlagsUsed : List GoString)
  | UserCommand (text User : GoString)
  | EnvCommand (text : GoString) (Env : List KeyValuePair)
  | WorkdirCommand (text Path : GoString)
  | ArgCommand (text : GoString) (Args : List KeyValuePairOptional)
  | ShellCommand (text : GoString) (Shell : List GoString)
  | EntrypointCommand (text : GoString) (CmdLine : List GoString)
  | CmdCommand (text : GoString) (CmdLine : List GoString)
  | CopyCommand (text From : GoString)
  | AddCommand (text : GoString)
  | HealthCheckCommand (text : GoString)
  | ExposeCommand (text : GoString)
  | Other (text : Option GoString)
deriving DecidableEq, Repr

/-- A `parser.Node` of the recipe: its line range and what
`instructions.ParseInstruction` makes of it. -/
structure Node where
  StartLine : Int := 0
  EndLine : Int := 0
  parsed : Except GoString Instruction

/-! ## internal/engine/engine.go and internal/entities/rule.go: data -/

structure Step where
  Target : GoString := []
  Subject : GoString := []
  Raw : GoString := []
  Location : Option SourceRef := none
  Command : Option Instruction := none
deriving DecidableEq, Repr

structure Metadata where
  ID : GoString := []
  Name : GoString := []
  Description : GoString := []
  Type_ : GoString := []
  Severity : GoString := []
  Confidence : GoString := []
  CWEs : List GoString := []
  CVEs : List GoString := []
  Mitigation : GoString := []
  Reference : GoString := []
  SafeExample : GoString := []
  UnsafeExample : GoString := []
deriving DecidableEq, Repr

structure Finding where
  ID : GoString := []
  Name : GoString := []
  Severity : GoString := []
  CodeSample : GoString := []
  Confidence : GoString := []
  Description : GoString := []
  Location : Option SourceRef := none
deriving DecidableEq, Repr

structure ExpressionDockerfileConstraint where
  ExprKind : GoString := []
  KindAlias : GoString := []
  Check : GoString
deriving DecidableEq, Repr

/-- The `Expression` interface as `DockerfileRunner.Eval` sees it: either the dynamic
type is `*ExpressionDockerfileConstraint`, or it is another implementation, of which
the runner only calls the method `MatchCommand(subject, command, raw)`. -/
inductive Expression where
  | DockerfileConstraint (e : ExpressionDockerfileConstraint)
  | PerStep (MatchCommand : GoString → Option Instruction → GoString → Bool)

structure BaseRule where
  Target : GoString := []
  Phase : GoString := []
  Subject : GoString := []
  Expression : Option Expression := none
  Metadata : Option Metadata := none

/-- The `Driver` interface over a driver state `σ`; `δ` is the domain context handed
to the runner. `Next` answers `(step, hasNext, err)`, `Transfer` answers `err`, and both
may change the driver. -/
structure Driver (σ δ : Type) where
  Target : σ → GoString
  Next : σ → σ × (Step × Bool × Option GoString)
  Transfer : σ → Step → σ × Option GoString
  DomainContext : σ → δ

/-- The `Runner` interface. -/
structure Runner (δ : Type) where
  Target : GoString
  Eval : δ → BaseRule → Step → List Finding

structure Engine (δ : Type) where
  rules : List BaseRule
  runners : List (GoString × Runner δ)

/-! ## internal/engine/engine.go: functions -/

def sameString (T : CaseTables) (x y : GoString) : Bool :=
  strings.EqualFold T (strings.TrimSpace x) (strings.TrimSpace y)

def matchPhase (T : CaseTables) (rulePhase actual : GoString) : Bool :=
  if sameString T rulePhase actual then true
  else if strings.TrimSpace rulePhase = [] then actual == "post".data
  else false

def New {δ : Type} (T : CaseTables) (rules : List BaseRule) (runners : List (Runner δ)) :
    Engine δ :=
  { rules := rules
    runners := runners.foldl (fun m runner => mapSet m (strings.ToLower T runner.Target) runner) [] }

def Engine.evalPhase {σ δ : Type} (T : CaseTables) (e : Engine δ) (runner : Runner δ)
    (driver : Driver σ δ) (d : σ) (step : Step) (phase : GoString) : List Finding :=
  e.rules.foldl
    (fun findings rule =>
      if !sameString T rule.Target step.Target then findings
      else if !matchPhase T rule.Phase phase then findings
      else findings ++ runner.Eval (driver.DomainContext d) rule step)
    []

/-- The `for` loop of `Engine.Run`, one iteration per unit of fuel. The answer is the
driver as the loop leaves it, the findings and the error. -/
def Engine.runLoop {σ δ : Type} (T : CaseTables) (e : Engine δ) (runner : Runner δ)
    (driver : Driver σ δ) : Nat → σ → List Finding → Option (σ × List Finding × Option GoString)
  | 0, _, _ => none
  | fuel + 1, d, findings =>
    match driver.Next d with
    | (d1, (_, _, some err)) => some (d1, findings, some err)
    | (d1, (step, hasNext, none)) =>
      if !hasNext then some (d1, findings, none)
      else
        let findings1 := findings ++ e.evalPhase T runner driver d1 step "pre".data
        match driver.Transfer d1 step with
        | (d2, some err) => some (d2, findings1, some err)
        | (d2, none) =>
          Engine.runLoop T e runner driver fuel d2
            (findings1 ++ e.evalPhase T runner driver d2 step "post".data)

def Engine.Run {σ δ : Type} (T : CaseTables) (e : Engine δ) (driver : Driver σ δ) (fuel : Nat)
    (d : σ) : Option (σ × List Finding × Option GoString) :=
  match mapGet e.runners (strings.ToLower T (driver.Target d)) with
  | none => some (d, [], none)
  | some runner => Engine.runLoop T e runner driver fuel d []

/-! ## internal/dockerfile/context.go: functions -/

/-- Go `instructionStage`, applied to the `Name` and `BaseName` of the stage header. -/
def instructionStage (index : Nat) (stgName stgBaseName : GoString) : DockerStageState :=
  { StageIndex := index, StageName := stgName, BaseImage := stgBaseName, Env := [], Args := [] }

def DockerStageEval.startStage (d : DockerStageEval) (stg : DockerStageState) : DockerStageEval :=
  let d1 := if d.hasFinal then { d with Stages := d.Stages ++ [d.Final] } else d
  { d1 with Final := stg, hasFinal := true }

def DockerStageEval.ensureFinalized (d : DockerStageEval) : DockerStageEval :=
  if !d.hasFinal then d
  else { d with Stages := d.Stages ++ [d.Final], hasFinal := false }

/-! ## internal/dockerfile/driver_runner.go -/

def targetDockerfile : GoString := "dockerfile".data

/-- Driver of one recipe. `df` is `none` for a nil `*Dockerfile`, otherwise the nodes
of the recipe; `dom` is the stage model the driver points to (never nil once the
driver comes from `NewDockerfileDriver`). -/
structure DockerfileDriver where
  df : Option (List Node)
  i : Nat := 0
  dom : DockerStageEval
  finalized : Bool := false
  eofSent : Bool := false

def NewDockerfileDriver (df : Option (List Node)) (dom : Option DockerStageEval) :
    DockerfileDriver :=
  let dom1 := match dom with
    | none => ({} : DockerStageEval)
    | some m => m
  { df := df, dom := dom1 }

def dockerSubject : Instruction → GoString
  | .Stage _ _ _ _ => "from".data
  | .RunCommand _ _ _ => "run".data
  | .UserCommand _ _ => "user".data
  | .EnvCommand _ _ => "env".data
  | .WorkdirCommand _ _ => "workdir".data
  | .ArgCommand _ _ => "arg".data
  | .ShellCommand _ _ => "shell".data
  | .EntrypointCommand _ _ => "entrypoint".data
  | .CmdCommand _ _ => "cmd".data
  | .CopyCommand _ _ => "copy".data
  | .AddCommand _ => "add".data
  | .HealthCheckCommand _ => "healthcheck".data
  | .ExposeCommand _ => "expose".data
  | .Other _ => "unknown".data

def dockerRaw : Instruction → GoString
  | .Stage _ BaseName SourceCode OrigCmd =>
    if SourceCode ≠ [] then SourceCode
    else if OrigCmd ≠ [] then OrigCmd
    else "FROM ".data ++ BaseName
  | .RunCommand text _ _ => text
  | .UserCommand text _ => text
  | .EnvCommand text _ => text
  | .WorkdirCommand text _ => text
  | .ArgCommand text _ => text
  | .ShellCommand text _ => text
  | .EntrypointCommand text _ => text
  | .CmdCommand text _ => text
  | .CopyCommand text _ => text
  | .AddCommand text => text
  | .HealthCheckCommand text => text
  | .ExposeCommand text => text
  | .Other (some text) => text
  | .Other none => []

def nodeLocation (node : Node) : SourceRef :=
  { Start := { Line := node.StartLine, Character := 0 }
    End := { Line := node.EndLine, Character := 0 } }

/-- The terminal step `engine.Step{Target: targetDockerfile, Subject: "eof", Raw: ""}`. -/
def eofStep : Step :=
  { Target := targetDockerfile, Subject := "eof".data, Raw := [] }

def DockerfileDriver.Target (_d : DockerfileDriver) : GoString := targetDockerfile

def DockerfileDriver.DomainContext (d : DockerfileDriver) : Option DockerStageEval :=
  some d.dom

def DockerfileDriver.Next (d : DockerfileDriver) :
    DockerfileDriver × (Step × Bool × Option GoString) :=
  match d.df with
  | none => (d, ({}, false, none))
  | some nodes =>
    if h : nodes.length ≤ d.i then
      let d1 := if !d.finalized then
          { d with dom := d.dom.ensureFinalized, finalized := true }
        else d
      if !d1.eofSent then ({ d1 with eofSent := true }, (eofStep, true, none))
      else (d1, ({}, false, none))
    else
      let node := nodes.get ⟨d.i, Nat.lt_of_not_le h⟩
      let d1 := { d with i := d.i + 1 }
      match node.parsed with
      | .error err => (d1, ({}, false, some err))
      | .ok instruction =>
        (d1, ({ Target := targetDockerfile
                Subject := dockerSubject instruction
                Raw := dockerRaw instruction
                Location := some (nodeLocation node)
                Command := some instruction }, true, none))

def buildHints : List GoString :=
  [ "apk add build-base".data, "build-essential".data, "apt-get install gcc".data,
    "apt-get install g++".data, " apt install gcc".data, " apt install g++".data,
    " make ".data, "go build".data, "gradle build".data, "mvn package".data,
    "cargo build".data ]

def runLooksLikeBuildTooling (T : CaseTables) (raw : GoString) : Bool :=
  let r := strings.ToLower T raw
  buildHints.any (fun hint => strings.Contains r hint)

/-- Body of `DockerfileDriver.Transfer` on the stage model: the `switch` over the
dynamic type of `step.Command`. -/
def transferDom (T : CaseTables) (dom : DockerStageEval) (step : Step) : DockerStageEval :=
  let location : SourceRef := step.Location.getD {}
  match step.Command with
  | some (.Stage Name BaseName _ _) =>
    dom.startStage (instructionStage dom.Stages.length Name BaseName)
  | some (.UserCommand _ User) =>
    if !dom.hasFinal then dom
    else { dom with Final := { dom.Final with
             User := { Val := { Kind := "literal".data, Known := User }, Location := location }
             HasUser := true } }
  | some (.WorkdirCommand _ Path) =>
    if !dom.hasFinal then dom
    else { dom with Final := { dom.Final with
             Workdir := { Val := { Kind := "literal".data, Known := Path }, Location := location } } }
  | some (.EnvCommand _ Env) =>
    if !dom.hasFinal then dom
    else { dom with Final := { dom.Final with
             Env := Env.foldl (fun m kv => mapSet m kv.Key
               { Val := { Kind := "literal".data, Known := kv.Value }, Location := location })
               dom.Final.Env } }
  | some (.ArgCommand _ Args) =>
    if !dom.hasFinal then dom
    else { dom with Final := { dom.Final with
             Args := Args.foldl (fun m kv => mapSet m kv.Key
               { Val := { Kind := "literal".data, Known := kv.Value.getD [] }, Location := location })
               dom.Final.Args } }
  | some (.ShellCommand _ Shell) =>
    if !dom.hasFinal then dom
    else { dom with Final := { dom.Final with Shell := { Val := Shell, Location := location } } }
  | some (.EntrypointCommand _ CmdLine) =>
    if !dom.hasFinal then dom
    else { dom with Final := { dom.Final with
             Entrypoint := { Val := CmdLine, Location := location } } }
  | some (.CmdCommand _ CmdLine) =>
    if !dom.hasFinal then dom
    else { dom with Final := { dom.Final with Cmd := { Val := CmdLine, Location := location } } }
  | some (.CopyCommand _ From) =>
    if !dom.hasFinal then dom
    else if strings.TrimSpace From ≠ [] then
      { dom with Final := { dom.Final with HasCopyFrom := true } }
    else dom
  | some (.HealthCheckCommand _) =>
    if !dom.hasFinal then dom
    else { dom with Final := { dom.Final with HasHealthcheck := true } }
  | some (.RunCommand _ _ _) =>
    if !dom.hasFinal then dom
    else if runLooksLikeBuildTooling T step.Raw then
      { dom with Final := { dom.Final with HasBuildTooling := true } }
    else dom
  | _ => dom

/-- Go `DockerfileDriver.Transfer`: it only touches the stage model and never returns an
error. The guard `d.dom == nil` of the source has no counterpart, `dom` being never nil
here. -/
def DockerfileDriver.Transfer (T : CaseTables) (d : DockerfileDriver) (step : Step) :
    DockerfileDriver × Option GoString :=
  ({ d with dom := transferDom T d.dom step }, none)

def buildFinding (rule : BaseRule) (step : Step) : Finding :=
  let finding : Finding := { CodeSample := step.Raw, Location := step.Location }
  match rule.Metadata with
  | some md =>
    { finding with ID := md.ID, Name := md.Name, Severity := md.Severity
                   Confidence := md.Confidence, Description := md.Description }
  | none => finding

/-- Go `matchesDockerfileConstraint`; `none` is the nil pointer. -/
def matchesDockerfileConstraint (dom : Option DockerStageEval) (check : GoString) : Bool :=
  match dom with
  | none => false
  | some m =>
    if h : m.Stages.length = 0 then false
    else
      let finalStage := m.Stages.get ⟨m.Stages.length - 1, Nat.sub_lt (Nat.pos_of_ne_zero h) Nat.one_pos⟩
      if check = "missing_user_final_stage".data then !finalStage.HasUser
      else if check = "missing_healthcheck_final_stage".data then !finalStage.HasHealthcheck
      else if check = "missing_copy_from_in_multistage".data then
        decide (m.Stages.length ≥ 2) && !finalStage.HasCopyFrom
      else if check = "single_stage_with_build_tools".data then
        decide (m.Stages.length = 1) && finalStage.HasBuildTooling
      else false

/-- Go `DockerfileRunner.evalDockerfileConstraint`; a `dom` that is not a
`*DockerStageEval` is `none`. -/
def evalDockerfileConstraint (rule : BaseRule) (step : Step) (dom : Option DockerStageEval)
    (expression : ExpressionDockerfileConstraint) : List Finding :=
  if step.Subject ≠ "eof".data then []
  else
    match dom with
    | none => []
    | some state =>
      if !matchesDockerfileConstraint (some state) expression.Check then []
      else [buildFinding rule step]

def DockerfileRunner.Eval (T : CaseTables) (dom : Option DockerStageEval) (rule : BaseRule)
    (step : Step) : List Finding :=
  if !strings.EqualFold T (strings.TrimSpace rule.Subject) (strings.TrimSpace step.Subject) then []
  else
    match rule.Expression with
    | none => []
    | some (.DockerfileConstraint expression) => evalDockerfileConstraint rule step dom expression
    | some (.PerStep MatchCommand) =>
      if !MatchCommand step.Subject step.Command step.Raw then []
      else [buildFinding rule step]

/-- The `DockerfileRunner` as a value of the `Runner` interface. -/
def dockerfileRunner (T : CaseTables) : Runner (Option DockerStageEval) :=
  { Target := targetDockerfile, Eval := DockerfileRunner.Eval T }

/-- The `DockerfileDriver` as a value of the `Driver` interface. -/
def dockerfileDriver (T : CaseTables) : Driver DockerfileDriver (Option DockerStageEval) :=
  { Target := DockerfileDriver.Target
    Next := DockerfileDriver.Next
    Transfer := DockerfileDriver.Transfer T
    DomainContext := DockerfileDriver.DomainContext }

/-- Go `Dockerfile.Validate` on the nodes of a recipe. Besides the findings and the
error the answer holds the driver at the end of the run, whose `dom` is the stage
model the recipe keeps in its `context` field. -/
def Validate (T : CaseTables) (nodes : List Node) (rules : List BaseRule) (fuel : Nat) :
    Option (DockerfileDriver × List Finding × Option GoString) :=
  let dom : DockerStageEval := {}
  let driver := NewDockerfileDriver (some nodes) (some dom)
  let eng := New T rules [dockerfileRunner T]
  eng.Run T (dockerfileDriver T) fuel driver

/-! ## Reference definitions used by the statements -/

/-- The phase tag of a rule is `pre`: trimmed and compared without regard to case. -/
def phaseIsPre (T : CaseTables) (p : GoString) : Bool :=
  strings.EqualFold T (strings.TrimSpace p) "pre".data

/-- The phase tag of a rule is `post` (trimmed, without regard to case) or empty. -/
def phaseIsPostOrEmpty (T : CaseTables) (p : GoString) : Bool :=
  strings.EqualFold T (strings.TrimSpace p) "post".data || (strings.TrimSpace p).isEmpty

/-- Findings of one pass over one step: the rules of the catalog, in order, whose target
matches the step target and whose phase is in the pass, each evaluated by the runner on
the domain context `dom`. -/
def passFindings {δ : Type} (T : CaseTables) (rules : List BaseRule) (runner : Runner δ)
    (dom : δ) (step : Step) (inPass : GoString → Bool) : List Finding :=
  ((rules.filter (fun rule => sameString T rule.Target step.Target && inPass rule.Phase)).map
    (fun rule => runner.Eval dom rule step)).flatten

/-- A driver in state `d` yields the steps of `tr` and then reports that there are no
more, without error, ending in state `dEnd`. Each entry of `tr` holds a step, the driver
state in which `Next` left it (before the transfer) and the state after its transfer. -/
inductive Yields {σ δ : Type} (D : Driver σ δ) : σ → List (Step × σ × σ) → σ → Prop where
  | done (d d1 : σ) (step : Step) :
      D.Next d = (d1, (step, false, none)) → Yields D d [] d1
  | step (d d1 d2 dEnd : σ) (s : Step) (rest : List (Step × σ × σ)) :
      D.Next d = (d1, (s, true, none)) → D.Transfer d1 s = (d2, none) →
      Yields D d2 rest dEnd → Yields D d ((s, d1, d2) :: rest) dEnd

/-- What the specification expects of `Engine.Run` on a trace: per step, the pre-pass on
the context before the transfer, then the post-pass on the context after it. -/
def expectedFindings {σ δ : Type} (T : CaseTables) (rules : List BaseRule) (runner : Runner δ)
    (D : Driver σ δ) (tr : List (Step × σ × σ)) : List Finding :=
  (tr.map (fun x =>
    passFindings T rules runner (D.DomainContext x.2.1) x.1 (phaseIsPre T) ++
    passFindings T rules runner (D.DomainContext x.2.2) x.1 (phaseIsPostOrEmpty T))).flatten

/-- Reference semantics of the closed check set (section 4.5 of the specification), on
the last stage of the list. -/
def constraintSpec (m : DockerStageEval) (check : GoString) : Bool :=
  match m.Stages.getLast? with
  | none => false
  | some f =>
    if check = "missing_user_final_stage".data then !f.HasUser
    else if check = "missing_healthcheck_final_stage".data then !f.HasHealthcheck
    else if check = "missing_copy_from_in_multistage".data then
      decide (2 ≤ m.Stages.length) && !f.HasCopyFrom
    else if check = "single_stage_with_build_tools".data then
      decide (m.Stages.length = 1) && f.HasBuildTooling
    else false

/-- The step `DockerfileDriver.Next` builds from a node and the instruction parsed from
it. -/
def instructionStep (node : Node) (instruction : Instruction) : Step :=
  { Target := targetDockerfile
    Subject := dockerSubject instruction
    Raw := dockerRaw instruction
    Location := some (nodeLocation node)
    Command := some instruction }

/-- Steps of a recipe whose nodes parse to the instructions `instrs`, in source order. -/
def recipeSteps (nodes : List Node) (instrs : List Instruction) : List Step :=
  List.zipWith instructionStep nodes instrs

/-- Answers of `k` successive calls of `DockerfileDriver.Next`. -/
def nextCalls : Nat → DockerfileDriver → List (Step × Bool × Option GoString)
  | 0, _ => []
  | k + 1, d => (DockerfileDriver.Next d).2 :: nextCalls k (DockerfileDriver.Next d).1

/-- Node on line `line` that parses to `instruction`. -/
def nodeOf (line : Int) (instruction : Instruction) : Node :=
  { StartLine := line, EndLine := line, parsed := .ok instruction }

/-- Stage header with source text `source`, as `FROM base` or `FROM base AS name`. -/
def fromInstr (name base source : GoString) : Instruction :=
  .Stage name base source "FROM".data

/-- Shell-form `RUN script`. -/
def runInstr (script : GoString) : Instruction :=
  .RunCommand ("RUN ".data ++ script) [script] []

/-- Instructions of the recipe `FROM ubuntu` / `RUN apt-get install gcc`. -/
def gccInstrs : List Instruction :=
  [fromInstr [] "ubuntu".data "FROM ubuntu".data, runInstr "apt-get install gcc".data]

/-- Instructions of the recipe `FROM ubuntu` / `RUN apt-get install -y gcc`. -/
def gccYesInstrs : List Instruction :=
  [fromInstr [] "ubuntu".data "FROM ubuntu".data, runInstr "apt-get install -y gcc".data]

/-- Instructions of the recipe
`FROM build AS b` / `RUN go build .` / `FROM alpine` / `CMD ["/app"]`. -/
def multiStageInstrs : List Instruction :=
  [ fromInstr "b".data "build".data "FROM build AS b".data, runInstr "go build .".data,
    fromInstr [] "alpine".data "FROM alpine".data,
    .CmdCommand "CMD [\"/app\"]".data ["/app".data] ]

/-- Instructions of the recipe `FROM a` / `FROM b`. -/
def twoFromInstrs : List Instruction :=
  [fromInstr [] "a".data "FROM a".data, fromInstr [] "b".data "FROM b".data]

/-- Instructions of the recipe `FROM a` / `COPY --from=" " x y`, whose `from` is one
blank. -/
def blankCopyInstrs : List Instruction :=
  [fromInstr [] "a".data "FROM a".data, .CopyCommand "COPY --from=  x y".data " ".data]

/-- Nodes of a recipe with the given instructions, one per line from line `line` on. -/
def nodesOf : Int → List Instruction → List Node
  | _, [] => []
  | line, x :: xs => nodeOf line x :: nodesOf (line + 1) xs

/-- Rule of target `dockerfile` and phase `post` with a constraint expression. -/
def constraintRule (subject check : GoString) : BaseRule :=
  { Target := "dockerfile".data, Phase := "post".data, Subject := subject
    Expression := some (.DockerfileConstraint { Check := check }) }

/-- The instruction is a stage header (`FROM`). -/
def Instruction.isStage : Instruction → Bool
  | .Stage _ _ _ _ => true
  | _ => false

/-- The instruction is a `USER` instruction. -/
def Instruction.isUser : Instruction → Bool
  | .UserCommand _ _ => true
  | _ => false

/-- The instruction is a `HEALTHCHECK` instruction. -/
def Instruction.isHealthcheck : Instruction → Bool
  | .HealthCheckCommand _ => true
  | _ => false

/-- The instruction is a `COPY` whose `from` is not the empty string. -/
def Instruction.isCopyNonEmptyFrom : Instruction → Bool
  | .CopyCommand _ From => !From.isEmpty
  | _ => false

/-- The instruction is a `COPY` whose `from` is not empty once white space is trimmed. -/
def Instruction.isCopyNonBlankFrom : Instruction → Bool
  | .CopyCommand _ From => !(strings.TrimSpace From).isEmpty
  | _ => false

/-- The instructions that come after the last stage header of the list (all of them when
there is none). -/
def afterLastStage (instrs : List Instruction) : List Instruction :=
  (instrs.reverse.takeWhile (fun x => !x.isStage)).reverse

/-- The stage model after the steps built from the pairs `ps` have been transferred, in
order, into the empty model. -/
def domAfter (T : CaseTables) (ps : List (Node × Instruction)) : DockerStageEval :=
  (ps.map (fun q => instructionStep q.1 q.2)).foldl (transferDom T) {}

/-- Stage model with one finalized stage that has no `USER` instruction. -/
def noUserModel : DockerStageEval :=
  { Stages := [{ BaseImage := "alpine".data }] }

/-- The driver has delivered every node of its recipe. -/
def DockerfileDriver.exhausted (d : DockerfileDriver) : Bool :=
  match d.df with
  | none => false
  | some nodes => decide (nodes.length ≤ d.i)

/-- Driver of the recipe `FROM a` once the stage header has been delivered and
transferred: its stage is open, and the next call of `Next` is the one that answers `eof`. -/
def openStageDriver : DockerfileDriver :=
  let d0 := NewDockerfileDriver (some (nodesOf 1 [fromInstr [] "a".data "FROM a".data])) none
  let a := DockerfileDriver.Next d0
  (DockerfileDriver.Transfer asciiTables a.1 a.2.1).1

/-- Findings the specification expects of a run over the Dockerfile driver, by recursion
on the instruction steps still to come: per step the pre-pass on the model before the
transfer and the post-pass on the model after it; at the end both passes of the `eof`
step, on the finalized model. -/
def recipeFindings (T : CaseTables) (rules : List BaseRule)
    (runner : Runner (Option DockerStageEval)) : DockerStageEval → List Step → List Finding
  | dom, [] =>
    passFindings T rules runner (some dom.ensureFinalized) eofStep (phaseIsPre T) ++
    passFindings T rules runner (some dom.ensureFinalized) eofStep (phaseIsPostOrEmpty T)
  | dom, s :: rest =>
    passFindings T rules runner (some dom) s (phaseIsPre T) ++
    passFindings T rules runner (some (transferDom T dom s)) s (phaseIsPostOrEmpty T) ++
    recipeFindings T rules runner (transferDom T dom s) rest

/-- Recipe `FROM ubuntu` followed by a `RUN` instruction whose `String()` is `raw`. -/
def ubuntuRun (raw : GoString) (cmdLine flags : List GoString) : List Instruction :=
  [fromInstr [] "ubuntu".data "FROM ubuntu".data, .RunCommand raw cmdLine flags]

/-- Constraint rule `single_stage_with_build_tools` with subject `eof`. -/
def buildToolsRule : BaseRule :=
  constraintRule "eof".data "single_stage_with_build_tools".data

/-- The step carries a stage header (`*instructions.Stage`). -/
def Step.isStageHeader (step : Step) : Bool :=
  match step.Command with
  | some (.Stage _ _ _ _) => true
  | _ => false

/-- A driver in state `d` yields the steps of `tr` without error and then fails with
`err`: either `Next` returns the error (`cur` is `none`), or `Next` delivers one more step
and its `Transfer` returns the error (`cur` holds that step and the driver state before
the transfer). `dErr` is the driver state the failing call leaves. -/
inductive Fails {σ δ : Type} (D : Driver σ δ) :
    σ → List (Step × σ × σ) → Option (Step × σ) → σ → GoString → Prop where
  | nextError (d d1 : σ) (step : Step) (hasNext : Bool) (err : GoString) :
      D.Next d = (d1, (step, hasNext, some err)) → Fails D d [] none d1 err
  | transferError (d d1 d2 : σ) (s : Step) (err : GoString) :
      D.Next d = (d1, (s, true, none)) → D.Transfer d1 s = (d2, some err) →
      Fails D d [] (some (s, d1)) d2 err
  | step (d d1 d2 dErr : σ) (s : Step) (rest : List (Step × σ × σ)) (cur : Option (Step × σ))
      (err : GoString) :
      D.Next d = (d1, (s, true, none)) → D.Transfer d1 s = (d2, none) →
      Fails D d2 rest cur dErr err → Fails D d ((s, d1, d2) :: rest) cur dErr err

/-- Pre-pass findings of the step whose transfer failed, if the error came from
`Transfer`. -/
def failingStepFindings {σ δ : Type} (T : CaseTables) (rules : List BaseRule) (runner : Runner δ)
    (D : Driver σ δ) : Option (Step × σ) → List Finding
  | none => []
  | some (s, d1) => passFindings T rules runner (D.DomainContext d1) s (phaseIsPre T)

/-- The runner `New` leaves in the map under the lower-cased `target`: the last of the
registered runners whose lower-cased target is that key. -/
def lastRunnerFor {δ : Type} (T : CaseTables) (runners : List (Runner δ)) (target : GoString) :
    Option (Runner δ) :=
  (runners.filter (fun r => strings.ToLower T r.Target == strings.ToLower T target)).getLast?

/-- The Dockerfile driver, except that its target is reported with a leading blank. -/
def spacedDriver : Driver DockerfileDriver (Option DockerStageEval) :=
  { dockerfileDriver asciiTables with Target := fun _ => " dockerfile".data }

/-- Nodes of the recipe `FROM ubuntu` followed by a line that does not parse. -/
def brokenNodes : List Node :=
  [ nodeOf 1 (fromInstr [] "ubuntu".data "FROM ubuntu".data),
    { StartLine := 2, EndLine := 2, parsed := .error "unknown instruction".data } ]

/-- Step of a `USER app` instruction on line 2. -/
def userStep : Step :=
  instructionStep (nodeOf 2 (.UserCommand "USER app".data "app".data))
    (.UserCommand "USER app".data "app".data)

/-- Step of `RUN go build .` on line 3. -/
def goBuildStep : Step :=
  instructionStep (nodeOf 3 (runInstr "go build .".data)) (runInstr "go build .".data)

/-- Driver of the recipe `FROM a` after the stage header and a `USER app` step have been
transferred. -/
def userSetDriver : DockerfileDriver :=
  (DockerfileDriver.Transfer asciiTables openStageDriver userStep).1

/-! ## internal/entities/expression.go: matchers and the match DSL

The regular expressions of Go's `regexp` package are not part of the repository: a
compiled expression is a value of `Regexp`, and `regexp.Compile` is the field `Compile` of
a parameter `R : RegexLib`. -/

/-- A compiled `*regexp.Regexp`, as far as the code uses it. -/
structure Regexp where
  MatchString : GoString → Bool
  FindString : GoString → GoString

/-- Go `regexp.Compile`: `none` when the pattern does not compile. -/
structure RegexLib where
  Compile : GoString → Option Regexp

/-- Regular expressions restricted to patterns without metacharacters: such a pattern
matches exactly where it occurs literally. Used to evaluate the code on closed examples. -/
def literalRegex : RegexLib :=
  { Compile := fun p => some
      { MatchString := fun s => strings.Contains s p
        FindString := fun s => if strings.Contains s p then p else [] } }

structure Matcher where
  Op : GoString := []
  Value : GoString := []
  Values : List GoString := []
  Pattern : GoString := []
  compiled : Option Regexp := none

/-- Fields of a matcher as `encoding/json` decodes them from the rule file, before
`Matcher.UnmarshalJSON` normalizes them. -/
structure MatcherJSON where
  Op : GoString := []
  Value : GoString := []
  Values : List GoString := []
  Pattern : GoString := []

def toLowerSlice (T : CaseTables) (input : List GoString) : List GoString :=
  input.map (fun item => strings.ToLower T (strings.TrimSpace item))

/-- Go `Matcher.UnmarshalJSON`, from the decoded fields `aux` on; `m` is the receiver, whose
`compiled` field is kept unless the op is `regex`. -/
def Matcher.UnmarshalJSON (T : CaseTables) (R : RegexLib) (m : Matcher) (aux : MatcherJSON) :
    Except GoString Matcher :=
  let m1 : Matcher :=
    { m with Op := strings.ToLower T (strings.TrimSpace aux.Op)
             Value := strings.ToLower T aux.Value
             Pattern := aux.Pattern
             Values := toLowerSlice T aux.Values }
  if m1.Op = "regex".data then
    match R.Compile m1.Pattern with
    | none => .error ("compile regex pattern ".data ++ m1.Pattern)
    | some rgx => .ok { m1 with compiled := some rgx }
  else .ok m1

/-- Go `(*Matcher).Match`; `none` is the nil receiver. The source also caches the
expression it compiles on the way, which does not change any answer. -/
def Matcher.Match (T : CaseTables) (R : RegexLib) (m : Option Matcher) (input : GoString) :
    Bool :=
  match m with
  | none => true
  | some m =>
    let value := strings.ToLower T input
    if m.Op = "eq".data then value == m.Value
    else if m.Op = "contains".data then strings.Contains value m.Value
    else if m.Op = "in".data then m.Values.any (fun item => value == item)
    else if m.Op = "regex".data then
      match m.compiled with
      | some rgx => rgx.MatchString input
      | none =>
        match R.Compile m.Pattern with
        | none => false
        | some rgx => rgx.MatchString input
    else false

structure CallArgs where
  Any : List (Option Matcher) := []
  All : List (Option Matcher) := []

/-- Go `ExprNode`: one record with every field, the children being pointers that may be
nil. -/
inductive ExprNode where
  | mk (Op : GoString) (Args : List (Option ExprNode)) (Arg Where Left Right : Option ExprNode)
      (Name : Option Matcher) (Call : Option CallArgs) (MountType : GoString)
      (Target : Option Matcher) (Has Missing : List GoString) (ID Sharing : Option Matcher)

def ExprNode.Op : ExprNode → GoString
  | .mk Op _ _ _ _ _ _ _ _ _ _ _ _ _ => Op

def ExprNode.Name : ExprNode → Option Matcher
  | .mk _ _ _ _ _ _ Name _ _ _ _ _ _ _ => Name

def ExprNode.Call : ExprNode → Option CallArgs
  | .mk _ _ _ _ _ _ _ Call _ _ _ _ _ _ => Call

def ExprNode.MountType : ExprNode → GoString
  | .mk _ _ _ _ _ _ _ _ MountType _ _ _ _ _ => MountType

def ExprNode.Target : ExprNode → Option Matcher
  | .mk _ _ _ _ _ _ _ _ _ Target _ _ _ _ => Target

def ExprNode.Has : ExprNode → List GoString
  | .mk _ _ _ _ _ _ _ _ _ _ Has _ _ _ => Has

def ExprNode.Missing : ExprNode → List GoString
  | .mk _ _ _ _ _ _ _ _ _ _ _ Missing _ _ => Missing

def ExprNode.ID : ExprNode → Option Matcher
  | .mk _ _ _ _ _ _ _ _ _ _ _ _ ID _ => ID

def ExprNode.Sharing : ExprNode → Option Matcher
  | .mk _ _ _ _ _ _ _ _ _ _ _ _ _ Sharing => Sharing

def ExprNode.Args : ExprNode → List (Option ExprNode)
  | .mk _ Args _ _ _ _ _ _ _ _ _ _ _ _ => Args

def ExprNode.Arg : ExprNode → Option ExprNode
  | .mk _ _ Arg _ _ _ _ _ _ _ _ _ _ _ => Arg

def ExprNode.Where : ExprNode → Option ExprNode
  | .mk _ _ _ Where _ _ _ _ _ _ _ _ _ _ => Where

def ExprNode.Left : ExprNode → Option ExprNode
  | .mk _ _ _ _ Left _ _ _ _ _ _ _ _ _ => Left

def ExprNode.Right : ExprNode → Option ExprNode
  | .mk _ _ _ _ _ Right _ _ _ _ _ _ _ _ => Right

structure CallFact where
  Name : GoString := []
  Args : List GoString := []
deriving DecidableEq, Repr

structure PipeFact where
  First : CallFact := {}
  Last : CallFact := {}
deriving DecidableEq, Repr

structure MountSpec where
  Type_ : GoString := []
  Target : GoString := []
  ID : GoString := []
  Sharing : GoString := []
  Raw : GoString := []
  Options : List (GoString × GoString) := []
deriving DecidableEq, Repr

structure RunFacts where
  Calls : List CallFact := []
  Pipes : List PipeFact := []
  Mounts : List MountSpec := []
deriving DecidableEq, Repr

structure evalContext where
  facts : RunFacts := {}
  call : Option CallFact := none
  mount : Option MountSpec := none
  pipe : Option PipeFact := none
  selectScope : GoString := []
deriving DecidableEq, Repr

/-- Inner loop of `matchCall`: the first argument the matcher matches sets `matched`. -/
def argLoop (T : CaseTables) (R : RegexLib) (matcher : Option Matcher) : List GoString → Bool
  | [] => false
  | arg :: rest => if Matcher.Match T R matcher arg then true else argLoop T R matcher rest

/-- Loop of `matchCall` over `n.Call.Any`: it stops at the first matcher with a hit. -/
def anyLoop (T : CaseTables) (R : RegexLib) (args : List GoString) : List (Option Matcher) → Bool
  | [] => false
  | matcher :: rest => if argLoop T R matcher args then true else anyLoop T R args rest

/-- Loop of `matchCall` over `n.Call.All`: it fails at the first matcher without a hit. -/
def allLoop (T : CaseTables) (R : RegexLib) (args : List GoString) : List (Option Matcher) → Bool
  | [] => true
  | matcher :: rest => if !argLoop T R matcher args then false else allLoop T R args rest

def ExprNode.matchCall (T : CaseTables) (R : RegexLib) (n : ExprNode) (call : CallFact) : Bool :=
  if n.Name.isSome && !Matcher.Match T R n.Name call.Name then false
  else
    match n.Call with
    | none => true
    | some callArgs =>
      if callArgs.Any.length > 0 && !anyLoop T R call.Args callArgs.Any then false
      else allLoop T R call.Args callArgs.All

/-- Loop of `matchMount` over `n.Has`. -/
def hasLoop (options : List (GoString × GoString)) : List GoString → Bool
  | [] => true
  | key :: rest => if (mapGet options key).isNone then false else hasLoop options rest

/-- Loop of `matchMount` over `n.Missing`. -/
def missingLoop (options : List (GoString × GoString)) : List GoString → Bool
  | [] => true
  | key :: rest => if (mapGet options key).isSome then false else missingLoop options rest

def ExprNode.matchMount (T : CaseTables) (R : RegexLib) (n : ExprNode) (mount : MountSpec) :
    Bool :=
  if n.MountType ≠ [] && !strings.EqualFold T n.MountType mount.Type_ then false
  else if n.Target.isSome && !Matcher.Match T R n.Target mount.Target then false
  else if n.ID.isSome && !Matcher.Match T R n.ID mount.ID then false
  else if n.Sharing.isSome && !Matcher.Match T R n.Sharing mount.Sharing then false
  else if !hasLoop mount.Options n.Has then false
  else missingLoop mount.Options n.Missing

/-- Evaluation of a child pointer, once the child itself has been turned into its
evaluation function: a nil child is false. -/
def callEval (child : Option (evalContext → Bool)) (ctx : evalContext) : Bool :=
  match child with
  | none => false
  | some f => f ctx

/-- Loop of the case `all`: false at the first child that is false. -/
def evalAll : List (Option (evalContext → Bool)) → evalContext → Bool
  | [], _ => true
  | child :: rest, ctx => if !callEval child ctx then false else evalAll rest ctx

/-- Loop of the case `any`: true at the first child that is true. -/
def evalAny : List (Option (evalContext → Bool)) → evalContext → Bool
  | [], _ => false
  | child :: rest, ctx => if callEval child ctx then true else evalAny rest ctx

/-- Body of Go `(*ExprNode).eval` on the non-nil node `n`: the `switch` over `n.Op`. The
recursive calls `child.eval(ctx)` on the children of `n` go through `args` (for `n.Args`),
`arg`, `wh`, `left` and `right` (for `n.Arg`, `n.Where`, `n.Left`, `n.Right`), which hold
the evaluation functions of those children. -/
def evalBody (T : CaseTables) (R : RegexLib) (n : ExprNode)
    (args : List (Option (evalContext → Bool)))
    (arg wh left right : Option (evalContext → Bool)) (ctx : evalContext) : Bool :=
  if n.Op = "all".data then
    evalAll args ctx && decide (n.Args.length > 0)
  else if n.Op = "any".data then
    evalAny args ctx
  else if n.Op = "not".data then
    if n.Arg.isNone then false
    else !callEval arg ctx
  else if n.Op = "exists".data then
    match n.Where with
    | none => false
    | some w =>
      if w.Op = "call".data then
        ctx.facts.Calls.any (fun call => callEval wh { ctx with call := some call })
      else if w.Op = "pipe".data then
        ctx.facts.Pipes.any (fun pipe => callEval wh { ctx with pipe := some pipe })
      else if w.Op = "mount".data then
        ctx.facts.Mounts.any (fun mount => callEval wh { ctx with mount := some mount })
      else callEval wh ctx
  else if n.Op = "call".data then
    match ctx.call with
    | some call => n.matchCall T R call
    | none => ctx.facts.Calls.any (fun call => n.matchCall T R call)
  else if n.Op = "pipe".data then
    match ctx.pipe with
    | some pipe =>
      n.Left.isSome && n.Right.isSome && callEval left { ctx with call := some pipe.First }
        && callEval right { ctx with call := some pipe.Last }
    | none =>
      ctx.facts.Pipes.any (fun pipe =>
        n.Left.isSome && n.Right.isSome && callEval left { ctx with call := some pipe.First }
          && callEval right { ctx with call := some pipe.Last })
  else if n.Op = "mount".data then
    match ctx.mount with
    | some mount => n.matchMount T R mount
    | none => ctx.facts.Mounts.any (fun mount => n.matchMount T R mount)
  else false

mutual
/-- Go `(*ExprNode).eval` on a non-nil node: `evalBody` on the node, with its children
evaluated by `eval` itself. -/
def ExprNode.eval (T : CaseTables) (R : RegexLib) : ExprNode → evalContext → Bool
  | .mk Op Args Arg Where Left Right Name Call MountType Target Has Missing ID Sharing, ctx =>
    evalBody T R
      (.mk Op Args Arg Where Left Right Name Call MountType Target Has Missing ID Sharing)
      (evalChildren T R Args) (evalChild T R Arg) (evalChild T R Where) (evalChild T R Left)
      (evalChild T R Right) ctx
/-- Evaluation function of a child pointer (`none` for the nil pointer). -/
def evalChild (T : CaseTables) (R : RegexLib) :
    Option ExprNode → Option (evalContext → Bool)
  | none => none
  | some child => some (fun ctx => ExprNode.eval T R child ctx)
/-- Evaluation functions of the children in `n.Args`. -/
def evalChildren (T : CaseTables) (R : RegexLib) :
    List (Option ExprNode) → List (Option (evalContext → Bool))
  | [] => []
  | child :: rest => evalChild T R child :: evalChildren T R rest
end

/-- Go `(*ExprNode).eval` on a pointer: a nil node is false. -/
def ExprNode.evalPtr (T : CaseTables) (R : RegexLib) (n : Option ExprNode) (ctx : evalContext) :
    Bool :=
  match n with
  | none => false
  | some node => node.eval T R ctx

/-- Node `all{args}`, the other fields empty. -/
def nodeAll (args : List ExprNode) : ExprNode :=
  .mk "all".data (args.map some) none none none none none none [] none [] [] none none

/-- Node `any{args}`, the other fields empty. -/
def nodeAny (args : List ExprNode) : ExprNode :=
  .mk "any".data (args.map some) none none none none none none [] none [] [] none none

/-- Node `not{arg}`, the other fields empty. -/
def nodeNot (arg : ExprNode) : ExprNode :=
  .mk "not".data [] (some arg) none none none none none [] none [] [] none none

/-- Node `exists{where}`, the other fields empty. -/
def nodeExists (w : ExprNode) : ExprNode :=
  .mk "exists".data [] none (some w) none none none none [] none [] [] none none

/-- Node `call{name, args_match}`, the other fields empty. -/
def nodeCall (name : Option Matcher) (call : Option CallArgs) : ExprNode :=
  .mk "call".data [] none none none none name call [] none [] [] none none

/-- Node `pipe{left, right}`, the other fields empty. -/
def nodePipe (left right : ExprNode) : ExprNode :=
  .mk "pipe".data [] none none (some left) (some right) none none [] none [] [] none none

/-- Node `mount{type, has, missing}` without matchers. -/
def nodeMount (mountType : GoString) (has missing : List GoString) : ExprNode :=
  .mk "mount".data [] none none none none none none mountType none has missing none none

/-- The node `call{name: {op: eq, value: curl}}`. -/
def curlCall : ExprNode :=
  nodeCall (some { Op := "eq".data, Value := "curl".data }) none

/-- The node `call{name: {op: in, values: [sh, bash]}}`. -/
def shCall : ExprNode :=
  nodeCall (some { Op := "in".data, Values := ["sh".data, "bash".data] }) none

/-- The node `pipe{left: call{name eq curl}, right: call{name in [sh, bash]}}`. -/
def curlPipe : ExprNode := nodePipe curlCall shCall

/-- The expression
`exists{where: pipe{left: call{name eq curl}, right: call{name in [sh, bash]}}}`. -/
def curlPipeExpr : ExprNode := nodeExists curlPipe

/-- Facts of `RUN curl http://x | sh`: two calls and the pipe between them. -/
def curlFacts : RunFacts :=
  { Calls := [{ Name := "curl".data, Args := ["http://x".data] }, { Name := "sh".data }]
    Pipes := [{ First := { Name := "curl".data, Args := ["http://x".data] }
                Last := { Name := "sh".data } }] }

/-! ## internal/entities/expression.go: mount extraction -/

namespace strings

/-- Go `strings.Split(s, sep)` for a separator `sep` of one rune. -/
def Split (sep : Char) : GoString → List GoString
  | [] => [[]]
  | c :: cs =>
    if c == sep then [] :: Split sep cs
    else
      match Split sep cs with
      | [] => [[c]]
      | part :: parts => (c :: part) :: parts

/-- Go `strings.SplitN(s, sep, 2)` for a separator `sep` of one rune: the text before the
first `sep` and the text after it, or `s` alone when `sep` does not occur. -/
def SplitN2 (sep : Char) : GoString → List GoString
  | [] => [[]]
  | c :: cs =>
    if c == sep then [[], cs]
    else
      match SplitN2 sep cs with
      | [] => [[c]]
      | part :: parts => (c :: part) :: parts

/-- Go `strings.TrimPrefix`. -/
def TrimPrefix (s p : GoString) : GoString :=
  if HasPrefix s p then s.drop p.length else s

end strings

/-- The class `\s` of Go regular expressions: tab, line feed, form feed, carriage return
and blank. -/
def isRegexSpace (c : Char) : Bool :=
  c == '\t' || c == '\n' || c == '\x0c' || c == '\r' || c == ' '

/-- The text `--mount=`. -/
def mountFlag : GoString := "--mount=".data

/-- First groups of `regexp.MustCompile("--mount=([^\s]+)").FindAllStringSubmatch(raw, -1)`:
the text is read from left to right; where `--mount=` stands before at least one rune
outside `\s`, the longest run of such runes after it is a match, and the search goes on
behind the match; elsewhere it goes on one rune further. `skip` counts the runes of a
match still to be passed over. -/
def scanMounts : Nat → GoString → List GoString
  | _, [] => []
  | skip + 1, _ :: rest => scanMounts skip rest
  | 0, c :: rest =>
    if strings.HasPrefix (c :: rest) mountFlag then
      let run := ((c :: rest).drop mountFlag.length).takeWhile (fun x => !isRegexSpace x)
      if run.isEmpty then scanMounts 0 rest
      else run :: scanMounts (mountFlag.length + run.length - 1) rest
    else scanMounts 0 rest

/-- Inner loop of `parseRunMounts`: the options map of one mount spec. -/
def mountOptions (T : CaseTables) (rawValue : GoString) : List (GoString × GoString) :=
  (strings.Split ',' rawValue).foldl
    (fun options part =>
      let item := strings.TrimSpace part
      if item = [] then options
      else
        let chunks := strings.SplitN2 '=' item
        let key := strings.ToLower T (strings.TrimSpace (chunks.headD []))
        let value :=
          if chunks.length = 2 then strings.ToLower T (strings.TrimSpace (chunks.getD 1 []))
          else []
        mapSet options key value)
    []

/-- The `MountSpec` that `parseRunMounts` builds from the spec `rawValue`. -/
def mountSpecOf (T : CaseTables) (rawValue : GoString) : MountSpec :=
  let options := mountOptions T rawValue
  { Type_ := (mapGet options "type".data).getD []
    Target := (mapGet options "target".data).getD []
    ID := (mapGet options "id".data).getD []
    Sharing := (mapGet options "sharing".data).getD []
    Raw := rawValue
    Options := options }

/-- Outer loop of `parseRunMounts` over `flags`; `seen` holds the specs met so far. -/
def mountLoop (T : CaseTables) : List GoString → List GoString → List MountSpec
  | [], _ => []
  | flag :: rest, seen =>
    if !strings.HasPrefix flag mountFlag then mountLoop T rest seen
    else
      let rawValue := strings.TrimPrefix flag mountFlag
      if rawValue = [] then mountLoop T rest seen
      else if rawValue ∈ seen then mountLoop T rest seen
      else mountSpecOf T rawValue :: mountLoop T rest (rawValue :: seen)

def parseRunMounts (T : CaseTables) (command : Option Instruction) (raw : GoString) :
    List MountSpec :=
  let flags0 : List GoString :=
    match command with
    | some (.RunCommand _ _ FlagsUsed) => FlagsUsed
    | _ => []
  let flags := flags0 ++ (scanMounts 0 raw).map (fun m => mountFlag ++ m)
  mountLoop T flags []

/-- Reference: the distinct elements of a list, each at its first occurrence. -/
def firstOccurrences : List GoString → List GoString
  | [] => []
  | x :: xs => x :: (firstOccurrences xs).filter (fun y => y ≠ x)

/-- The non-empty specs of the flags of the form `--mount=<spec>` in a list of flags. -/
def flagSpecs (flags : List GoString) : List GoString :=
  ((flags.filter (fun flag => strings.HasPrefix flag mountFlag)).map
    (fun flag => flag.drop mountFlag.length)).filter (fun spec => spec ≠ [])

/-- The specs of the flags attached to the instruction that have the form
`--mount=<spec>` with a non-empty spec (buildkit records bare flag names in `FlagsUsed`,
so that there is none). -/
def attachedSpecs (command : Option Instruction) : List GoString :=
  match command with
  | some (.RunCommand _ _ FlagsUsed) => flagSpecs FlagsUsed
  | _ => []

/-- What a matcher with the decoded fields `aux` answers on `input` once loaded by
`Matcher.UnmarshalJSON`; `none` when the load fails. -/
def loadedMatch (T : CaseTables) (R : RegexLib) (aux : MatcherJSON) (input : GoString) :
    Option Bool :=
  match Matcher.UnmarshalJSON T R {} aux with
  | .ok m => some (Matcher.Match T R (some m) input)
  | .error _ => none

/-- The instruction `RUN --mount=type=secret,id=aws cat /run/secrets/aws`. -/
def secretRun : Instruction :=
  .RunCommand "RUN --mount=type=secret,id=aws cat /run/secrets/aws".data
    ["cat /run/secrets/aws".data] ["mount".data]

/-- The instruction
`RUN --mount=type=cache,target=/root/.cache --mount=type=secret,id=npm cmd`. -/
def cacheRun : Instruction :=
  .RunCommand "RUN --mount=type=cache,target=/root/.cache --mount=type=secret,id=npm cmd".data
    ["cmd".data] ["mount".data]

/-- Step of `RUN go build .` on line 1, as the first step of a recipe without stage
header. -/
def strayRunStep : Step :=
  instructionStep (nodeOf 1 (runInstr "go build .".data)) (runInstr "go build .".data)

/-! ## Go strings: upper case, fields, bytes, numerals -/

namespace strings

/-- Go `strings.ToUpper`: map every rune to upper case. -/
def ToUpper (T : CaseTables) (s : GoString) : GoString :=
  s.map T.upper

/-- Loop of `strings.Fields`; `cur` holds the runes of the field being read, last rune
first. -/
def fieldsLoop : GoString → GoString → List GoString
  | [], cur => if cur.isEmpty then [] else [cur.reverse]
  | c :: cs, cur =>
    if unicode.IsSpace c then
      if cur.isEmpty then fieldsLoop cs [] else cur.reverse :: fieldsLoop cs []
    else fieldsLoop cs (c :: cur)

/-- Go `strings.Fields`: the maximal runs of runes that are not white space. -/
def Fields (s : GoString) : List GoString :=
  fieldsLoop s []

end strings

namespace utf8

/-- Go `utf8.RuneLen` on a valid rune: the number of bytes of its encoding. -/
def RuneLen (c : Char) : Nat :=
  if c.toNat < 0x80 then 1
  else if c.toNat < 0x800 then 2
  else if c.toNat < 0x10000 then 3
  else 4

/-- Go `utf8.RuneError`, the rune a byte that starts no valid encoding reads as. -/
def RuneError : Char := Char.ofNat 0xFFFD

end utf8

/-- Go `len(s)` of a string: its length in bytes. -/
def byteLen (s : GoString) : Nat :=
  (s.map utf8.RuneLen).sum

/-- Go `s[n:]` of a string, for `n ≤ len(s)`: the text after the first `n` bytes. A cut
inside the encoding of a rune leaves the remaining bytes of that rune, each of which reads
as `utf8.RuneError`. -/
def byteDrop : Nat → GoString → GoString
  | _, [] => []
  | n, c :: cs =>
    if n = 0 then c :: cs
    else if utf8.RuneLen c ≤ n then byteDrop (n - utf8.RuneLen c) cs
    else List.replicate (utf8.RuneLen c - n) utf8.RuneError ++ cs

/-- Go `s[:n]` of a string, for `n ≤ len(s)`: the first `n` bytes. A cut inside the
encoding of a rune keeps the leading bytes of that rune, each of which reads as
`utf8.RuneError`. -/
def byteTake : Nat → GoString → GoString
  | _, [] => []
  | n, c :: cs =>
    if n = 0 then []
    else if utf8.RuneLen c ≤ n then c :: byteTake (n - utf8.RuneLen c) cs
    else List.replicate n utf8.RuneError

namespace strconv

/-- Value of a run of decimal digits, most significant first. -/
def digitsValue (s : GoString) : Nat :=
  s.foldl (fun n ch => n * 10 + (ch.toNat - 48)) 0

/-- Go `strconv.Atoi` where `int` has 64 bits: an optional sign `+` or `-` followed by one
or more ASCII digits, the value lying between `-2^63` and `2^63 - 1`; `none` stands for
the syntax error and for the range error. -/
def Atoi (s : GoString) : Option Int :=
  let neg := s.head? == some '-'
  let body := if s.head? == some '-' || s.head? == some '+' then s.drop 1 else s
  if body.isEmpty then none
  else if !body.all Char.isDigit then none
  else
    let n : Int := if neg then -(digitsValue body : Int) else (digitsValue body : Int)
    if -(2 ^ 63 : Int) ≤ n ∧ n < (2 ^ 63 : Int) then some n else none

end strconv

/-! ## internal/entities/expression.go: `ExpressionUserIDCompare` -/

/-- Go `extractUserID`: `none` stands for the answer `(0, false)`. -/
def extractUserID (T : CaseTables) (raw : GoString) : Option Int :=
  let clean := strings.TrimSpace raw
  if clean.isEmpty then none
  else
    let upper := strings.ToUpper T clean
    let clean :=
      if strings.HasPrefix upper "USER ".data then strings.TrimSpace (byteDrop 4 clean)
      else clean
    match strings.Fields clean with
    | [] => none
    | part :: _ =>
      let principal := (strings.Split ':' part).headD []
      if strings.EqualFold T principal "root".data then some 0
      else strconv.Atoi principal

def compareInt (left : Int) (op : GoString) (right : Int) : Bool :=
  let o := strings.TrimSpace op
  if o = ">".data then decide (left > right)
  else if o = ">=".data then decide (left ≥ right)
  else if o = "<".data then decide (left < right)
  else if o = "<=".data then decide (left ≤ right)
  else if o = "==".data ∨ o = "=".data then decide (left = right)
  else if o = "!=".data then decide (left ≠ right)
  else false

structure ExpressionUserIDCompare where
  ExprKind : GoString := []
  KindAlias : GoString := []
  Operator : GoString := []
  Value : Int := 0

def ExpressionUserIDCompare.Match (T : CaseTables) (e : ExpressionUserIDCompare)
    (input : GoString) : Bool :=
  match extractUserID T input with
  | none => false
  | some uid => compareInt uid e.Operator e.Value

def ExpressionUserIDCompare.MatchCommand (T : CaseTables) (e : ExpressionUserIDCompare)
    (subject : GoString) (_command : Option Instruction) (raw : GoString) : Bool :=
  if !strings.EqualFold T (strings.TrimSpace subject) "user".data then false
  else e.Match T raw

/-! ## internal/entities/expression.go: `ExpressionRegex` -/

/-- `MatchType` of rule.go: `AnyMatch` is 0, `AllMatch` is 1. -/
abbrev MatchType := Int

def AnyMatch : MatchType := 0

def AllMatch : MatchType := 1

/-- The expression of kind `regex`; `compiled` holds the compiled patterns. -/
structure ExpressionRegex where
  ExprKind : GoString := []
  KindAlias : GoString := []
  Type_ : MatchType := AnyMatch
  Expressions : List GoString := []
  compiled : List Regexp := []

/-- Go `ensureCompiled`: when nothing is compiled yet, compile the patterns, skipping
those that do not compile. -/
def ExpressionRegex.ensureCompiled (R : RegexLib) (r : ExpressionRegex) : ExpressionRegex :=
  if r.compiled.length > 0 ∨ r.Expressions.length = 0 then r
  else { r with compiled := r.Expressions.filterMap R.Compile }

def ExpressionRegex.runAnyMatch (r : ExpressionRegex) (command : GoString) : Bool :=
  r.compiled.any (fun expression => expression.FindString command != [])

def ExpressionRegex.runAllMatch (r : ExpressionRegex) (command : GoString) : Bool :=
  if r.compiled.any (fun expression => expression.FindString command == []) then false
  else decide (r.compiled.length > 0)

/-- Go `ExpressionRegex.Match`; the receiver is compiled first, and the answer is computed
on the compiled receiver. -/
def ExpressionRegex.Match (R : RegexLib) (r : ExpressionRegex) (command : GoString) : Bool :=
  let r := r.ensureCompiled R
  if r.Type_ = AnyMatch then r.runAnyMatch command
  else if r.Type_ = AllMatch then r.runAllMatch command
  else r.runAnyMatch command

def ExpressionRegex.matchEnvPairs (R : RegexLib) (r : ExpressionRegex)
    (Env : List KeyValuePair) (raw : GoString) : Bool :=
  Env.any (fun kv =>
    r.Match R kv.Key || r.Match R kv.Value || r.Match R (kv.Key ++ "=".data ++ kv.Value))
  || r.Match R raw

def ExpressionRegex.matchArgPairs (R : RegexLib) (r : ExpressionRegex)
    (Args : List KeyValuePairOptional) (raw : GoString) : Bool :=
  Args.any (fun kv =>
    r.Match R kv.Key ||
      match kv.Value with
      | none => false
      | some value => r.Match R value || r.Match R (kv.Key ++ "=".data ++ value))
  || r.Match R raw

def ExpressionRegex.MatchCommand (T : CaseTables) (R : RegexLib) (r : ExpressionRegex)
    (subject : GoString) (command : Option Instruction) (raw : GoString) : Bool :=
  let normalizedSubject := strings.ToLower T (strings.TrimSpace subject)
  if normalizedSubject = "env".data then
    match command with
    | some (.EnvCommand _ Env) => r.matchEnvPairs R Env raw
    | _ => r.Match R raw
  else if normalizedSubject = "arg".data then
    match command with
    | some (.ArgCommand _ Args) => r.matchArgPairs R Args raw
    | _ => r.Match R raw
  else r.Match R raw

/-! ## Reference definitions and samples for the user id and the regex expression -/

/-- Reference parse of the user id, following the specification: of the trimmed text, drop
a leading word `USER` when the text upper-cased starts with `USER `, take the first field,
keep the part before the first `:`; uid 0 when `isRoot` holds of that principal, else the
integer `numeral` reads from it. -/
def userIDSpec (T : CaseTables) (isRoot : GoString → Bool) (numeral : GoString → Option Int)
    (raw : GoString) : Option Int :=
  let clean := strings.TrimSpace raw
  let rest := if strings.HasPrefix (strings.ToUpper T clean) "USER ".data then clean.drop 4
    else clean
  match rest.dropWhile unicode.IsSpace with
  | [] => none
  | token =>
    let principal := (token.takeWhile (fun c => !unicode.IsSpace c)).takeWhile (fun c => c != ':')
    if isRoot principal then some 0 else numeral principal

/-- Base-10 numeral of an integer, read literally: an optional `-` and one or more
digits. -/
def decimalSpec (s : GoString) : Option Int :=
  match s with
  | '-' :: ds =>
    if ds ≠ [] ∧ ds.all Char.isDigit then some (-(strconv.digitsValue ds : Int)) else none
  | ds => if ds ≠ [] ∧ ds.all Char.isDigit then some (strconv.digitsValue ds : Int) else none

/-- Rule of target `dockerfile`, phase `post` and subject `user` with the expression
`user_id_compare` of the given operator and value. -/
def userIDRule (T : CaseTables) (operator : GoString) (value : Int) : BaseRule :=
  { Target := "dockerfile".data, Phase := "post".data, Subject := "user".data
    Expression := some (.PerStep
      (ExpressionUserIDCompare.MatchCommand T { Operator := operator, Value := value })) }

/-- Step of a `USER 1000` instruction on line 3. -/
def user1000Step : Step :=
  instructionStep (nodeOf 3 (.UserCommand "USER 1000".data "1000".data))
    (.UserCommand "USER 1000".data "1000".data)

/-! ## internal/entities/expression.go: run facts and `ExpressionDSL`

The shell parser `mvdan.cc/sh/v3/syntax` is not part of the repository. A parsed script is
a value of `ShNode`, which keeps of the syntax tree what the code reads: the call
expressions with the text the printer gives for each of their words, the binary commands
with their operator, and the order in which `syntax.Walk` visits the nodes. The parser is a
parameter `P : ShellParser`. -/

namespace strings

/-- Go `strings.Join`. -/
def Join : List GoString → GoString → GoString
  | [], _ => []
  | [a], _ => a
  | a :: b :: rest, sep => a ++ sep ++ Join (b :: rest) sep

end strings

/-- Node of the syntax tree of a shell script. `CallExpr` is `*syntax.CallExpr`: `Args` is
the text `syntax.NewPrinter().Print` gives for each word of the call (empty when the
printer fails), `children` are the nodes `syntax.Walk` visits below the call, and `nested`
is the answer of the parser on the nested script of the call, which the code obtains by
calling `collectScriptFacts` on that script (`none` when the parser rejects it); it is read
only when `nestedShellScript` finds a nested script. `BinaryCmd` is `*syntax.BinaryCmd`,
`pipe` telling whether its operator is `syntax.Pipe`. `Other` is any other node. -/
inductive ShNode where
  | CallExpr (Args : List GoString) (nested : Option ShNode) (children : List ShNode)
  | BinaryCmd (pipe : Bool) (X Y : ShNode)
  | Other (children : List ShNode)

/-- Go `syntax.NewParser().Parse`: `none` when the parser returns an error. -/
structure ShellParser where
  Parse : GoString → Option ShNode

/-- Go `wordToString`, on the text the printer gives for the word. -/
def wordToString (word : GoString) : GoString :=
  strings.TrimSpace word

/-- Go `callFromExpr`, on the words of the call expression. -/
def callFromExpr (T : CaseTables) (Args : List GoString) : Option CallFact :=
  match Args with
  | [] => none
  | word :: rest =>
    let name := wordToString word
    if strings.TrimSpace name = [] then none
    else
      some { Name := strings.ToLower T name
             Args := ((rest.map (fun w => strings.TrimSpace (wordToString w))).filter
               (fun arg => !arg.isEmpty)).map (strings.ToLower T) }

/-- Go `nestedShellScript`, on the words of the call expression. -/
def nestedShellScript (T : CaseTables) (Args : List GoString) : Option GoString :=
  match Args with
  | w0 :: w1 :: w2 :: _ =>
    let name := strings.ToLower T (strings.TrimSpace (wordToString w0))
    if name ≠ "sh".data ∧ name ≠ "bash".data then none
    else if strings.TrimSpace (wordToString w1) ≠ "-c".data then none
    else
      let script := strings.TrimSpace (wordToString w2)
      let script :=
        if byteLen script ≥ 2 ∧
            ((script.head? = some '\'' ∧ script.getLast? = some '\'') ∨
              (script.head? = some '"' ∧ script.getLast? = some '"'))
        then (script.drop 1).dropLast
        else script
      if script = [] then none else some script
  | _ => none

mutual

/-- Go `collectCallsFromNode`: the calls of the call expressions of the tree, in the order
`syntax.Walk` visits them. -/
def collectCallsFromNode (T : CaseTables) : ShNode → List CallFact
  | .CallExpr Args _ children =>
    (callFromExpr T Args).toList ++ collectCallsFromNodes T children
  | .BinaryCmd _ X Y => collectCallsFromNode T X ++ collectCallsFromNode T Y
  | .Other children => collectCallsFromNodes T children

def collectCallsFromNodes (T : CaseTables) : List ShNode → List CallFact
  | [] => []
  | node :: rest => collectCallsFromNode T node ++ collectCallsFromNodes T rest

end

/-- The pipe fact the walk of `collectScriptFacts` records at a binary command. -/
def pipeFacts (T : CaseTables) (pipe : Bool) (X Y : ShNode) : List PipeFact :=
  if !pipe then []
  else
    let leftCalls := collectCallsFromNode T X
    let rightCalls := collectCallsFromNode T Y
    match leftCalls.head?, rightCalls.getLast? with
    | some first, some last => [{ First := first, Last := last }]
    | _, _ => []

mutual

/-- The walk of `collectScriptFacts` over a parsed script: the calls and the pipes in the
order the callback of `syntax.Walk` appends them. -/
def walkFacts (T : CaseTables) : ShNode → List CallFact × List PipeFact
  | .CallExpr Args nested children =>
    let own := (callFromExpr T Args).toList
    let inner :=
      match nestedShellScript T Args with
      | none => ([], [])
      | some _ => walkNested T nested
    let below := walkChildren T children
    (own ++ inner.1 ++ below.1, inner.2 ++ below.2)
  | .BinaryCmd pipe X Y =>
    let left := walkFacts T X
    let right := walkFacts T Y
    (left.1 ++ right.1, pipeFacts T pipe X Y ++ left.2 ++ right.2)
  | .Other children => walkChildren T children

/-- Go `collectScriptFacts` on the nested script of a call, of which `nested` is the parse. -/
def walkNested (T : CaseTables) : Option ShNode → List CallFact × List PipeFact
  | none => ([], [])
  | some parsed => walkFacts T parsed

def walkChildren (T : CaseTables) : List ShNode → List CallFact × List PipeFact
  | [] => ([], [])
  | node :: rest =>
    ((walkFacts T node).1 ++ (walkChildren T rest).1,
      (walkFacts T node).2 ++ (walkChildren T rest).2)

end

/-- Go `collectScriptFacts`: no calls and no pipes when the parser rejects the script. -/
def collectScriptFacts (T : CaseTables) (P : ShellParser) (script : GoString) :
    List CallFact × List PipeFact :=
  match P.Parse script with
  | none => ([], [])
  | some parsed => walkFacts T parsed

def extractRunScript (T : CaseTables) (command : Option Instruction) (raw : GoString) :
    GoString :=
  let fromRaw :=
    let trimmed := strings.TrimSpace raw
    if byteLen trimmed ≥ 4 ∧ strings.EqualFold T (byteTake 4 trimmed) "RUN ".data then
      strings.TrimSpace (byteDrop 4 trimmed)
    else trimmed
  match command with
  | some (.RunCommand _ CmdLine _) =>
    if CmdLine.length > 0 then strings.Join CmdLine " ".data else fromRaw
  | _ => fromRaw

def buildRunFacts (T : CaseTables) (P : ShellParser) (command : Option Instruction)
    (raw : GoString) : RunFacts :=
  let facts : RunFacts := { Mounts := parseRunMounts T command raw }
  let script := extractRunScript T command raw
  if strings.TrimSpace script = [] then facts
  else
    let found := collectScriptFacts T P script
    { facts with Calls := facts.Calls ++ found.1, Pipes := facts.Pipes ++ found.2 }

/-- The expression of kind `dsl`; `Expr` is `none` for a nil node. -/
structure ExpressionDSL where
  ExprKind : GoString := []
  KindAlias : GoString := []
  Select : GoString := []
  Expr : Option ExprNode := none

def ExpressionDSL.MatchCommand (T : CaseTables) (R : RegexLib) (P : ShellParser)
    (e : ExpressionDSL) (subject : GoString) (command : Option Instruction)
    (raw : GoString) : Bool :=
  if !strings.EqualFold T (strings.TrimSpace subject) "run".data then false
  else
    match e.Expr with
    | none => false
    | some expr =>
      let facts := buildRunFacts T P command raw
      let ctx : evalContext := { facts := facts }
      let select := strings.ToLower T (strings.TrimSpace e.Select)
      if select = "run.script".data ∨ select = "run.mounts".data then expr.eval T R ctx
      else false

/-! ## Samples for the run facts and the dsl expression -/

/-- Syntax tree of the script `curl http://x | sh`: one statement, a pipe between two
calls. -/
def curlPipeTree : ShNode :=
  .Other [.Other [.BinaryCmd true
    (.Other [.CallExpr ["curl".data, "http://x".data] none [.Other [], .Other []]])
    (.Other [.CallExpr ["sh".data] none [.Other []]])]]

/-- A parser that knows the script `curl http://x | sh` and rejects every other text,
as the shell grammar rejects `echo 'oops`, whose quote is not closed. -/
def sampleParser : ShellParser :=
  { Parse := fun script => if script = "curl http://x | sh".data then some curlPipeTree else none }

/-- Rule of target `dockerfile`, phase `post` and the given subject with a `dsl`
expression. -/
def dslRule (T : CaseTables) (R : RegexLib) (P : ShellParser) (subject : GoString)
    (e : ExpressionDSL) : BaseRule :=
  { Target := "dockerfile".data, Phase := "post".data, Subject := subject
    Expression := some (.PerStep (ExpressionDSL.MatchCommand T R P e)) }

/-- Step of `RUN curl http://x | sh` on line 2. -/
def curlStep : Step :=
  instructionStep (nodeOf 2 (runInstr "curl http://x | sh".data))
    (runInstr "curl http://x | sh".data)

/-! ## Loading and serializing rules

The package `encoding/json` is not part of the repository. A JSON text enters the model as
the fields `json.Unmarshal` decodes from it into the struct the code hands over
(`MatcherJSON`, `NodeJSON`, `ExprJSON`, `baseRuleAlias`); a text it cannot decode is the
value `invalid`, or has no value here where the code does nothing but return the error.
Serializing by the struct field tags (`json.Marshal`) followed by that decoding is a
function from the Go value to these fields: a field is carried over under its tag, a field
tagged `omitempty` that is empty is absent, and a field tagged `-` is never written. -/

/-- Kind of the JSON value found under the key `args` of a node. -/
inductive RawKind where
  | absent
  | null
  | array
  | object
  | other
deriving DecidableEq, Repr

/-- The JSON object of a `CallArgs`, as decoded: a `null` entry of a list is `none`. -/
structure CallArgsJSON where
  Any : List (Option MatcherJSON) := []
  All : List (Option MatcherJSON) := []

/-- The JSON text of a node as `json.Unmarshal` decodes it into `exprNodeAlias`: `invalid`
when the decoding fails for a reason other than a matcher that does not load. The raw
messages `arg`, `where`, `left` and `right` are `none` when they are absent (of length 0)
and hold the decoding of their own text otherwise. The raw message `args` is described by
its kind, by its elements `ArgsItems` when it is an array, and by its decoding `ArgsCall`
as a `CallArgs` when it is an object. A matcher is `none` when its key is absent or
`null`. The text `null` decodes as the node with every field empty. -/
inductive NodeJSON where
  | invalid
  | node (Op : GoString) (ArgsKind : RawKind) (ArgsItems : List NodeJSON)
      (ArgsCall : CallArgsJSON) (Arg Where Left Right : Option NodeJSON)
      (Name : Option MatcherJSON) (Call : Option CallArgsJSON) (MountType : GoString)
      (Target : Option MatcherJSON) (Has Missing : List GoString)
      (ID Sharing : Option MatcherJSON)

/-- Decoding of a `*Matcher` field: `Matcher.UnmarshalJSON` on a fresh matcher, unless the
key is absent or `null`. The outer `none` is the error. -/
def decodeMatcher (T : CaseTables) (R : RegexLib) :
    Option MatcherJSON → Option (Option Matcher)
  | none => some none
  | some aux =>
    match Matcher.UnmarshalJSON T R {} aux with
    | .ok m => some (some m)
    | .error _ => none

/-- Decoding of a `[]*Matcher` field. -/
def decodeMatchers (T : CaseTables) (R : RegexLib) :
    List (Option MatcherJSON) → Option (List (Option Matcher))
  | [] => some []
  | aux :: rest =>
    match decodeMatcher T R aux, decodeMatchers T R rest with
    | some m, some ms => some (m :: ms)
    | _, _ => none

/-- Decoding of a JSON object into a `CallArgs`. -/
def decodeCallArgs (T : CaseTables) (R : RegexLib) (aux : CallArgsJSON) : Option CallArgs :=
  match decodeMatchers T R aux.Any, decodeMatchers T R aux.All with
  | some anyMatchers, some allMatchers => some { Any := anyMatchers, All := allMatchers }
  | _, _ => none

/-- Decoding of a `*CallArgs` field (`none` for an absent key or `null`). -/
def decodeCallArgsPtr (T : CaseTables) (R : RegexLib) :
    Option CallArgsJSON → Option (Option CallArgs)
  | none => some none
  | some aux =>
    match decodeCallArgs T R aux with
    | some call => some (some call)
    | none => none

/-- Body of `ExprNode.UnmarshalJSON` on a fresh node, once `aux` is decoded: `name`,
`call`, `target`, `id` and `sharing` are the decoded pointers of `aux`; `children` is the
outcome of decoding the elements of `args` one by one, and `arg`, `wh`, `left`, `right`
the outcome of decoding those raw messages (`none` for an error). -/
def unmarshalBody (T : CaseTables) (R : RegexLib) (Op : GoString) (ArgsKind : RawKind)
    (ArgsCall : CallArgsJSON) (Arg Where Left Right : Option NodeJSON)
    (name : Option Matcher) (call : Option CallArgs) (MountType : GoString)
    (target : Option Matcher) (Has Missing : List GoString) (id sharing : Option Matcher)
    (children : Option (List ExprNode)) (arg wh left right : Option ExprNode) :
    Option ExprNode :=
  let op := strings.ToLower T (strings.TrimSpace Op)
  let mountType := strings.ToLower T (strings.TrimSpace MountType)
  let has := toLowerSlice T Has
  let missing := toLowerSlice T Missing
  if op = "all".data ∨ op = "any".data then
    match ArgsKind with
    | .null => some (.mk op [] none none none none name call mountType target has missing
        id sharing)
    | .array =>
      match children with
      | none => none
      | some nodes => some (.mk op (nodes.map some) none none none none name call mountType
          target has missing id sharing)
    | _ => none
  else if op = "not".data then
    if Arg.isNone then none
    else
      match arg with
      | none => none
      | some child => some (.mk op [] (some child) none none none name call mountType target
          has missing id sharing)
  else if op = "exists".data then
    if Where.isNone then none
    else
      match wh with
      | none => none
      | some child => some (.mk op [] none (some child) none none name call mountType target
          has missing id sharing)
  else if op = "pipe".data then
    if Left.isNone ∨ Right.isNone then none
    else
      match left with
      | none => none
      | some l =>
        match right with
        | none => none
        | some r => some (.mk op [] none none (some l) (some r) name call mountType target
            has missing id sharing)
  else if op = "call".data then
    match ArgsKind with
    | .absent => some (.mk op [] none none none none name call mountType target has missing
        id sharing)
    | .null => some (.mk op [] none none none none name (some {}) mountType target has
        missing id sharing)
    | .object =>
      match decodeCallArgs T R ArgsCall with
      | none => none
      | some callArgs => some (.mk op [] none none none none name (some callArgs) mountType
          target has missing id sharing)
    | _ => none
  else if op = "mount".data then
    some (.mk op [] none none none none name call mountType target has missing id sharing)
  else none

mutual
/-- Go `ExprNode.UnmarshalJSON` on a fresh node: `none` is the error. -/
def ExprNode.UnmarshalJSON (T : CaseTables) (R : RegexLib) : NodeJSON → Option ExprNode
  | .invalid => none
  | .node Op ArgsKind ArgsItems ArgsCall Arg Where Left Right Name Call MountType Target Has
      Missing ID Sharing =>
    match decodeMatcher T R Name, decodeCallArgsPtr T R Call, decodeMatcher T R Target,
      decodeMatcher T R ID, decodeMatcher T R Sharing with
    | some name, some call, some target, some id, some sharing =>
      unmarshalBody T R Op ArgsKind ArgsCall Arg Where Left Right name call MountType target
        Has Missing id sharing (unmarshalNodes T R ArgsItems) (unmarshalRaw T R Arg)
        (unmarshalRaw T R Where) (unmarshalRaw T R Left) (unmarshalRaw T R Right)
    | _, _, _, _, _ => none
/-- The loop over the elements of `args`: each is decoded into a fresh node. -/
def unmarshalNodes (T : CaseTables) (R : RegexLib) : List NodeJSON → Option (List ExprNode)
  | [] => some []
  | raw :: rest =>
    match ExprNode.UnmarshalJSON T R raw, unmarshalNodes T R rest with
    | some child, some children => some (child :: children)
    | _, _ => none
/-- Decoding of a raw message into a fresh node; an absent message gives the error, which
the caller does not reach. -/
def unmarshalRaw (T : CaseTables) (R : RegexLib) : Option NodeJSON → Option ExprNode
  | none => none
  | some raw => ExprNode.UnmarshalJSON T R raw
end

/-- The fields of a matcher that `json.Marshal` writes, by the tags of `Matcher`. -/
def marshalMatcher (m : Matcher) : MatcherJSON :=
  { Op := m.Op, Value := m.Value, Values := m.Values, Pattern := m.Pattern }

/-- The node with every field empty, which the text `null` decodes to. -/
def nullNode : NodeJSON :=
  .node [] .absent [] {} none none none none none none [] none [] [] none none

mutual
/-- The text `json.Marshal` writes for a node, by the tags of `ExprNode`, as decoded into
`exprNodeAlias`: `args` is absent when the node has no children, the pointers are absent
when nil, and `Call`, tagged `-`, is not written, so that the key `args_match` is absent
and `args` is never an object. -/
def marshalNode : ExprNode → NodeJSON
  | .mk Op Args Arg Where Left Right Name _ MountType Target Has Missing ID Sharing =>
    .node Op (if Args.isEmpty then .absent else .array) (marshalChildren Args) {}
      (marshalChild Arg) (marshalChild Where) (marshalChild Left) (marshalChild Right)
      (Name.map marshalMatcher) none MountType (Target.map marshalMatcher) Has Missing
      (ID.map marshalMatcher) (Sharing.map marshalMatcher)
def marshalChild : Option ExprNode → Option NodeJSON
  | none => none
  | some child => some (marshalNode child)
/-- Elements of the array `args`: a nil child is written as `null`. -/
def marshalChildren : List (Option ExprNode) → List NodeJSON
  | [] => []
  | none :: rest => nullNode :: marshalChildren rest
  | some child :: rest => marshalNode child :: marshalChildren rest
end

/-- The raw message `expression` of a rule, as `json.Unmarshal` decodes it into the probe
and into the struct of its kind: the keys `expr_kind` and `kind`, and the keys each kind
reads. A key that is absent or `null` holds the zero value; `Expr` is `none` when the key
`expr` is absent or `null`. -/
structure ExprJSON where
  ExprKind : GoString := []
  KindAlias : GoString := []
  Type_ : MatchType := AnyMatch
  Expressions : List GoString := []
  Operator : GoString := []
  Value : Int := 0
  Check : GoString := []
  Select : GoString := []
  Expr : Option NodeJSON := none

/-- The JSON object of a rule as decoded into `baseRuleAlias`; `Expression` is `none` when
the raw message is absent (of length 0). -/
structure baseRuleAlias where
  Target : GoString := []
  Phase : GoString := []
  Subject : GoString := []
  Expression : Option ExprJSON := none
  Metadata : Option Metadata := none

/-- A non-nil value of the interface `Expression` with its dynamic type. -/
inductive LoadedExpression where
  | Regex (expr : ExpressionRegex)
  | UserIDCompare (expr : ExpressionUserIDCompare)
  | DockerfileConstraint (expr : ExpressionDockerfileConstraint)
  | DSL (expr : ExpressionDSL)

/-- A `BaseRule` as the loader leaves it, its expression with its dynamic type (`none` for
the nil interface). -/
structure LoadedRule where
  Target : GoString := []
  Phase : GoString := []
  Subject : GoString := []
  Expression : Option LoadedExpression := none
  Metadata : Option Metadata := none

/-- The loop of `ExpressionRegex.UnmarshalJSON` that compiles the patterns: `none` when
one of them does not compile. -/
def compileAll (R : RegexLib) : List GoString → Option (List Regexp)
  | [] => some []
  | expression :: rest =>
    match R.Compile expression, compileAll R rest with
    | some rgx, some compiled => some (rgx :: compiled)
    | _, _ => none

/-- Go `ExpressionRegex.UnmarshalJSON`: `none` is the error. -/
def ExpressionRegex.UnmarshalJSON (T : CaseTables) (R : RegexLib) (aux : ExprJSON) :
    Option ExpressionRegex :=
  let kind := if aux.ExprKind.isEmpty then aux.KindAlias else aux.ExprKind
  let kind := if kind.isEmpty then "regex".data else kind
  if strings.ToLower T kind ≠ "regex".data then none
  else
    match compileAll R aux.Expressions with
    | none => none
    | some compiled =>
      some { ExprKind := "regex".data, KindAlias := aux.KindAlias, Type_ := aux.Type_
             Expressions := aux.Expressions, compiled := compiled }

/-- Decoding of the field `expr` of an `ExpressionDSL`: nil when the key is absent or
`null`, else `ExprNode.UnmarshalJSON` on a fresh node. The outer `none` is the error. -/
def decodeExpr (T : CaseTables) (R : RegexLib) : Option NodeJSON → Option (Option ExprNode)
  | none => some none
  | some raw =>
    match ExprNode.UnmarshalJSON T R raw with
    | some node => some (some node)
    | none => none

/-- Go `UnmarshalExpression`: the outer `none` is the error, `some none` the answer
`nil, nil`. -/
def UnmarshalExpression (T : CaseTables) (R : RegexLib) (raw : Option ExprJSON) :
    Option (Option LoadedExpression) :=
  match raw with
  | none => some none
  | some probe =>
    let kind := if probe.ExprKind.isEmpty then probe.KindAlias else probe.ExprKind
    let kind := strings.ToLower T kind
    if kind = "regex".data then
      match ExpressionRegex.UnmarshalJSON T R probe with
      | none => none
      | some expr => some (some (.Regex expr))
    else if kind = "user_id_compare".data then
      some (some (.UserIDCompare
        { ExprKind := probe.ExprKind, KindAlias := probe.KindAlias
          Operator := probe.Operator, Value := probe.Value }))
    else if kind = "dockerfile_constraint".data then
      some (some (.DockerfileConstraint
        { ExprKind := probe.ExprKind, KindAlias := probe.KindAlias, Check := probe.Check }))
    else if kind = "dsl".data then
      match decodeExpr T R probe.Expr with
      | none => none
      | some expr =>
        some (some (.DSL
          { ExprKind := probe.ExprKind, KindAlias := probe.KindAlias
            Select := probe.Select, Expr := expr }))
    else if kind = [] then some none
    else none

/-- Go `BaseRule.UnmarshalJSON`: `none` is the error. -/
def BaseRule.UnmarshalJSON (T : CaseTables) (R : RegexLib) (aux : baseRuleAlias) :
    Option LoadedRule :=
  match UnmarshalExpression T R aux.Expression with
  | none => none
  | some expr =>
    some { Target := aux.Target, Phase := aux.Phase, Subject := aux.Subject
           Expression := expr, Metadata := aux.Metadata }

/-- The text `json.Marshal` writes for an expression, by the tags of its struct, as
decoded again. -/
def marshalExpression : LoadedExpression → ExprJSON
  | .Regex expr =>
    { ExprKind := expr.ExprKind, KindAlias := expr.KindAlias, Type_ := expr.Type_
      Expressions := expr.Expressions }
  | .UserIDCompare expr =>
    { ExprKind := expr.ExprKind, KindAlias := expr.KindAlias, Operator := expr.Operator
      Value := expr.Value }
  | .DockerfileConstraint expr =>
    { ExprKind := expr.ExprKind, KindAlias := expr.KindAlias, Check := expr.Check }
  | .DSL expr =>
    { ExprKind := expr.ExprKind, KindAlias := expr.KindAlias, Select := expr.Select
      Expr := expr.Expr.map marshalNode }

/-- The raw message `json.Marshal` writes under the key `expression`: a nil expression is
written as `null`, which decodes as the expression with every key empty. -/
def marshalExpressionPtr : Option LoadedExpression → Option ExprJSON
  | none => some {}
  | some expr => some (marshalExpression expr)

/-- The text `json.Marshal` writes for a rule, by the tags of `BaseRule`, as decoded into
`baseRuleAlias`. -/
def marshalRule (rule : LoadedRule) : baseRuleAlias :=
  { Target := rule.Target, Phase := rule.Phase, Subject := rule.Subject
    Expression := marshalExpressionPtr rule.Expression
    Metadata := rule.Metadata }

/-- Go `Expression.MatchCommand` of a loaded expression, by its dynamic type. -/
def LoadedExpression.toExpression (T : CaseTables) (R : RegexLib) (P : ShellParser) :
    LoadedExpression → Expression
  | .Regex expr => .PerStep (ExpressionRegex.MatchCommand T R expr)
  | .UserIDCompare expr => .PerStep (ExpressionUserIDCompare.MatchCommand T expr)
  | .DockerfileConstraint expr => .DockerfileConstraint expr
  | .DSL expr => .PerStep (ExpressionDSL.MatchCommand T R P expr)

/-- The rule `DockerfileRunner.Eval` evaluates, for a loaded rule. -/
def LoadedRule.toBaseRule (T : CaseTables) (R : RegexLib) (P : ShellParser)
    (rule : LoadedRule) : BaseRule :=
  { Target := rule.Target, Phase := rule.Phase, Subject := rule.Subject
    Expression := rule.Expression.map (LoadedExpression.toExpression T R P)
    Metadata := rule.Metadata }

/-! ## Samples for loading and serializing -/

/-- The matcher `{"op": "eq", "value": "-k"}`. -/
def insecureFlag : MatcherJSON :=
  { Op := "eq".data, Value := "-k".data }

/-- The node `{"op": "call", "name": {"op": "eq", "value": "curl"},
"args_match": {"any": [{"op": "eq", "value": "-k"}]}}`. -/
def curlInsecureJSON : NodeJSON :=
  .node "call".data .absent [] {} none none none none
    (some { Op := "eq".data, Value := "curl".data }) (some { Any := [some insecureFlag] })
    [] none [] [] none none

/-- The node `{"op": "all", "args": []}`. -/
def emptyAllJSON : NodeJSON :=
  .node "all".data .array [] {} none none none none none none [] none [] [] none none

/-- The rule of target `dockerfile`, phase `post` and subject `run` with the expression
`{"kind": "dsl", "select": "run.script", "expr": node}`. -/
def dslRuleJSON (node : NodeJSON) : baseRuleAlias :=
  { Target := "dockerfile".data, Phase := "post".data, Subject := "run".data
    Expression := some
      { KindAlias := "dsl".data, Select := "run.script".data, Expr := some node } }

/-- The node of a loaded rule with a dsl expression, if it has one. -/
def LoadedRule.node (rule : LoadedRule) : Option ExprNode :=
  match rule.Expression with
  | some (.DSL expr) => expr.Expr
  | _ => none

mutual
/-- The node and the nodes below it carry no `CallArgs`, and each of them of op `all` or
`any` has at least one child. -/
def ExprNode.plain : ExprNode → Bool
  | .mk Op Args Arg Where Left Right _ Call _ _ _ _ _ _ =>
    Call.isNone && (!(Op == "all".data || Op == "any".data) || !Args.isEmpty)
      && plainChildren Args && plainChild Arg && plainChild Where && plainChild Left
      && plainChild Right
def plainChild : Option ExprNode → Bool
  | none => true
  | some child => child.plain
def plainChildren : List (Option ExprNode) → Bool
  | [] => true
  | child :: rest => plainChild child && plainChildren rest
end

/-- The rule has no dsl expression, or the node of its dsl expression is plain. -/
def LoadedRule.plain (rule : LoadedRule) : Bool :=
  plainChild rule.node

/-- The node `{"op": " PIPE", "left": {"op": "call", "name": {"op": "eq", "value": "Curl"}},
"right": {"op": "call", "name": {"op": "in", "values": [" sh", "bash"]}}}`. -/
def curlPipeJSON : NodeJSON :=
  .node " PIPE".data .absent [] {} none none
    (some (.node "call".data .absent [] {} none none none none
      (some { Op := "eq".data, Value := "Curl".data }) none [] none [] [] none none))
    (some (.node "call".data .absent [] {} none none none none
      (some { Op := "in".data, Values := [" sh".data, "bash".data] }) none [] none [] []
      none none))
    none none [] none [] [] none none

/-- The rule `dslRuleJSON curlPipeJSON` once loaded. -/
def curlPipeRule : LoadedRule :=
  { Target := "dockerfile".data, Phase := "post".data, Subject := "run".data
    Expression := some (.DSL
      { KindAlias := "dsl".data, Select := "run.script".data, Expr := some curlPipe }) }

/-- Loading the text `json.Marshal` writes for the rule loaded from `aux`: `none` when one
of the two loads fails. -/
def loadTwice (T : CaseTables) (R : RegexLib) (aux : baseRuleAlias) : Option LoadedRule :=
  match BaseRule.UnmarshalJSON T R aux with
  | none => none
  | some rule => BaseRule.UnmarshalJSON T R (marshalRule rule)

/-- What the node of the dsl expression of a rule answers on the facts of the script
`curl http://x`, a single call without the flag `-k`. -/
def evalOnCurl (rule : Option LoadedRule) : Option Bool :=
  match rule with
  | none => none
  | some r =>
    match r.node with
    | none => none
    | some node =>
      some (node.eval asciiTables literalRegex
        { facts := { Calls := [{ Name := "curl".data, Args := ["http://x".data] }] } })

/-! ## Reference definitions and samples for the kind tag and the nested script -/

/-- The kind tag of an expression, following the specification: `expr_kind`, or `kind`
when `expr_kind` is empty, lower-cased. -/
def kindTag (T : CaseTables) (probe : ExprJSON) : GoString :=
  strings.ToLower T (if probe.ExprKind = [] then probe.KindAlias else probe.ExprKind)

/-- The kinds of expression the specification recognizes. -/
def knownKinds : List GoString :=
  ["regex".data, "user_id_compare".data, "dockerfile_constraint".data, "dsl".data]

/-- Removing one pair of enclosing matching quotes, following the specification: a text
that begins with a quote `'` or `"` and, after that first rune, ends with the same quote
loses both; any other text is left as it is. -/
def dequoteSpec : GoString → GoString
  | [] => []
  | q :: rest =>
    if (q = '\'' ∨ q = '"') ∧ rest ≠ [] ∧ rest.getLast? = some q then rest.dropLast
    else q :: rest

/-- Syntax tree of the script `sh -c 'curl http://x | sh' extra`: one statement, a call
of four words, the parse of its nested script being `curlPipeTree`. -/
def shExtraTree : ShNode :=
  .Other [.Other [.CallExpr
    ["sh".data, "-c".data, "'curl http://x | sh'".data, "extra".data] (some curlPipeTree)
    [.Other [], .Other [], .Other [], .Other []]]]

/-- A parser that knows the script `sh -c 'curl http://x | sh' extra` besides the script
of `sampleParser`. -/
def nestedParser : ShellParser :=
  { Parse := fun script =>
      if script = "sh -c 'curl http://x | sh' extra".data then some shExtraTree
      else sampleParser.Parse script }

/-! ## Lemmas on strings and phases -/

theorem trimSpace_pre : strings.TrimSpace "pre".data = "pre".data := by decide

theorem trimSpace_post : strings.TrimSpace "post".data = "post".data := by decide

theorem trimSpace_nil : strings.TrimSpace [] = [] := by decide

theorem equalFold_length (T : CaseTables) (s t : GoString)
    (h : strings.EqualFold T s t = true) : s.length = t.length := by
  have h1 : s.map T.fold = t.map T.fold := by simpa [strings.EqualFold] using h
  simpa using congrArg List.length h1

theorem equalFold_refl (T : CaseTables) (s : GoString) : strings.EqualFold T s s = true := by
  simp [strings.EqualFold]

theorem matchPhase_pre (T : CaseTables) (p : GoString) :
    matchPhase T p "pre".data = phaseIsPre T p := by
  unfold matchPhase phaseIsPre sameString
  rw [trimSpace_pre]
  by_cases h : strings.EqualFold T (strings.TrimSpace p) "pre".data = true
  · simp [h]
  · have hne : ("pre".data == "post".data) = false := by decide
    simp [h, hne]

theorem matchPhase_post (T : CaseTables) (p : GoString) :
    matchPhase T p "post".data = phaseIsPostOrEmpty T p := by
  unfold matchPhase phaseIsPostOrEmpty sameString
  rw [trimSpace_post]
  by_cases h : strings.EqualFold T (strings.TrimSpace p) "post".data = true
  · simp [h]
  · by_cases h2 : strings.TrimSpace p = []
    · simp [h2]
    · simp [h, h2]

theorem not_pre_and_post (T : CaseTables) (p : GoString) :
    ¬ (phaseIsPre T p = true ∧ phaseIsPostOrEmpty T p = true) := by
  rintro ⟨h1, h2⟩
  have l1 := equalFold_length T _ _ h1
  unfold phaseIsPostOrEmpty at h2
  rcases Bool.or_eq_true _ _ |>.mp h2 with h3 | h3
  · have l2 := equalFold_length T _ _ h3
    rw [l1] at l2
    exact absurd l2 (by decide)
  · have h4 : strings.TrimSpace p = [] := by simpa using h3
    rw [h4] at l1
    exact absurd l1 (by decide)

/-! ## The engine loop -/

theorem evalPhase_foldl {δ : Type} (T : CaseTables) (runner : Runner δ) (dom : δ) (step : Step)
    (phase : GoString) (rules : List BaseRule) (acc : List Finding) :
    rules.foldl
      (fun findings rule =>
        if !sameString T rule.Target step.Target then findings
        else if !matchPhase T rule.Phase phase then findings
        else findings ++ runner.Eval dom rule step) acc
    = acc ++ passFindings T rules runner dom step (fun p => matchPhase T p phase) := by
  induction rules generalizing acc with
  | nil => simp [passFindings]
  | cons r rs ih =>
    rw [List.foldl_cons, ih]
    by_cases h1 : sameString T r.Target step.Target = true
    · by_cases h2 : matchPhase T r.Phase phase = true
      · simp [passFindings, h1, h2, List.filter_cons]
      · simp [passFindings, h1, h2, List.filter_cons]
    · simp [passFindings, h1, List.filter_cons]

theorem evalPhase_pre {σ δ : Type} (T : CaseTables) (e : Engine δ) (runner : Runner δ)
    (D : Driver σ δ) (d : σ) (step : Step) :
    e.evalPhase T runner D d step "pre".data
      = passFindings T e.rules runner (D.DomainContext d) step (phaseIsPre T) := by
  unfold Engine.evalPhase
  rw [evalPhase_foldl, List.nil_append]
  have hf : (fun p => matchPhase T p "pre".data) = phaseIsPre T := funext (matchPhase_pre T)
  rw [hf]

theorem evalPhase_post {σ δ : Type} (T : CaseTables) (e : Engine δ) (runner : Runner δ)
    (D : Driver σ δ) (d : σ) (step : Step) :
    e.evalPhase T runner D d step "post".data
      = passFindings T e.rules runner (D.DomainContext d) step (phaseIsPostOrEmpty T) := by
  unfold Engine.evalPhase
  rw [evalPhase_foldl, List.nil_append]
  have hf : (fun p => matchPhase T p "post".data) = phaseIsPostOrEmpty T :=
    funext (matchPhase_post T)
  rw [hf]

theorem runLoop_of_yields {σ δ : Type} (T : CaseTables) (e : Engine δ) (runner : Runner δ)
    (D : Driver σ δ) (d dEnd : σ) (tr : List (Step × σ × σ)) (h : Yields D d tr dEnd) :
    ∀ (fuel : Nat) (acc : List Finding), tr.length < fuel →
      Engine.runLoop T e runner D fuel d acc
        = some (dEnd, acc ++ expectedFindings T e.rules runner D tr, none) := by
  induction h with
  | done d d1 step hn =>
    intro fuel acc hfuel
    obtain ⟨k, rfl⟩ : ∃ k, fuel = k + 1 := ⟨fuel - 1, by simp at hfuel; omega⟩
    simp [Engine.runLoop, hn, expectedFindings]
  | step d d1 d2 dEnd s rest hn ht _ ih =>
    intro fuel acc hfuel
    obtain ⟨k, rfl⟩ : ∃ k, fuel = k + 1 := ⟨fuel - 1, by simp at hfuel; omega⟩
    have hk : rest.length < k := by simp at hfuel; omega
    simp only [Engine.runLoop, hn, ht]
    rw [evalPhase_pre, evalPhase_post]
    simp [ih k _ hk, expectedFindings, List.append_assoc]

/-- C1: for every rule list, runner and driver that yields the steps of `tr` and then
reports that there are no more, without error, `Engine.Run` (given fuel for one more
iteration than there are steps) returns without error exactly the concatenation, over the
steps in order, of the runner's findings for the rules of phase `pre` in catalog order, on
the domain context before the transfer, followed by those for the rules of phase `post` or
empty, on the context after the transfer; rules whose target does not match the step's
target are filtered out and contribute nothing. -/
theorem engine_run_findings {σ δ : Type} (T : CaseTables) (e : Engine δ) (runner : Runner δ)
    (D : Driver σ δ) (d dEnd : σ) (tr : List (Step × σ × σ)) (fuel : Nat)
    (hrunner : mapGet e.runners (strings.ToLower T (D.Target d)) = some runner)
    (hyields : Yields D d tr dEnd) (hfuel : tr.length < fuel) :
    e.Run T D fuel d = some (dEnd, expectedFindings T e.rules runner D tr, none) := by
  unfold Engine.Run
  rw [hrunner]
  simpa using runLoop_of_yields T e runner D d dEnd tr hyields fuel [] hfuel

/-- C2: for each pass in `pre`, `post`, `matchPhase` is true iff the rule phase, trimmed
and compared without regard to case, equals the pass name, or it is empty after trimming
and the pass is `post`; no phase matches both passes; and a phase matches neither pass
iff it is non-empty after trimming and equal to neither pass name. -/
theorem matchPhase_iff (T : CaseTables) (p pass : GoString)
    (hpass : pass = "pre".data ∨ pass = "post".data) :
    (matchPhase T p pass = true ↔
      (strings.EqualFold T (strings.TrimSpace p) pass = true ∨
        (strings.TrimSpace p = [] ∧ pass = "post".data))) ∧
    ¬ (matchPhase T p "pre".data = true ∧ matchPhase T p "post".data = true) ∧
    ((matchPhase T p "pre".data = false ∧ matchPhase T p "post".data = false) ↔
      (strings.EqualFold T (strings.TrimSpace p) "pre".data = false ∧
        strings.EqualFold T (strings.TrimSpace p) "post".data = false ∧
        strings.TrimSpace p ≠ [])) := by
  refine ⟨?_, ?_, ?_⟩
  · rcases hpass with rfl | rfl
    · rw [matchPhase_pre]
      have hne : "pre".data ≠ "post".data := by decide
      simp [phaseIsPre, hne]
    · rw [matchPhase_post]
      simp [phaseIsPostOrEmpty]
  · rw [matchPhase_pre, matchPhase_post]
    exact not_pre_and_post T p
  · rw [matchPhase_pre, matchPhase_post]
    simp only [phaseIsPre, phaseIsPostOrEmpty, Bool.or_eq_false_iff, List.isEmpty_eq_false,
      ne_eq]

/-- C2, at the phase tag ` PRE ` and the pass `pre`. -/
theorem matchPhase_iff_witness :
    ("pre".data = "pre".data ∨ "pre".data = "post".data) ∧
    matchPhase asciiTables " PRE ".data "pre".data = true ∧
    matchPhase asciiTables " PRE ".data "post".data = false := by
  have h := matchPhase_iff asciiTables " PRE ".data "pre".data (Or.inl rfl)
  refine ⟨Or.inl rfl, ?_, ?_⟩
  · exact h.1.mpr (Or.inl (by decide))
  · decide

theorem constraint_agrees_with_reference (m : DockerStageEval) (check : GoString) :
    matchesDockerfileConstraint (some m) check = constraintSpec m check := by
  unfold matchesDockerfileConstraint constraintSpec
  by_cases h : m.Stages.length = 0
  · have hnil : m.Stages = [] := List.length_eq_zero.mp h
    simp [hnil]
  · have hne : m.Stages ≠ [] := fun hn => h (by simp [hn])
    have hlast : m.Stages.getLast? = some (m.Stages.get ⟨m.Stages.length - 1,
        Nat.sub_lt (Nat.pos_of_ne_zero h) Nat.one_pos⟩) := by
      rw [List.getLast?_eq_getLast _ hne, List.getLast_eq_getElem]
      rfl
    simp only [h, hlast, dite_false]

/-- C6: `matchesDockerfileConstraint` agrees with the reference definition on every stage
model and every check tag (and is false on the nil model). -/
theorem matchesDockerfileConstraint_eq_spec (m : DockerStageEval) (check : GoString) :
    matchesDockerfileConstraint (some m) check = constraintSpec m check ∧
    matchesDockerfileConstraint none check = false :=
  ⟨constraint_agrees_with_reference m check, rfl⟩

/-! ## The step stream of the Dockerfile driver -/

theorem dockerSubject_ne_eof (instruction : Instruction) :
    dockerSubject instruction ≠ "eof".data := by
  cases instruction <;> (simp only [dockerSubject]; decide)

theorem nextCalls_exhausted (nodes : List Node) :
    ∀ (m : Nat) (d : DockerfileDriver), d.df = some nodes → nodes.length ≤ d.i →
      d.eofSent = true → nextCalls m d = List.replicate m ({}, false, none) := by
  intro m
  induction m with
  | zero => intro d _ _ _; rfl
  | succ m ih =>
    intro d hdf hi heof
    have hnext : (DockerfileDriver.Next d).2 = ({}, false, none) ∧
        (DockerfileDriver.Next d).1.df = some nodes ∧
        (DockerfileDriver.Next d).1.i = d.i ∧
        (DockerfileDriver.Next d).1.eofSent = true := by
      unfold DockerfileDriver.Next
      simp only [hdf, hi, dite_true]
      by_cases hf : d.finalized = true <;> simp [hf, heof, hdf]
    obtain ⟨h1, h2, h3, h4⟩ := hnext
    rw [nextCalls, h1, ih _ h2 (by rw [h3]; exact hi) h4, List.replicate_succ]

theorem next_instruction (nodes : List Node) (instrs : List Instruction)
    (hparse : nodes.map (fun nd => nd.parsed) = instrs.map Except.ok)
    (d : DockerfileDriver) (hdf : d.df = some nodes) (hi : d.i < nodes.length) :
    ∃ (hn : d.i < nodes.length) (hs : d.i < instrs.length),
      DockerfileDriver.Next d
        = ({ d with i := d.i + 1 },
            (instructionStep (nodes.get ⟨d.i, hn⟩) (instrs.get ⟨d.i, hs⟩), true, none)) := by
  have hlen : nodes.length = instrs.length := by simpa using congrArg List.length hparse
  have hs : d.i < instrs.length := hlen ▸ hi
  refine ⟨hi, hs, ?_⟩
  have hp : (nodes.get ⟨d.i, hi⟩).parsed = Except.ok (instrs.get ⟨d.i, hs⟩) := by
    have h1 : (nodes.map (fun nd => nd.parsed))[d.i]? = (instrs.map Except.ok)[d.i]? := by
      rw [hparse]
    simp only [List.getElem?_map, List.getElem?_eq_getElem hi, List.getElem?_eq_getElem hs,
      Option.map_some', Option.some.injEq] at h1
    simpa using h1
  unfold DockerfileDriver.Next
  simp only [hdf, Nat.not_le.mpr hi, dite_false]
  rw [hp]
  rfl

theorem nextCalls_from (nodes : List Node) (instrs : List Instruction)
    (hparse : nodes.map (fun nd => nd.parsed) = instrs.map Except.ok) (m : Nat) :
    ∀ (k : Nat) (d : DockerfileDriver), d.df = some nodes → d.i + k = nodes.length →
      d.eofSent = false →
      nextCalls (k + 1 + m) d
        = ((recipeSteps nodes instrs).drop d.i).map (fun s => (s, true, none))
          ++ (eofStep, true, none) :: List.replicate m ({}, false, none) := by
  have hlen : nodes.length = instrs.length := by simpa using congrArg List.length hparse
  intro k
  induction k with
  | zero =>
    intro d hdf hi heof
    have hi2 : nodes.length ≤ d.i := by omega
    have hdrop : (recipeSteps nodes instrs).drop d.i = [] := by
      apply List.drop_eq_nil_of_le
      simp [recipeSteps, List.length_zipWith, ← hlen]
      omega
    have hnext : (DockerfileDriver.Next d).2 = (eofStep, true, none) ∧
        (DockerfileDriver.Next d).1.df = some nodes ∧
        (DockerfileDriver.Next d).1.i = d.i ∧
        (DockerfileDriver.Next d).1.eofSent = true := by
      unfold DockerfileDriver.Next
      simp only [hdf, hi2, dite_true]
      by_cases hf : d.finalized = true <;> simp [hf, heof, hdf]
    obtain ⟨h1, h2, h3, h4⟩ := hnext
    rw [show 0 + 1 + m = m + 1 by omega, nextCalls, h1,
      nextCalls_exhausted nodes m _ h2 (by rw [h3]; exact hi2) h4, hdrop]
    rfl
  | succ k ih =>
    intro d hdf hi heof
    have hlt : d.i < nodes.length := by omega
    obtain ⟨hn, hs, hnext⟩ := next_instruction nodes instrs hparse d hdf hlt
    have hz : d.i < (recipeSteps nodes instrs).length := by
      simp [recipeSteps, List.length_zipWith, ← hlen]
      omega
    have hdrop : (recipeSteps nodes instrs).drop d.i
        = instructionStep (nodes.get ⟨d.i, hn⟩) (instrs.get ⟨d.i, hs⟩)
          :: (recipeSteps nodes instrs).drop (d.i + 1) := by
      rw [List.drop_eq_getElem_cons hz]
      simp [recipeSteps, List.getElem_zipWith]
    rw [show k + 1 + 1 + m = (k + 1 + m) + 1 by omega, nextCalls, hnext, hdrop]
    have := ih { d with i := d.i + 1 } hdf (by simp; omega) heof
    simp only [List.map_cons, List.cons_append]
    rw [this]

/-- C3: for a recipe of `n` nodes that parse to the instructions `instrs`, successive calls
of `DockerfileDriver.Next` on the fresh driver answer with the `n` instruction steps in
source order, then with the step of subject `eof` and empty raw text, and with "no more" on
every later call; no instruction step has subject `eof`; with no instruction the first
answer is the `eof` step. -/
theorem next_yields_steps_then_eof (nodes : List Node) (instrs : List Instruction)
    (dom : Option DockerStageEval)
    (hparse : nodes.map (fun nd => nd.parsed) = instrs.map Except.ok) (m : Nat) :
    nextCalls (nodes.length + 1 + m) (NewDockerfileDriver (some nodes) dom)
      = (recipeSteps nodes instrs).map (fun s => (s, true, none))
        ++ (eofStep, true, none) :: List.replicate m ({}, false, none)
    ∧ (recipeSteps nodes instrs).length = nodes.length
    ∧ (∀ s ∈ recipeSteps nodes instrs, s.Subject ≠ "eof".data)
    ∧ eofStep.Subject = "eof".data ∧ eofStep.Raw = []
    ∧ nextCalls (1 + m) (NewDockerfileDriver (some []) dom)
      = (eofStep, true, none) :: List.replicate m ({}, false, none) := by
  have hlen : nodes.length = instrs.length := by simpa using congrArg List.length hparse
  refine ⟨?_, ?_, ?_, rfl, rfl, ?_⟩
  · have h := nextCalls_from nodes instrs hparse m nodes.length
      (NewDockerfileDriver (some nodes) dom) rfl (by simp [NewDockerfileDriver]) rfl
    simpa [NewDockerfileDriver] using h
  · simp [recipeSteps, List.length_zipWith, ← hlen]
  · intro s hs
    simp only [recipeSteps, List.mem_iff_getElem, List.length_zipWith] at hs
    obtain ⟨j, hj, rfl⟩ := hs
    rw [List.getElem_zipWith]
    simp only [instructionStep]
    exact dockerSubject_ne_eof _
  · have h := nextCalls_from [] [] rfl m 0 (NewDockerfileDriver (some []) dom) rfl rfl rfl
    simpa [NewDockerfileDriver, recipeSteps] using h

/-- C3, on the recipe `FROM ubuntu` / `RUN apt-get install gcc` and two further calls. -/
theorem next_yields_steps_then_eof_witness :
    nextCalls 5 (NewDockerfileDriver (some (nodesOf 1 gccInstrs)) none)
      = [ (instructionStep (nodeOf 1 (fromInstr [] "ubuntu".data "FROM ubuntu".data))
            (fromInstr [] "ubuntu".data "FROM ubuntu".data), true, none),
          (instructionStep (nodeOf 2 (runInstr "apt-get install gcc".data))
            (runInstr "apt-get install gcc".data), true, none),
          (eofStep, true, none), ({}, false, none), ({}, false, none) ] :=
  (next_yields_steps_then_eof (nodesOf 1 gccInstrs) gccInstrs none rfl 2).1

/-! ## The run of the engine over the Dockerfile driver -/

theorem transferDom_eof (T : CaseTables) (dom : DockerStageEval) :
    transferDom T dom eofStep = dom := rfl

theorem next_exhausted_first (nodes : List Node) (d : DockerfileDriver)
    (hdf : d.df = some nodes) (hi : nodes.length ≤ d.i) (hfin : d.finalized = false)
    (heof : d.eofSent = false) :
    DockerfileDriver.Next d
      = ({ d with dom := d.dom.ensureFinalized, finalized := true, eofSent := true },
          (eofStep, true, none)) := by
  unfold DockerfileDriver.Next
  simp only [hdf, hi, dite_true]
  simp [hfin, heof, hdf]

theorem next_exhausted_again (nodes : List Node) (d : DockerfileDriver)
    (hdf : d.df = some nodes) (hi : nodes.length ≤ d.i) (hfin : d.finalized = true)
    (heof : d.eofSent = true) :
    DockerfileDriver.Next d = (d, ({}, false, none)) := by
  unfold DockerfileDriver.Next
  simp only [hdf, hi, dite_true]
  simp [hfin, heof]

theorem driver_yields (T : CaseTables) (nodes : List Node) (instrs : List Instruction)
    (rules : List BaseRule) (runner : Runner (Option DockerStageEval))
    (hparse : nodes.map (fun nd => nd.parsed) = instrs.map Except.ok) :
    ∀ (k : Nat) (d : DockerfileDriver), d.df = some nodes → d.i + k = nodes.length →
      d.eofSent = false → d.finalized = false →
      ∃ (tr : List (Step × DockerfileDriver × DockerfileDriver)) (dEnd : DockerfileDriver),
        Yields (dockerfileDriver T) d tr dEnd ∧ tr.length = k + 1 ∧
        dEnd.dom = (((recipeSteps nodes instrs).drop d.i).foldl (transferDom T)
          d.dom).ensureFinalized ∧
        expectedFindings T rules runner (dockerfileDriver T) tr
          = recipeFindings T rules runner d.dom ((recipeSteps nodes instrs).drop d.i) := by
  have hlen : nodes.length = instrs.length := by simpa using congrArg List.length hparse
  intro k
  induction k with
  | zero =>
    intro d hdf hi heof hfin
    have hi2 : nodes.length ≤ d.i := by omega
    have hdrop : (recipeSteps nodes instrs).drop d.i = [] := by
      apply List.drop_eq_nil_of_le
      simp [recipeSteps, List.length_zipWith, ← hlen]
      omega
    let d1 : DockerfileDriver :=
      { d with dom := d.dom.ensureFinalized, finalized := true, eofSent := true }
    have hnext : DockerfileDriver.Next d = (d1, (eofStep, true, none)) :=
      next_exhausted_first nodes d hdf hi2 hfin heof
    have hnext1 : DockerfileDriver.Next d1 = (d1, ({}, false, none)) :=
      next_exhausted_again nodes d1 hdf hi2 rfl rfl
    refine ⟨[(eofStep, d1, d1)], d1, ?_, rfl, ?_, ?_⟩
    · exact Yields.step d d1 d1 d1 eofStep [] hnext rfl (Yields.done d1 d1 {} hnext1)
    · rw [hdrop]
      rfl
    · rw [hdrop]
      simp [expectedFindings, recipeFindings, dockerfileDriver, DockerfileDriver.DomainContext,
        d1]
  | succ k ih =>
    intro d hdf hi heof hfin
    have hlt : d.i < nodes.length := by omega
    obtain ⟨hn, hs, hnext⟩ := next_instruction nodes instrs hparse d hdf hlt
    have hz : d.i < (recipeSteps nodes instrs).length := by
      simp [recipeSteps, List.length_zipWith, ← hlen]
      omega
    have hdrop : (recipeSteps nodes instrs).drop d.i
        = instructionStep (nodes.get ⟨d.i, hn⟩) (instrs.get ⟨d.i, hs⟩)
          :: (recipeSteps nodes instrs).drop (d.i + 1) := by
      rw [List.drop_eq_getElem_cons hz]
      simp [recipeSteps, List.getElem_zipWith]
    let s := instructionStep (nodes.get ⟨d.i, hn⟩) (instrs.get ⟨d.i, hs⟩)
    let d1 : DockerfileDriver := { d with i := d.i + 1 }
    let d2 : DockerfileDriver := { d1 with dom := transferDom T d.dom s }
    obtain ⟨tr, dEnd, hy, hl, hd, hfind⟩ := ih d2 hdf (by simp [d2, d1]; omega) heof hfin
    refine ⟨(s, d1, d2) :: tr, dEnd, ?_, by simp [hl], ?_, ?_⟩
    · exact Yields.step d d1 d2 dEnd s tr hnext rfl hy
    · rw [hd, hdrop]
      rfl
    · rw [hdrop]
      have hcons : expectedFindings T rules runner (dockerfileDriver T) ((s, d1, d2) :: tr)
          = (passFindings T rules runner (some d.dom) s (phaseIsPre T) ++
              passFindings T rules runner (some (transferDom T d.dom s)) s
                (phaseIsPostOrEmpty T)) ++
            expectedFindings T rules runner (dockerfileDriver T) tr := by
        simp [expectedFindings, dockerfileDriver, DockerfileDriver.DomainContext, d1, d2]
      rw [hcons, hfind]
      rfl

theorem run_dockerfile (T : CaseTables) (nodes : List Node) (instrs : List Instruction)
    (rules : List BaseRule) (fuel : Nat)
    (hparse : nodes.map (fun nd => nd.parsed) = instrs.map Except.ok)
    (hfuel : nodes.length + 1 < fuel) :
    ∃ (dEnd : DockerfileDriver) (findings : List Finding),
      Validate T nodes rules fuel = some (dEnd, findings, none) ∧
      dEnd.dom = ((recipeSteps nodes instrs).foldl (transferDom T) {}).ensureFinalized ∧
      findings = recipeFindings T rules (dockerfileRunner T) {} (recipeSteps nodes instrs) := by
  obtain ⟨tr, dEnd, hy, hl, hd, hfind⟩ := driver_yields T nodes instrs rules (dockerfileRunner T)
    hparse nodes.length
    (NewDockerfileDriver (some nodes) (some {})) rfl (by simp [NewDockerfileDriver]) rfl rfl
  refine ⟨dEnd, [] ++ expectedFindings T rules (dockerfileRunner T) (dockerfileDriver T) tr,
    ?_, ?_, ?_⟩
  · unfold Validate Engine.Run
    have hget : mapGet (New T rules [dockerfileRunner T]).runners
        (strings.ToLower T ((dockerfileDriver T).Target
          (NewDockerfileDriver (some nodes) (some {})))) = some (dockerfileRunner T) := by
      simp [New, mapSet, mapGet, dockerfileRunner, dockerfileDriver, DockerfileDriver.Target]
    simp only [hget]
    exact runLoop_of_yields T _ (dockerfileRunner T) (dockerfileDriver T) _ dEnd tr hy fuel []
      (by omega)
  · rw [hd]
    rfl
  · rw [List.nil_append]
    exact hfind

theorem recipeSteps_eq_map (nodes : List Node) (instrs : List Instruction) :
    recipeSteps nodes instrs = (nodes.zip instrs).map (fun q => instructionStep q.1 q.2) := by
  unfold recipeSteps
  induction nodes generalizing instrs with
  | nil => simp
  | cons nd nds ih =>
    cases instrs with
    | nil => simp
    | cons x xs => simp [ih]

theorem zip_snd (nodes : List Node) (instrs : List Instruction)
    (hlen : nodes.length = instrs.length) : (nodes.zip instrs).map Prod.snd = instrs := by
  induction nodes generalizing instrs with
  | nil =>
    cases instrs with
    | nil => rfl
    | cons x xs => simp at hlen
  | cons nd nds ih =>
    cases instrs with
    | nil => simp at hlen
    | cons x xs =>
      simp only [List.length_cons, Nat.add_right_cancel_iff] at hlen
      simp [ih xs hlen]

/-! ## The fold of the instruction stream into the stage model -/

theorem transferDom_stage (T : CaseTables) (dom : DockerStageEval) (nd : Node)
    (ins : Instruction) (h : ins.isStage = true) :
    (transferDom T dom (instructionStep nd ins)).hasFinal = true ∧
    (transferDom T dom (instructionStep nd ins)).Stages.length
      = dom.Stages.length + (if dom.hasFinal then 1 else 0) ∧
    (transferDom T dom (instructionStep nd ins)).Final.HasUser = false ∧
    (transferDom T dom (instructionStep nd ins)).Final.HasHealthcheck = false ∧
    (transferDom T dom (instructionStep nd ins)).Final.HasCopyFrom = false := by
  cases ins <;> simp [Instruction.isStage] at h
  by_cases hf : dom.hasFinal = true <;>
    simp [transferDom, instructionStep, DockerStageEval.startStage, instructionStage, hf]

theorem transferDom_other (T : CaseTables) (dom : DockerStageEval) (nd : Node)
    (ins : Instruction) (h : ins.isStage = false) :
    (transferDom T dom (instructionStep nd ins)).hasFinal = dom.hasFinal ∧
    (transferDom T dom (instructionStep nd ins)).Stages = dom.Stages ∧
    (dom.hasFinal = true →
      (transferDom T dom (instructionStep nd ins)).Final.HasUser
        = (dom.Final.HasUser || ins.isUser) ∧
      (transferDom T dom (instructionStep nd ins)).Final.HasHealthcheck
        = (dom.Final.HasHealthcheck || ins.isHealthcheck) ∧
      (transferDom T dom (instructionStep nd ins)).Final.HasCopyFrom
        = (dom.Final.HasCopyFrom || ins.isCopyNonBlankFrom)) := by
  cases ins <;> simp [Instruction.isStage] at h <;>
    by_cases hf : dom.hasFinal = true <;>
    simp [transferDom, instructionStep, hf, Instruction.isUser, Instruction.isHealthcheck,
      Instruction.isCopyNonBlankFrom]
  all_goals split <;> simp_all

theorem afterLastStage_snoc (l : List Instruction) (x : Instruction) :
    afterLastStage (l ++ [x]) = if x.isStage then [] else afterLastStage l ++ [x] := by
  unfold afterLastStage
  by_cases h : x.isStage = true <;> simp [List.takeWhile_cons, h]

/-- Invariant of the fold: whether a stage is open, how many stages there are, and the
flags of the open stage, in terms of the instructions transferred so far. -/
theorem domAfter_invariant (T : CaseTables) (ps : List (Node × Instruction)) :
    (domAfter T ps).hasFinal = (ps.map Prod.snd).any Instruction.isStage ∧
    (domAfter T ps).Stages.length + (if (domAfter T ps).hasFinal then 1 else 0)
      = (ps.map Prod.snd).countP Instruction.isStage ∧
    ((domAfter T ps).hasFinal = true →
      (domAfter T ps).Final.HasUser
        = (afterLastStage (ps.map Prod.snd)).any Instruction.isUser ∧
      (domAfter T ps).Final.HasHealthcheck
        = (afterLastStage (ps.map Prod.snd)).any Instruction.isHealthcheck ∧
      (domAfter T ps).Final.HasCopyFrom
        = (afterLastStage (ps.map Prod.snd)).any Instruction.isCopyNonBlankFrom) := by
  induction ps using List.reverseRecOn with
  | nil => simp [domAfter]
  | append_singleton ps q ih =>
    obtain ⟨ih1, ih2, ih3⟩ := ih
    have hstep : domAfter T (ps ++ [q])
        = transferDom T (domAfter T ps) (instructionStep q.1 q.2) := by
      simp [domAfter, List.foldl_append]
    rw [hstep]
    simp only [List.map_append, List.map_cons, List.map_nil, afterLastStage_snoc,
      List.any_append, List.countP_append, List.any_cons, List.any_nil, Bool.or_false,
      List.countP_cons, List.countP_nil]
    by_cases hq : q.2.isStage = true
    · obtain ⟨h1, h2, h3, h4, h5⟩ := transferDom_stage T (domAfter T ps) q.1 q.2 hq
      simp [h1, h2, h3, h4, h5, hq, ih2]
    · have hq2 : q.2.isStage = false := by simpa using hq
      obtain ⟨h1, h2, h3⟩ := transferDom_other T (domAfter T ps) q.1 q.2 hq2
      rw [h1, h2]
      refine ⟨by simp [hq2, ih1], by simp [hq2, ih2], ?_⟩
      intro hf
      obtain ⟨a1, a2, a3⟩ := h3 hf
      obtain ⟨b1, b2, b3⟩ := ih3 hf
      simp [a1, a2, a3, b1, b2, b3, hq2]

theorem nodesOf_parsed (instrs : List Instruction) :
    ∀ line : Int, (nodesOf line instrs).map (fun nd => nd.parsed) = instrs.map Except.ok := by
  induction instrs with
  | nil => intro _; rfl
  | cons x xs ih => intro line; simp [nodesOf, nodeOf, ih]

theorem ensureFinalized_spec (d : DockerStageEval) :
    d.ensureFinalized.hasFinal = false ∧
    d.ensureFinalized.Stages = (if d.hasFinal then d.Stages ++ [d.Final] else d.Stages) := by
  unfold DockerStageEval.ensureFinalized
  by_cases h : d.hasFinal = true <;> simp [h]

/-- Stage model at the end of a complete run, in terms of `domAfter`. -/
theorem run_dockerfile_dom (T : CaseTables) (nodes : List Node) (instrs : List Instruction)
    (rules : List BaseRule) (fuel : Nat)
    (hparse : nodes.map (fun nd => nd.parsed) = instrs.map Except.ok)
    (hfuel : nodes.length + 1 < fuel) :
    ∃ (dEnd : DockerfileDriver) (findings : List Finding) (ps : List (Node × Instruction)),
      Validate T nodes rules fuel = some (dEnd, findings, none) ∧
      ps.map Prod.snd = instrs ∧
      dEnd.dom = (domAfter T ps).ensureFinalized := by
  have hlen : nodes.length = instrs.length := by simpa using congrArg List.length hparse
  obtain ⟨dEnd, findings, hv, hd, _⟩ := run_dockerfile T nodes instrs rules fuel hparse hfuel
  refine ⟨dEnd, findings, nodes.zip instrs, hv, zip_snd nodes instrs hlen, ?_⟩
  rw [hd, recipeSteps_eq_map]
  rfl

/-- C4: for every recipe whose nodes all parse, `Validate` (given fuel for the steps, the
`eof` step and the final call of `Next`) returns without error, and in the stage model it
leaves behind the number of stages in the list equals the number of stage headers of the
recipe and no stage is open. -/
theorem validate_stage_count (T : CaseTables) (nodes : List Node) (instrs : List Instruction)
    (rules : List BaseRule) (fuel : Nat)
    (hparse : nodes.map (fun nd => nd.parsed) = instrs.map Except.ok)
    (hfuel : nodes.length + 1 < fuel) :
    ∃ (dEnd : DockerfileDriver) (findings : List Finding),
      Validate T nodes rules fuel = some (dEnd, findings, none) ∧
      dEnd.dom.Stages.length = instrs.countP Instruction.isStage ∧
      dEnd.dom.hasFinal = false := by
  obtain ⟨dEnd, findings, ps, hv, hps, hd⟩ :=
    run_dockerfile_dom T nodes instrs rules fuel hparse hfuel
  obtain ⟨_, i2, _⟩ := domAfter_invariant T ps
  obtain ⟨e1, e2⟩ := ensureFinalized_spec (domAfter T ps)
  refine ⟨dEnd, findings, hv, ?_, ?_⟩
  · rw [hd, e2, ← hps, ← i2]
    by_cases hf : (domAfter T ps).hasFinal = true <;> simp [hf]
  · rw [hd, e1]

/-- C4, on the recipe `FROM build AS b` / `RUN go build .` / `FROM alpine` /
`CMD ["/app"]`, which has two stage headers. -/
theorem validate_stage_count_witness :
    ∃ (dEnd : DockerfileDriver) (findings : List Finding),
      Validate asciiTables (nodesOf 1 multiStageInstrs) [] 6 = some (dEnd, findings, none) ∧
      dEnd.dom.Stages.length = 2 ∧ dEnd.dom.hasFinal = false :=
  validate_stage_count asciiTables (nodesOf 1 multiStageInstrs) multiStageInstrs [] 6
    (nodesOf_parsed multiStageInstrs 1) (by decide)

/-- C5 (the code departs from the claim): on the recipe `FROM a` / `FROM b` the two stages
of the list both carry stage index 0, since `Transfer` takes the index from the length
of the list before the open stage is appended to it. -/
theorem stage_index_repeats :
    (Validate asciiTables (nodesOf 1 twoFromInstrs) [] 4).map
        (fun r => r.1.dom.Stages.map (fun st => st.StageIndex)) = some [0, 0] := by
  decide

/-- C9 (the claim as stated fails): on the recipe `FROM a` / `COPY --from=" " x y` a `COPY`
with a non-empty `from` comes after the last stage header, and yet the final stage of the
model has `has_copy_from` false, because `Transfer` trims the `from` before testing it. -/
theorem copy_blank_from_not_counted :
    (afterLastStage blankCopyInstrs).any Instruction.isCopyNonEmptyFrom = true ∧
    (Validate asciiTables (nodesOf 1 blankCopyInstrs) [] 4).map
        (fun r => r.1.dom.Stages.map (fun st => st.HasCopyFrom)) = some [false] := by
  decide

/-- C9 (amended): for every recipe whose nodes all parse and that has a stage header,
after the run the last stage of the list has `has_user` (resp. `has_healthcheck`,
`has_copy_from`) true iff a `USER` (resp. `HEALTHCHECK`, `COPY` whose `from` is non-empty
after trimming white space) instruction comes after the last stage header; and when the
recipe has at least two stage headers and no such `COPY` after the last one, the check
`missing_copy_from_in_multistage` holds on the final model. -/
theorem final_stage_flags (T : CaseTables) (nodes : List Node) (instrs : List Instruction)
    (rules : List BaseRule) (fuel : Nat)
    (hparse : nodes.map (fun nd => nd.parsed) = instrs.map Except.ok)
    (hfuel : nodes.length + 1 < fuel)
    (hfrom : instrs.any Instruction.isStage = true) :
    ∃ (dEnd : DockerfileDriver) (findings : List Finding) (f : DockerStageState),
      Validate T nodes rules fuel = some (dEnd, findings, none) ∧
      dEnd.dom.Stages.getLast? = some f ∧
      f.HasUser = (afterLastStage instrs).any Instruction.isUser ∧
      f.HasHealthcheck = (afterLastStage instrs).any Instruction.isHealthcheck ∧
      f.HasCopyFrom = (afterLastStage instrs).any Instruction.isCopyNonBlankFrom ∧
      (2 ≤ instrs.countP Instruction.isStage →
        (afterLastStage instrs).any Instruction.isCopyNonBlankFrom = false →
        matchesDockerfileConstraint (some dEnd.dom) "missing_copy_from_in_multistage".data
          = true) := by
  obtain ⟨dEnd, findings, ps, hv, hps, hd⟩ :=
    run_dockerfile_dom T nodes instrs rules fuel hparse hfuel
  obtain ⟨i1, i2, i3⟩ := domAfter_invariant T ps
  obtain ⟨_, e2⟩ := ensureFinalized_spec (domAfter T ps)
  rw [hps] at i1 i2 i3
  have hf : (domAfter T ps).hasFinal = true := by rw [i1]; exact hfrom
  obtain ⟨u, hc, c⟩ := i3 hf
  have hst : dEnd.dom.Stages = (domAfter T ps).Stages ++ [(domAfter T ps).Final] := by
    rw [hd, e2]; simp [hf]
  have hlast : dEnd.dom.Stages.getLast? = some (domAfter T ps).Final := by
    rw [hst]; simp
  refine ⟨dEnd, findings, (domAfter T ps).Final, hv, hlast, u, hc, c, ?_⟩
  intro h2 hno
  rw [(constraint_agrees_with_reference dEnd.dom _)]
  unfold constraintSpec
  rw [hlast]
  have hlen : 2 ≤ dEnd.dom.Stages.length := by
    rw [hst, List.length_append, List.length_singleton]
    simp only [hf, if_true] at i2
    omega
  have h1 : ("missing_copy_from_in_multistage".data = "missing_user_final_stage".data)
      = False := by decide
  have h3 : ("missing_copy_from_in_multistage".data
      = "missing_healthcheck_final_stage".data) = False := by decide
  simp only [h1, h3, if_false, if_true]
  rw [c, hno]
  simp [hlen]

/-- C9 (amended), on the recipe `FROM build AS b` / `RUN go build .` / `FROM alpine` /
`CMD ["/app"]`: the check `missing_copy_from_in_multistage` holds on the final model. -/
theorem final_stage_flags_witness :
    ∃ (dEnd : DockerfileDriver) (findings : List Finding),
      Validate asciiTables (nodesOf 1 multiStageInstrs) [] 6 = some (dEnd, findings, none) ∧
      matchesDockerfileConstraint (some dEnd.dom) "missing_copy_from_in_multistage".data
        = true := by
  obtain ⟨dEnd, findings, f, hv, _, _, _, _, hcheck⟩ :=
    final_stage_flags asciiTables (nodesOf 1 multiStageInstrs) multiStageInstrs [] 6
      (nodesOf_parsed multiStageInstrs 1) (by decide) (by decide)
  exact ⟨dEnd, findings, hv, hcheck (by decide) (by decide)⟩

/-! ## Constraint rules at the `eof` step -/

theorem trimSpace_eof : strings.TrimSpace "eof".data = "eof".data := by decide

theorem eval_constraint_at_eof (T : CaseTables) (dom : Option DockerStageEval)
    (rule : BaseRule) (e : ExpressionDockerfileConstraint)
    (he : rule.Expression = some (.DockerfileConstraint e)) :
    DockerfileRunner.Eval T dom rule eofStep
      = if strings.EqualFold T (strings.TrimSpace rule.Subject) "eof".data
            && matchesDockerfileConstraint dom e.Check
        then [buildFinding rule eofStep] else [] := by
  unfold DockerfileRunner.Eval
  have hs : eofStep.Subject = "eof".data := rfl
  rw [he, hs, trimSpace_eof]
  by_cases h1 : strings.EqualFold T (strings.TrimSpace rule.Subject) "eof".data = true
  · cases dom with
    | none => simp [h1, evalDockerfileConstraint, hs, matchesDockerfileConstraint]
    | some m =>
      by_cases h2 : matchesDockerfileConstraint (some m) e.Check = true <;>
        simp [h1, h2, evalDockerfileConstraint, hs]
  · simp [h1]

theorem eval_constraint_off_eof (T : CaseTables) (dom : Option DockerStageEval)
    (rule : BaseRule) (e : ExpressionDockerfileConstraint) (step : Step)
    (he : rule.Expression = some (.DockerfileConstraint e))
    (hs : step.Subject ≠ "eof".data) :
    DockerfileRunner.Eval T dom rule step = [] := by
  unfold DockerfileRunner.Eval
  rw [he]
  by_cases h1 : strings.EqualFold T (strings.TrimSpace rule.Subject)
      (strings.TrimSpace step.Subject) = true
  · simp [h1, evalDockerfileConstraint, hs]
  · simp [h1]

/-- C7 (the claim as stated fails): on a model whose only stage has no `USER`, the check
`missing_user_final_stage` holds, and yet a constraint rule with that check and the empty
subject yields no finding on the `eof` step: the subject guard of `Eval` comes first. -/
theorem constraint_subject_not_ignored :
    matchesDockerfileConstraint (some noUserModel) "missing_user_final_stage".data = true ∧
    DockerfileRunner.Eval asciiTables (some noUserModel)
      (constraintRule [] "missing_user_final_stage".data) eofStep = [] := by
  decide

/-- C7 (amended): for every stage model, check and rule subject, `DockerfileRunner.Eval`
of a constraint rule on the `eof` step yields a finding, exactly one, the one built from
the rule and the `eof` step, iff the rule subject equals `eof` after trimming and without
regard to case and the check holds on the stage model; otherwise it yields none. -/
theorem eval_constraint_eof (T : CaseTables) (dom : Option DockerStageEval)
    (e : ExpressionDockerfileConstraint) (target phase subject : GoString)
    (md : Option Metadata) :
    DockerfileRunner.Eval T dom
        { Target := target, Phase := phase, Subject := subject
          Expression := some (.DockerfileConstraint e), Metadata := md } eofStep
      = if strings.EqualFold T (strings.TrimSpace subject) "eof".data
            && matchesDockerfileConstraint dom e.Check
        then [buildFinding
                { Target := target, Phase := phase, Subject := subject
                  Expression := some (.DockerfileConstraint e), Metadata := md } eofStep]
        else [] :=
  eval_constraint_at_eof T dom _ e rfl

/-! ## The stage model and `Next` -/

/-- C10 (the claim as stated fails): in the driver of `FROM a` whose stage header has been
transferred, the stage is open and the list is empty; the next call of `Next` answers the
`eof` step and has itself appended the open stage to the list and closed it; the transfer
of the `eof` step changes nothing, before that call as well as after it. -/
theorem next_finalizes_open_stage :
    openStageDriver.dom.hasFinal = true ∧ openStageDriver.dom.Stages.length = 0 ∧
    (DockerfileDriver.Next openStageDriver).2 = (eofStep, true, none) ∧
    (DockerfileDriver.Next openStageDriver).1.dom.Stages.length = 1 ∧
    (DockerfileDriver.Next openStageDriver).1.dom.hasFinal = false ∧
    (DockerfileDriver.Next openStageDriver).1.dom ≠ openStageDriver.dom ∧
    (DockerfileDriver.Transfer asciiTables openStageDriver eofStep).1.dom
      = openStageDriver.dom ∧
    (DockerfileDriver.Transfer asciiTables (DockerfileDriver.Next openStageDriver).1
        eofStep).1.dom = (DockerfileDriver.Next openStageDriver).1.dom := by
  decide

/-- C10 (amended): `DockerfileDriver.Next` leaves the stage model unchanged as long as a
node remains to be delivered, and on every call after the one that finalized; on the first
call with no node left it applies `ensureFinalized` itself, which appends the open stage,
if there is one, to the list and closes it; `Transfer` of the `eof` step leaves the stage
model unchanged. -/
theorem next_dom_effect (T : CaseTables) (d : DockerfileDriver) :
    (DockerfileDriver.Next d).1.dom
      = (if d.exhausted && !d.finalized then d.dom.ensureFinalized else d.dom) ∧
    d.dom.ensureFinalized.Stages
      = (if d.dom.hasFinal then d.dom.Stages ++ [d.dom.Final] else d.dom.Stages) ∧
    d.dom.ensureFinalized.hasFinal = false ∧
    (DockerfileDriver.Transfer T d eofStep).1.dom = d.dom := by
  refine ⟨?_, (ensureFinalized_spec d.dom).2, (ensureFinalized_spec d.dom).1, rfl⟩
  unfold DockerfileDriver.Next DockerfileDriver.exhausted
  cases hdf : d.df with
  | none => simp
  | some nodes =>
    by_cases hi : nodes.length ≤ d.i
    · by_cases hf : d.finalized = true <;> by_cases he : d.eofSent = true <;>
        simp [hi, hf, he]
    · simp only [hi, dite_false, decide_False, Bool.false_and]
      cases (nodes.get ⟨d.i, Nat.lt_of_not_le hi⟩).parsed <;> simp

/-! ## Build tooling in a single-stage recipe -/

theorem phaseIsPostOrEmpty_post (T : CaseTables) : phaseIsPostOrEmpty T "post".data = true := by
  unfold phaseIsPostOrEmpty
  rw [trimSpace_post, equalFold_refl]
  rfl

theorem phaseIsPre_post (T : CaseTables) : phaseIsPre T "post".data = false := by
  cases h : phaseIsPre T "post".data
  · rfl
  · exact absurd ⟨h, phaseIsPostOrEmpty_post T⟩ (not_pre_and_post T "post".data)

theorem sameString_refl (T : CaseTables) (x : GoString) : sameString T x x = true :=
  equalFold_refl T _

theorem passFindings_single {δ : Type} (T : CaseTables) (rule : BaseRule) (runner : Runner δ)
    (dom : δ) (step : Step) (inPass : GoString → Bool) :
    passFindings T [rule] runner dom step inPass
      = if (sameString T rule.Target step.Target && inPass rule.Phase) = true
        then runner.Eval dom rule step else [] := by
  unfold passFindings
  by_cases hc : (sameString T rule.Target step.Target && inPass rule.Phase) = true
  · simp [List.filter_cons, hc]
  · simp [List.filter_cons, hc]

/-- Findings of a run over instruction steps when the catalog is one constraint rule of
target `dockerfile` and phase `post`: what the rule yields on the `eof` step, on the
finalized model. -/
theorem recipeFindings_constraint (T : CaseTables) (rule : BaseRule)
    (e : ExpressionDockerfileConstraint)
    (he : rule.Expression = some (.DockerfileConstraint e))
    (hp : rule.Phase = "post".data) (ht : rule.Target = targetDockerfile)
    (steps : List Step) (hsteps : ∀ s ∈ steps, s.Subject ≠ "eof".data) :
    ∀ dom : DockerStageEval,
      recipeFindings T [rule] (dockerfileRunner T) dom steps
        = DockerfileRunner.Eval T (some (steps.foldl (transferDom T) dom).ensureFinalized)
            rule eofStep := by
  induction steps with
  | nil =>
    intro dom
    have htg : sameString T rule.Target eofStep.Target = true := by
      rw [ht]; exact sameString_refl T _
    rw [recipeFindings, passFindings_single, passFindings_single, hp, htg, phaseIsPre_post,
      phaseIsPostOrEmpty_post]
    rfl
  | cons s rest ih =>
    intro dom
    have hs : s.Subject ≠ "eof".data := hsteps s (List.mem_cons_self _ _)
    have e1 : ∀ dm : Option DockerStageEval, DockerfileRunner.Eval T dm rule s = [] :=
      fun dm => eval_constraint_off_eof T dm rule e s he hs
    have hrest := ih (fun x hx => hsteps x (List.mem_cons_of_mem _ hx)) (transferDom T dom s)
    have h0 : ∀ (dm : Option DockerStageEval) (inPass : GoString → Bool),
        passFindings T [rule] (dockerfileRunner T) dm s inPass = [] := by
      intro dm inPass
      rw [passFindings_single]
      have : (dockerfileRunner T).Eval dm rule s = [] := e1 dm
      rw [this]
      simp
    rw [recipeFindings, h0, h0, hrest, List.foldl_cons]
    rfl

/-- C8 (the claim as stated fails): the raw text `RUN apt-get install -y gcc` contains none
of the build-tooling hints (`-y` stands between `apt-get install` and `gcc`), so on the
recipe `FROM ubuntu` / `RUN apt-get install -y gcc` the stage keeps `has_build_tooling`
false and the rule `single_stage_with_build_tools` produces no finding. -/
theorem gcc_with_flag_not_detected :
    runLooksLikeBuildTooling asciiTables "RUN apt-get install -y gcc".data = false ∧
    (Validate asciiTables (nodesOf 1 gccYesInstrs) [buildToolsRule] 4).map
        (fun r => (r.1.dom.Stages.map (fun st => st.HasBuildTooling), r.2))
      = some ([false], [], none) := by
  decide

/-- C8 (amended): for the single-stage recipe `FROM ubuntu` followed by a `RUN` step of raw
text `raw`, the run ends without error, the stage has `has_build_tooling` set iff the
lower-cased raw text contains one of the hints of the closed list, the check
`single_stage_with_build_tools` holds on the final model exactly then, and the rule with
that check and subject `eof` produces exactly one finding, the one of the `eof` step, in
that case and none otherwise. `RUN apt-get install gcc` contains a hint,
`RUN apt-get install -y gcc` contains none. -/
theorem build_tooling_single_stage (T : CaseTables) (raw : GoString)
    (cmdLine flags : List GoString) :
    (∃ dEnd : DockerfileDriver,
      Validate T (nodesOf 1 (ubuntuRun raw cmdLine flags)) [buildToolsRule] 4
        = some (dEnd,
            if runLooksLikeBuildTooling T raw then [buildFinding buildToolsRule eofStep] else [],
            none) ∧
      dEnd.dom.Stages.map (fun st => st.HasBuildTooling) = [runLooksLikeBuildTooling T raw] ∧
      matchesDockerfileConstraint (some dEnd.dom) "single_stage_with_build_tools".data
        = runLooksLikeBuildTooling T raw) ∧
    runLooksLikeBuildTooling asciiTables "RUN apt-get install gcc".data = true ∧
    runLooksLikeBuildTooling asciiTables "RUN apt-get install -y gcc".data = false := by
  obtain ⟨dEnd, findings, hv, hd, hf⟩ := run_dockerfile T (nodesOf 1 (ubuntuRun raw cmdLine flags))
    (ubuntuRun raw cmdLine flags) [buildToolsRule] 4 (nodesOf_parsed _ 1) (Nat.lt_succ_self 3)
  have hexpr : buildToolsRule.Expression
      = some (.DockerfileConstraint { Check := "single_stage_with_build_tools".data }) := rfl
  have hne : ∀ s ∈ recipeSteps (nodesOf 1 (ubuntuRun raw cmdLine flags))
      (ubuntuRun raw cmdLine flags), s.Subject ≠ "eof".data := by
    intro s hs
    simp only [recipeSteps, List.mem_iff_getElem, List.length_zipWith] at hs
    obtain ⟨j, hj, rfl⟩ := hs
    rw [List.getElem_zipWith]
    exact dockerSubject_ne_eof _
  rw [recipeFindings_constraint T buildToolsRule _ hexpr rfl rfl _ hne, ← hd] at hf
  have hsteps : recipeSteps (nodesOf 1 (ubuntuRun raw cmdLine flags)) (ubuntuRun raw cmdLine flags)
      = [instructionStep (nodeOf 1 (fromInstr [] "ubuntu".data "FROM ubuntu".data))
            (fromInstr [] "ubuntu".data "FROM ubuntu".data),
         instructionStep (nodeOf 2 (.RunCommand raw cmdLine flags))
            (.RunCommand raw cmdLine flags)] := rfl
  rw [hsteps] at hd
  have hstages : dEnd.dom.Stages.map (fun st => st.HasBuildTooling)
      = [runLooksLikeBuildTooling T raw] := by
    rw [hd]
    by_cases hb : runLooksLikeBuildTooling T raw = true <;>
      simp [transferDom, instructionStep, fromInstr, DockerStageEval.startStage,
        DockerStageEval.ensureFinalized, instructionStage, dockerRaw, hb]
  have hcheck : matchesDockerfileConstraint (some dEnd.dom) "single_stage_with_build_tools".data
      = runLooksLikeBuildTooling T raw := by
    rw [hd]
    by_cases hb : runLooksLikeBuildTooling T raw = true <;>
      simp [transferDom, instructionStep, fromInstr, DockerStageEval.startStage,
        DockerStageEval.ensureFinalized, instructionStage, dockerRaw, hb,
        matchesDockerfileConstraint]
  have hsub : strings.EqualFold T (strings.TrimSpace buildToolsRule.Subject) "eof".data = true := by
    show strings.EqualFold T (strings.TrimSpace "eof".data) "eof".data = true
    rw [trimSpace_eof]; exact equalFold_refl T _
  refine ⟨⟨dEnd, ?_, hstages, hcheck⟩, by decide, by decide⟩
  rw [hv, hf, eval_constraint_at_eof T _ buildToolsRule _ hexpr, hsub, hcheck, Bool.true_and]


/-! ## A run of the engine on a concrete recipe -/

/-- C1, on the recipe `FROM ubuntu` / `RUN apt-get install gcc` with the single rule
`single_stage_with_build_tools`: the driver yields three steps and the run returns the one
finding of the post-pass of the `eof` step. -/
theorem engine_run_findings_witness :
    ((New asciiTables [buildToolsRule] [dockerfileRunner asciiTables]).Run asciiTables
        (dockerfileDriver asciiTables) 4
        (NewDockerfileDriver (some (nodesOf 1 gccInstrs)) none)).map (fun r => r.2)
      = some ([buildFinding buildToolsRule eofStep], none) := by
  have h := engine_run_findings asciiTables
    (New asciiTables [buildToolsRule] [dockerfileRunner asciiTables])
    (dockerfileRunner asciiTables) (dockerfileDriver asciiTables)
    (NewDockerfileDriver (some (nodesOf 1 gccInstrs)) none) _ _ 4 rfl
    (Yields.step _ _ _ _ _ _ rfl rfl (Yields.step _ _ _ _ _ _ rfl rfl
      (Yields.step _ _ _ _ _ _ rfl rfl (Yields.done _ _ _ rfl))))
    (Nat.lt_succ_self 3)
  rw [h]
  decide

/-! ## Monotone flags, errors of the driver, and the choice of the runner -/

/-- C11: for every driver whose stage model has an open stage and every step that is not
a stage header, `Transfer` keeps the stage open and changes none of the flags `has_user`,
`has_copy_from`, `has_healthcheck`, `has_build_tooling` of the open stage from true to
false; and for every step whatever, the stage list after the transfer is the list before
it, followed by the formerly open stage when the step is a stage header and a stage was
open, and by nothing otherwise. -/
theorem transfer_flags (T : CaseTables) (d : DockerfileDriver) (step : Step) :
    (d.dom.hasFinal = true → step.isStageHeader = false →
      (DockerfileDriver.Transfer T d step).1.dom.hasFinal = true ∧
      (d.dom.Final.HasUser = true →
        (DockerfileDriver.Transfer T d step).1.dom.Final.HasUser = true) ∧
      (d.dom.Final.HasCopyFrom = true →
        (DockerfileDriver.Transfer T d step).1.dom.Final.HasCopyFrom = true) ∧
      (d.dom.Final.HasHealthcheck = true →
        (DockerfileDriver.Transfer T d step).1.dom.Final.HasHealthcheck = true) ∧
      (d.dom.Final.HasBuildTooling = true →
        (DockerfileDriver.Transfer T d step).1.dom.Final.HasBuildTooling = true)) ∧
    (DockerfileDriver.Transfer T d step).1.dom.Stages
      = d.dom.Stages ++ (if step.isStageHeader && d.dom.hasFinal then [d.dom.Final] else []) := by
  unfold DockerfileDriver.Transfer
  simp only
  constructor
  · intro hopen hns
    unfold transferDom
    split <;> simp_all [Step.isStageHeader] <;> (try split) <;> simp_all
  · unfold transferDom
    split <;> simp [Step.isStageHeader, *, DockerStageEval.startStage] <;>
      (try split) <;> simp_all
    all_goals (split <;> rfl)


theorem mapGet_mapSet {α : Type} (m : List (GoString × α)) (k k2 : GoString) (v : α) :
    mapGet (mapSet m k v) k2 = if k = k2 then some v else mapGet m k2 := by
  induction m with
  | nil => simp [mapSet, mapGet]
  | cons p m ih =>
    obtain ⟨k0, v0⟩ := p
    by_cases h0 : k0 = k
    · subst h0
      by_cases h2 : k0 = k2 <;> simp [mapSet, mapGet, h2]
    · by_cases h2 : k0 = k2
      · subst h2
        have : ¬ k = k0 := fun h => h0 h.symm
        simp [mapSet, mapGet, h0, this]
      · simp [mapSet, mapGet, h0, h2, ih]

theorem mapGet_foldl_mapSet {δ : Type} (key : Runner δ → GoString) (k : GoString)
    (runners : List (Runner δ)) :
    ∀ m : List (GoString × Runner δ),
      mapGet (runners.foldl (fun m runner => mapSet m (key runner) runner) m) k
        = match (runners.filter (fun r => key r == k)).getLast? with
          | some r => some r
          | none => mapGet m k := by
  induction runners with
  | nil => intro m; simp
  | cons r rs ih =>
    intro m
    rw [List.foldl_cons, ih, mapGet_mapSet]
    by_cases hk : key r = k
    · simp only [List.filter_cons, hk, beq_self_eq_true, if_true]
      cases hrs : (rs.filter (fun r => key r == k)) with
      | nil => simp
      | cons x xs =>
        obtain ⟨y, hy⟩ : ∃ y, (x :: xs).getLast? = some y :=
          ⟨_, List.getLast?_eq_getLast _ (List.cons_ne_nil x xs)⟩
        simp [List.getLast?_cons_cons, hy]
    · have hb : (key r == k) = false := by simpa using hk
      simp [List.filter_cons, hb, hk]

theorem run_fails {σ δ : Type} (T : CaseTables) (e : Engine δ) (runner : Runner δ)
    (D : Driver σ δ) (d dErr : σ) (tr : List (Step × σ × σ)) (cur : Option (Step × σ))
    (err : GoString) (h : Fails D d tr cur dErr err) :
    ∀ (fuel : Nat) (acc : List Finding), tr.length < fuel →
      Engine.runLoop T e runner D fuel d acc
        = some (dErr, acc ++ (expectedFindings T e.rules runner D tr ++
            failingStepFindings T e.rules runner D cur), some err) := by
  induction h with
  | nextError d d1 step hasNext err hn =>
    intro fuel acc hfuel
    obtain ⟨k, rfl⟩ : ∃ k, fuel = k + 1 := ⟨fuel - 1, by simp at hfuel; omega⟩
    simp [Engine.runLoop, hn, expectedFindings, failingStepFindings]
  | transferError d d1 d2 s err hn ht =>
    intro fuel acc hfuel
    obtain ⟨k, rfl⟩ : ∃ k, fuel = k + 1 := ⟨fuel - 1, by simp at hfuel; omega⟩
    simp only [Engine.runLoop, hn, ht]
    rw [evalPhase_pre]
    simp [expectedFindings, failingStepFindings]
  | step d d1 d2 dErr s rest cur err hn ht _ ih =>
    intro fuel acc hfuel
    obtain ⟨k, rfl⟩ : ∃ k, fuel = k + 1 := ⟨fuel - 1, by simp at hfuel; omega⟩
    have hk : rest.length < k := by simp at hfuel; omega
    simp only [Engine.runLoop, hn, ht]
    rw [evalPhase_pre, evalPhase_post]
    simp [ih k _ hk, expectedFindings, List.append_assoc]

/-- C12: when the driver yields the steps of `tr` without error and then `Next` returns an
error, or delivers one more step whose `Transfer` returns an error, `Engine.Run` (with fuel
for the steps of `tr` and the failing iteration) returns that error, the driver as the
failing call left it, and exactly the findings of the steps of `tr`, followed by the pre-pass
findings of the current step when the error comes from `Transfer`. -/
theorem engine_run_error {σ δ : Type} (T : CaseTables) (e : Engine δ) (runner : Runner δ)
    (D : Driver σ δ) (d dErr : σ) (tr : List (Step × σ × σ)) (cur : Option (Step × σ))
    (err : GoString) (fuel : Nat)
    (hrunner : mapGet e.runners (strings.ToLower T (D.Target d)) = some runner)
    (hfails : Fails D d tr cur dErr err) (hfuel : tr.length < fuel) :
    e.Run T D fuel d
      = some (dErr, expectedFindings T e.rules runner D tr ++
          failingStepFindings T e.rules runner D cur, some err) := by
  unfold Engine.Run
  rw [hrunner]
  simpa using run_fails T e runner D d dErr tr cur err hfails fuel [] hfuel

/-- C12, on the recipe `FROM ubuntu` followed by a line that does not parse: the second call
of `Next` fails, and the run returns its error and no finding. -/
theorem engine_run_error_witness :
    ((New asciiTables [buildToolsRule] [dockerfileRunner asciiTables]).Run asciiTables
        (dockerfileDriver asciiTables) 4
        (NewDockerfileDriver (some brokenNodes) none)).map (fun r => (r.1.i, r.2))
      = some (2, [], some "unknown instruction".data) := by
  have h := engine_run_error asciiTables
    (New asciiTables [buildToolsRule] [dockerfileRunner asciiTables])
    (dockerfileRunner asciiTables) (dockerfileDriver asciiTables)
    (NewDockerfileDriver (some brokenNodes) none) _ _ _ _ 4 rfl
    (Fails.step _ _ _ _ _ _ _ _ rfl rfl (Fails.nextError _ _ _ _ _ rfl))
    (by decide)
  rw [h]
  decide

/-- C13 (amended): `Engine.Run` on the engine built by `New` uses the runner registered
last among those whose target, lower-cased by `strings.ToLower` and not trimmed, equals the
lower-cased target of the driver; when no registered runner has that lower-cased target it
returns the driver untouched, no finding and no error, whatever the fuel. -/
theorem run_uses_last_runner {σ δ : Type} (T : CaseTables) (rules : List BaseRule)
    (runners : List (Runner δ)) (D : Driver σ δ) (fuel : Nat) (d : σ) :
    (New T rules runners).Run T D fuel d
      = match lastRunnerFor T runners (D.Target d) with
        | none => some (d, [], none)
        | some runner => Engine.runLoop T (New T rules runners) runner D fuel d [] := by
  unfold Engine.Run
  have h : mapGet (New T rules runners).runners (strings.ToLower T (D.Target d))
      = lastRunnerFor T runners (D.Target d) := by
    unfold New lastRunnerFor
    simp only
    rw [mapGet_foldl_mapSet (fun r => strings.ToLower T r.Target)]
    cases (runners.filter (fun r => strings.ToLower T r.Target
        == strings.ToLower T (D.Target d))).getLast? <;> rfl
  rw [h]

/-- C13 (the claim as stated fails): a driver that reports the target ` dockerfile`, with
a leading blank, equals the target of the registered runner up to case and surrounding white
space, and yet `Engine.Run` finds no runner for it and returns at once, with no finding and
the driver untouched, where the same recipe under the target `dockerfile` gives a
finding. -/
theorem spaced_target_finds_no_runner :
    sameString asciiTables (spacedDriver.Target (NewDockerfileDriver (some (nodesOf 1 gccInstrs)) none))
      (dockerfileRunner asciiTables).Target = true ∧
    ((New asciiTables [buildToolsRule] [dockerfileRunner asciiTables]).Run asciiTables
        spacedDriver 4 (NewDockerfileDriver (some (nodesOf 1 gccInstrs)) none)).map
          (fun r => (r.1.i, r.2)) = some (0, [], none) ∧
    ((New asciiTables [buildToolsRule] [dockerfileRunner asciiTables]).Run asciiTables
        (dockerfileDriver asciiTables) 4
        (NewDockerfileDriver (some (nodesOf 1 gccInstrs)) none)).map (fun r => (r.1.i, r.2))
      = some (2, [buildFinding buildToolsRule eofStep], none) := by
  decide

/-- C11, on the driver of `FROM a` / `USER app` and the step `RUN go build .`: the stage is
open with `has_user` set, the step is no stage header, and `has_user` is still set after
the transfer. -/
theorem transfer_flags_witness :
    userSetDriver.dom.hasFinal = true ∧ goBuildStep.isStageHeader = false ∧
    userSetDriver.dom.Final.HasUser = true ∧
    (DockerfileDriver.Transfer asciiTables userSetDriver goBuildStep).1.dom.Final.HasUser
      = true :=
  ⟨rfl, rfl, rfl, ((transfer_flags asciiTables userSetDriver goBuildStep).1 rfl rfl).2.1 rfl⟩

/-! ## The match DSL -/

theorem eval_unfold (T : CaseTables) (R : RegexLib) (n : ExprNode) (ctx : evalContext) :
    n.eval T R ctx = evalBody T R n (evalChildren T R n.Args) (evalChild T R n.Arg)
      (evalChild T R n.Where) (evalChild T R n.Left) (evalChild T R n.Right) ctx := by
  cases n
  rfl

theorem callEval_evalChild (T : CaseTables) (R : RegexLib) (c : Option ExprNode)
    (ctx : evalContext) : callEval (evalChild T R c) ctx = ExprNode.evalPtr T R c ctx := by
  cases c <;> rfl

theorem evalAll_eq (T : CaseTables) (R : RegexLib) (ctx : evalContext) :
    ∀ args : List (Option ExprNode),
      evalAll (evalChildren T R args) ctx = args.all (fun c => ExprNode.evalPtr T R c ctx) := by
  intro args
  induction args with
  | nil => rfl
  | cons c cs ih =>
    rw [evalChildren, evalAll, callEval_evalChild, ih, List.all_cons]
    cases ExprNode.evalPtr T R c ctx <;> rfl

theorem evalAny_eq (T : CaseTables) (R : RegexLib) (ctx : evalContext) :
    ∀ args : List (Option ExprNode),
      evalAny (evalChildren T R args) ctx = args.any (fun c => ExprNode.evalPtr T R c ctx) := by
  intro args
  induction args with
  | nil => rfl
  | cons c cs ih =>
    rw [evalChildren, evalAny, callEval_evalChild, ih, List.any_cons]
    cases ExprNode.evalPtr T R c ctx <;> rfl

theorem eval_all_node (T : CaseTables) (R : RegexLib) (n : ExprNode) (ctx : evalContext)
    (hop : n.Op = "all".data) :
    n.eval T R ctx
      = (!n.Args.isEmpty && n.Args.all (fun c => ExprNode.evalPtr T R c ctx)) := by
  rw [eval_unfold, evalBody, if_pos hop, evalAll_eq]
  cases n.Args <;> simp

theorem eval_any_node (T : CaseTables) (R : RegexLib) (n : ExprNode) (ctx : evalContext)
    (hop : n.Op = "any".data) :
    n.eval T R ctx = n.Args.any (fun c => ExprNode.evalPtr T R c ctx) := by
  have h1 : ¬ n.Op = "all".data := by rw [hop]; decide
  rw [eval_unfold, evalBody, if_neg h1, if_pos hop, evalAny_eq]

theorem eval_not_node (T : CaseTables) (R : RegexLib) (n x : ExprNode) (ctx : evalContext)
    (hop : n.Op = "not".data) (harg : n.Arg = some x) :
    n.eval T R ctx = !x.eval T R ctx := by
  have h1 : ¬ n.Op = "all".data := by rw [hop]; decide
  have h2 : ¬ n.Op = "any".data := by rw [hop]; decide
  rw [eval_unfold, evalBody, if_neg h1, if_neg h2, if_pos hop, harg]
  rfl

/-- C14: for every node and evaluation context, a node of op `all` is true iff it has at
least one child and every child is true, a node of op `any` is true iff some child is
true (a nil child counting as false), and a node of op `not` with an argument is the
negation of the argument; so `all` and `any` over no children are false, and
`not(not(x))` evaluates as `x`. -/
theorem connectives_spec (T : CaseTables) (R : RegexLib) (n x : ExprNode) (ctx : evalContext) :
    (n.Op = "all".data →
      n.eval T R ctx
        = (!n.Args.isEmpty && n.Args.all (fun c => ExprNode.evalPtr T R c ctx))) ∧
    (n.Op = "any".data →
      n.eval T R ctx = n.Args.any (fun c => ExprNode.evalPtr T R c ctx)) ∧
    (n.Op = "not".data → n.Arg = some x → n.eval T R ctx = !x.eval T R ctx) ∧
    (nodeAll []).eval T R ctx = false ∧
    (nodeAny []).eval T R ctx = false ∧
    (nodeNot (nodeNot x)).eval T R ctx = x.eval T R ctx := by
  refine ⟨eval_all_node T R n ctx, eval_any_node T R n ctx, eval_not_node T R n x ctx, ?_, ?_, ?_⟩
  · rw [eval_all_node T R (nodeAll []) ctx rfl]
    rfl
  · rw [eval_any_node T R (nodeAny []) ctx rfl]
    rfl
  · rw [eval_not_node T R (nodeNot (nodeNot x)) (nodeNot x) ctx rfl rfl,
      eval_not_node T R (nodeNot x) x ctx rfl rfl, Bool.not_not]

/-- C14, on `not{all{[]}}`: the node has op `not` and argument `all{[]}`, which is false,
so the node is true. -/
theorem connectives_spec_witness :
    (nodeNot (nodeAll [])).Op = "not".data ∧ (nodeNot (nodeAll [])).Arg = some (nodeAll []) ∧
    (nodeNot (nodeAll [])).eval asciiTables literalRegex {} = true := by
  have h := (connectives_spec asciiTables literalRegex (nodeNot (nodeAll [])) (nodeAll [])
    {}).2.2.1 rfl rfl
  refine ⟨rfl, rfl, ?_⟩
  rw [h]
  decide

theorem argLoop_eq (T : CaseTables) (R : RegexLib) (matcher : Option Matcher) :
    ∀ args : List GoString,
      argLoop T R matcher args = args.any (fun arg => Matcher.Match T R matcher arg) := by
  intro args
  induction args with
  | nil => rfl
  | cons a rest ih =>
    rw [argLoop, ih, List.any_cons]
    cases Matcher.Match T R matcher a <;> rfl

theorem anyLoop_eq (T : CaseTables) (R : RegexLib) (args : List GoString) :
    ∀ matchers : List (Option Matcher),
      anyLoop T R args matchers
        = matchers.any (fun m => args.any (fun arg => Matcher.Match T R m arg)) := by
  intro matchers
  induction matchers with
  | nil => rfl
  | cons m rest ih =>
    rw [anyLoop, argLoop_eq, ih, List.any_cons]
    cases args.any (fun arg => Matcher.Match T R m arg) <;> rfl

theorem allLoop_eq (T : CaseTables) (R : RegexLib) (args : List GoString) :
    ∀ matchers : List (Option Matcher),
      allLoop T R args matchers
        = matchers.all (fun m => args.any (fun arg => Matcher.Match T R m arg)) := by
  intro matchers
  induction matchers with
  | nil => rfl
  | cons m rest ih =>
    rw [allLoop, argLoop_eq, ih, List.all_cons]
    cases args.any (fun arg => Matcher.Match T R m arg) <;> rfl

/-- C15: for every node and call fact, `matchCall` is true iff the name matcher (when
present) matches the call name and, when `args_match` is present, (b) if its `any` list
is non-empty some argument of the call is matched by some matcher of `any`, and (c) every
matcher of its `all` list matches at least one argument; with `args_match` absent the name
check alone decides. -/
theorem matchCall_spec (T : CaseTables) (R : RegexLib) (n : ExprNode) (call : CallFact) :
    (n.matchCall T R call = true ↔
      Matcher.Match T R n.Name call.Name = true ∧
      ∀ ca, n.Call = some ca →
        (ca.Any ≠ [] → ∃ arg ∈ call.Args, ∃ m ∈ ca.Any, Matcher.Match T R m arg = true) ∧
        (∀ m ∈ ca.All, ∃ arg ∈ call.Args, Matcher.Match T R m arg = true)) ∧
    (n.Call = none → n.matchCall T R call = Matcher.Match T R n.Name call.Name) := by
  have hname : (n.Name.isSome && !Matcher.Match T R n.Name call.Name)
      = !Matcher.Match T R n.Name call.Name := by
    cases hn : n.Name with
    | none => simp [Matcher.Match]
    | some m => simp
  constructor
  · unfold ExprNode.matchCall
    rw [hname]
    cases hm : Matcher.Match T R n.Name call.Name
    · simp
    · cases hc : n.Call with
      | none => simp
      | some ca =>
        obtain ⟨A, B⟩ := ca
        simp only [Bool.not_true, Bool.false_eq_true, if_false]
        rw [anyLoop_eq, allLoop_eq]
        have hswap : (A.any (fun m => call.Args.any (fun arg => Matcher.Match T R m arg)))
            = true ↔ ∃ arg ∈ call.Args, ∃ m ∈ A, Matcher.Match T R m arg = true := by
          simp only [List.any_eq_true]
          constructor
          · rintro ⟨m, hm, a, ha, h⟩
            exact ⟨a, ha, m, hm, h⟩
          · rintro ⟨a, ha, m, hm, h⟩
            exact ⟨m, hm, a, ha, h⟩
        have hall : (B.all (fun m => call.Args.any (fun arg => Matcher.Match T R m arg)))
            = true ↔ ∀ m ∈ B, ∃ arg ∈ call.Args, Matcher.Match T R m arg = true := by
          simp only [List.all_eq_true, List.any_eq_true]
        simp only [Option.some.injEq, forall_eq', true_and]
        cases A with
        | nil =>
          simp only [List.length_nil, Nat.lt_irrefl, decide_False, Bool.false_and,
            Bool.false_eq_true, if_false, ne_eq, not_true_eq_false, false_implies, true_and]
          exact hall
        | cons m0 ms =>
          by_cases hs : (List.any (m0 :: ms)
              (fun m => call.Args.any (fun arg => Matcher.Match T R m arg))) = true
          · have hs2 := hswap.mp hs
            simp only [hs, List.length_cons, gt_iff_lt, Nat.zero_lt_succ, decide_True,
              Bool.not_true, Bool.and_false, Bool.false_eq_true, if_false]
            rw [hall]
            constructor
            · intro h
              exact ⟨fun _ => hs2, h⟩
            · intro h
              exact h.2
          · have hs3 : ¬ ∃ arg ∈ call.Args, ∃ m ∈ m0 :: ms, Matcher.Match T R m arg = true :=
              fun h => hs (hswap.mpr h)
            have hs4 : (List.any (m0 :: ms)
                (fun m => call.Args.any (fun arg => Matcher.Match T R m arg))) = false := by
              simpa using hs
            simp only [hs4, List.length_cons, gt_iff_lt, Nat.zero_lt_succ, decide_True,
              Bool.not_false, Bool.and_true, if_true, Bool.false_eq_true, false_iff]
            intro h
            exact hs3 (h.1 (List.cons_ne_nil _ _))
  · intro hc
    unfold ExprNode.matchCall
    rw [hname, hc]
    cases Matcher.Match T R n.Name call.Name <;> rfl

theorem eval_exists_node (T : CaseTables) (R : RegexLib) (n w : ExprNode) (ctx : evalContext)
    (hop : n.Op = "exists".data) (hw : n.Where = some w) :
    n.eval T R ctx
      = if w.Op = "call".data then
          ctx.facts.Calls.any (fun call => w.eval T R { ctx with call := some call })
        else if w.Op = "pipe".data then
          ctx.facts.Pipes.any (fun pipe => w.eval T R { ctx with pipe := some pipe })
        else if w.Op = "mount".data then
          ctx.facts.Mounts.any (fun mount => w.eval T R { ctx with mount := some mount })
        else w.eval T R ctx := by
  have h1 : ¬ n.Op = "all".data := by rw [hop]; decide
  have h2 : ¬ n.Op = "any".data := by rw [hop]; decide
  have h3 : ¬ n.Op = "not".data := by rw [hop]; decide
  rw [eval_unfold, evalBody, if_neg h1, if_neg h2, if_neg h3, if_pos hop, hw]
  rfl

/-- C16: for a node of op `exists` with inner node `w` and every context: when the op of
`w` is `call` (resp. `pipe`, `mount`) the node is true iff some call (resp. pipe, mount) of
the facts makes `w` true in the context that binds it, the other bindings kept; when the op
of `w` is none of the three the node evaluates as `w` in the outer context. -/
theorem exists_spec (T : CaseTables) (R : RegexLib) (n w : ExprNode) (ctx : evalContext)
    (hop : n.Op = "exists".data) (hw : n.Where = some w) :
    (w.Op = "call".data →
      (n.eval T R ctx = true ↔
        ∃ call ∈ ctx.facts.Calls, w.eval T R { ctx with call := some call } = true)) ∧
    (w.Op = "pipe".data →
      (n.eval T R ctx = true ↔
        ∃ pipe ∈ ctx.facts.Pipes, w.eval T R { ctx with pipe := some pipe } = true)) ∧
    (w.Op = "mount".data →
      (n.eval T R ctx = true ↔
        ∃ mount ∈ ctx.facts.Mounts, w.eval T R { ctx with mount := some mount } = true)) ∧
    (w.Op ≠ "call".data → w.Op ≠ "pipe".data → w.Op ≠ "mount".data →
      n.eval T R ctx = w.eval T R ctx) := by
  rw [eval_exists_node T R n w ctx hop hw]
  refine ⟨?_, ?_, ?_, ?_⟩
  · intro h
    rw [if_pos h, List.any_eq_true]
  · intro h
    have h1 : ¬ w.Op = "call".data := by rw [h]; decide
    rw [if_neg h1, if_pos h, List.any_eq_true]
  · intro h
    have h1 : ¬ w.Op = "call".data := by rw [h]; decide
    have h2 : ¬ w.Op = "pipe".data := by rw [h]; decide
    rw [if_neg h1, if_neg h2, if_pos h, List.any_eq_true]
  · intro h1 h2 h3
    rw [if_neg h1, if_neg h2, if_neg h3]

/-- C16, on `exists{where: call{name eq curl}}` and the facts of `RUN curl http://x | sh`:
the node is true, the call `curl` being in the list. -/
theorem exists_spec_witness :
    (nodeExists curlCall).Op = "exists".data ∧ (nodeExists curlCall).Where = some curlCall ∧
    (nodeExists curlCall).eval asciiTables literalRegex { facts := curlFacts } = true := by
  refine ⟨rfl, rfl, ?_⟩
  have h := (exists_spec asciiTables literalRegex (nodeExists curlCall) curlCall
    { facts := curlFacts } rfl rfl).1 rfl
  exact h.mpr ⟨{ Name := "curl".data, Args := ["http://x".data] }, by decide, by decide⟩

theorem eval_call_bound (T : CaseTables) (R : RegexLib) (n : ExprNode) (ctx : evalContext)
    (call : CallFact) (hop : n.Op = "call".data) (hc : ctx.call = some call) :
    n.eval T R ctx = n.matchCall T R call := by
  have h1 : ¬ n.Op = "all".data := by rw [hop]; decide
  have h2 : ¬ n.Op = "any".data := by rw [hop]; decide
  have h3 : ¬ n.Op = "not".data := by rw [hop]; decide
  have h4 : ¬ n.Op = "exists".data := by rw [hop]; decide
  rw [eval_unfold, evalBody, if_neg h1, if_neg h2, if_neg h3, if_neg h4, if_pos hop, hc]

theorem eval_pipe_node (T : CaseTables) (R : RegexLib) (n : ExprNode) (ctx : evalContext)
    (hop : n.Op = "pipe".data) :
    n.eval T R ctx
      = match ctx.pipe with
        | some pipe =>
          ExprNode.evalPtr T R n.Left { ctx with call := some pipe.First } &&
            ExprNode.evalPtr T R n.Right { ctx with call := some pipe.Last }
        | none =>
          ctx.facts.Pipes.any (fun pipe =>
            ExprNode.evalPtr T R n.Left { ctx with call := some pipe.First } &&
              ExprNode.evalPtr T R n.Right { ctx with call := some pipe.Last }) := by
  have h1 : ¬ n.Op = "all".data := by rw [hop]; decide
  have h2 : ¬ n.Op = "any".data := by rw [hop]; decide
  have h3 : ¬ n.Op = "not".data := by rw [hop]; decide
  have h4 : ¬ n.Op = "exists".data := by rw [hop]; decide
  have h5 : ¬ n.Op = "call".data := by rw [hop]; decide
  have hcond : ∀ c1 c2 : evalContext,
      (n.Left.isSome && n.Right.isSome && callEval (evalChild T R n.Left) c1
        && callEval (evalChild T R n.Right) c2)
      = (ExprNode.evalPtr T R n.Left c1 && ExprNode.evalPtr T R n.Right c2) := by
    intro c1 c2
    rw [callEval_evalChild, callEval_evalChild]
    cases hl : n.Left <;> cases hr : n.Right <;> simp [ExprNode.evalPtr]
  rw [eval_unfold, evalBody, if_neg h1, if_neg h2, if_neg h3, if_neg h4, if_neg h5, if_pos hop]
  cases ctx.pipe with
  | none =>
    simp only [hcond]
  | some p =>
    simp only [hcond]

/-- C17: for every node of op `pipe` and every context: when a pipe fact `p` is bound the
node is true iff `left` is true with `p.First` bound as the current call and `right` is
true with `p.Last` bound as the current call (a nil `left` or `right` being false); when no
pipe is bound it is true iff that holds for some pipe fact of the list. Hence, for a case
table that leaves `curl` and `sh` in lower case, the expression
`exists{where: pipe{left: call{name eq curl}, right: call{name in [sh, bash]}}}` is true
in every context whose facts contain a pipe from a call named `curl` to a call named
`sh`, and false in every context whose facts contain no pipe. -/
theorem pipe_spec (T : CaseTables) (R : RegexLib) (n : ExprNode) (ctx : evalContext)
    (hop : n.Op = "pipe".data) :
    (∀ p, ctx.pipe = some p →
      n.eval T R ctx
        = (ExprNode.evalPtr T R n.Left { ctx with call := some p.First } &&
            ExprNode.evalPtr T R n.Right { ctx with call := some p.Last })) ∧
    (ctx.pipe = none →
      (n.eval T R ctx = true ↔
        ∃ p ∈ ctx.facts.Pipes,
          ExprNode.evalPtr T R n.Left { ctx with call := some p.First } = true ∧
          ExprNode.evalPtr T R n.Right { ctx with call := some p.Last } = true)) ∧
    (strings.ToLower T "curl".data = "curl".data → strings.ToLower T "sh".data = "sh".data →
      ∀ p ∈ ctx.facts.Pipes, p.First.Name = "curl".data → p.Last.Name = "sh".data →
        curlPipeExpr.eval T R ctx = true) ∧
    (ctx.facts.Pipes = [] → curlPipeExpr.eval T R ctx = false) := by
  refine ⟨?_, ?_, ?_, ?_⟩
  · intro p hp
    rw [eval_pipe_node T R n ctx hop, hp]
  · intro hp
    rw [eval_pipe_node T R n ctx hop, hp]
    simp only [List.any_eq_true, Bool.and_eq_true]
  · intro hcurl hsh p hp hfirst hlast
    have hop2 : curlPipe.Op = "pipe".data := rfl
    have h1 : ¬ ("pipe".data = "call".data) := by decide
    rw [eval_exists_node T R curlPipeExpr curlPipe ctx rfl rfl, hop2, if_neg h1, if_pos rfl,
      List.any_eq_true]
    refine ⟨p, hp, ?_⟩
    have hl : curlPipe.Left = some curlCall := rfl
    have hr : curlPipe.Right = some shCall := rfl
    rw [eval_pipe_node T R curlPipe _ rfl, hl, hr]
    simp only [ExprNode.evalPtr, Bool.and_eq_true]
    constructor
    · rw [eval_call_bound T R curlCall _ p.First rfl rfl]
      simp [ExprNode.matchCall, curlCall, nodeCall, ExprNode.Name, ExprNode.Call, Matcher.Match,
        hfirst]
      exact hcurl
    · rw [eval_call_bound T R shCall _ p.Last rfl rfl]
      simp [ExprNode.matchCall, shCall, nodeCall, ExprNode.Name, ExprNode.Call, Matcher.Match,
        hlast]
      left
      exact hsh
  · intro hnil
    have hop2 : curlPipe.Op = "pipe".data := rfl
    have h1 : ¬ ("pipe".data = "call".data) := by decide
    rw [eval_exists_node T R curlPipeExpr curlPipe ctx rfl rfl, hop2, if_neg h1, if_pos rfl,
      hnil, List.any_nil]

/-- C17, on the pipe node of the expression above with the pipe of
`RUN curl http://x | sh` bound: the node is true. -/
theorem pipe_spec_witness :
    curlPipe.Op = "pipe".data ∧
    curlPipeExpr.eval asciiTables literalRegex { facts := curlFacts } = true :=
  ⟨rfl, (pipe_spec asciiTables literalRegex curlPipe { facts := curlFacts } rfl).2.2.1 rfl rfl
    { First := { Name := "curl".data, Args := ["http://x".data] }, Last := { Name := "sh".data } }
    (by decide) rfl rfl⟩

/-! ## Mounts -/

theorem hasLoop_eq (options : List (GoString × GoString)) :
    ∀ keys : List GoString,
      hasLoop options keys = keys.all (fun key => (mapGet options key).isSome) := by
  intro keys
  induction keys with
  | nil => rfl
  | cons k rest ih =>
    rw [hasLoop, ih, List.all_cons]
    cases mapGet options k <;> rfl

theorem missingLoop_eq (options : List (GoString × GoString)) :
    ∀ keys : List GoString,
      missingLoop options keys = keys.all (fun key => (mapGet options key).isNone) := by
  intro keys
  induction keys with
  | nil => rfl
  | cons k rest ih =>
    rw [missingLoop, ih, List.all_cons]
    cases mapGet options k <;> rfl

theorem match_present (T : CaseTables) (R : RegexLib) (m : Option Matcher) (input : GoString) :
    (m.isSome && !Matcher.Match T R m input) = !Matcher.Match T R m input := by
  cases m with
  | none => simp [Matcher.Match]
  | some x => simp

/-- C18: for every node and mount spec, `matchMount` is true iff every present predicate
holds: the type of the node, when non-empty, equals the type of the mount up to case; the
`target`, `id` and `sharing` matchers, when present, match the fields of the same name;
every key of `has` is a key of the options of the mount; no key of `missing` is. Hence the
mount parsed from `RUN --mount=type=secret,id=aws cat /run/secrets/aws` is matched by
`mount{type: secret, has: [id]}` and not by `mount{type: secret, missing: [id]}`. -/
theorem matchMount_spec (T : CaseTables) (R : RegexLib) (n : ExprNode) (mount : MountSpec) :
    (n.matchMount T R mount = true ↔
      (n.MountType ≠ [] → strings.EqualFold T n.MountType mount.Type_ = true) ∧
      Matcher.Match T R n.Target mount.Target = true ∧
      Matcher.Match T R n.ID mount.ID = true ∧
      Matcher.Match T R n.Sharing mount.Sharing = true ∧
      (∀ key ∈ n.Has, (mapGet mount.Options key).isSome = true) ∧
      (∀ key ∈ n.Missing, mapGet mount.Options key = none)) ∧
    parseRunMounts asciiTables (some secretRun) (dockerRaw secretRun)
      = [mountSpecOf asciiTables "type=secret,id=aws".data] ∧
    (nodeMount "secret".data ["id".data] []).matchMount asciiTables literalRegex
      (mountSpecOf asciiTables "type=secret,id=aws".data) = true ∧
    (nodeMount "secret".data [] ["id".data]).matchMount asciiTables literalRegex
      (mountSpecOf asciiTables "type=secret,id=aws".data) = false := by
  refine ⟨?_, by decide, by decide, by decide⟩
  unfold ExprNode.matchMount
  rw [match_present, match_present, match_present, hasLoop_eq, missingLoop_eq]
  by_cases ht : n.MountType = []
  · cases h1 : Matcher.Match T R n.Target mount.Target <;>
      cases h2 : Matcher.Match T R n.ID mount.ID <;>
      cases h3 : Matcher.Match T R n.Sharing mount.Sharing <;>
      cases h4 : n.Has.all (fun key => (mapGet mount.Options key).isSome) <;>
      simp_all [List.all_eq_true, Option.isNone_iff_eq_none]
  · cases h0 : strings.EqualFold T n.MountType mount.Type_ <;>
      cases h1 : Matcher.Match T R n.Target mount.Target <;>
      cases h2 : Matcher.Match T R n.ID mount.ID <;>
      cases h3 : Matcher.Match T R n.Sharing mount.Sharing <;>
      cases h4 : n.Has.all (fun key => (mapGet mount.Options key).isSome) <;>
      simp_all [List.all_eq_true, Option.isNone_iff_eq_none]

theorem hasPrefix_append (p s : GoString) : strings.HasPrefix (p ++ s) p = true := by
  induction p with
  | nil => cases s <;> rfl
  | cons c cs ih => simp [strings.HasPrefix, ih]

theorem mem_firstOccurrences (l : List GoString) (y : GoString) :
    y ∈ firstOccurrences l ↔ y ∈ l := by
  induction l with
  | nil => simp [firstOccurrences]
  | cons x xs ih =>
    simp only [firstOccurrences, List.mem_cons, List.mem_filter, ih, decide_eq_true_eq]
    by_cases h : y = x <;> simp [h]

theorem nodup_firstOccurrences (l : List GoString) : (firstOccurrences l).Nodup := by
  induction l with
  | nil => simp [firstOccurrences]
  | cons x xs ih =>
    rw [firstOccurrences, List.nodup_cons]
    exact ⟨by simp [List.mem_filter], ih.filter _⟩

theorem scanMounts_ne_nil : ∀ (s : GoString) (skip : Nat), ∀ m ∈ scanMounts skip s, m ≠ [] := by
  intro s
  induction s with
  | nil => intro skip m hm; simp [scanMounts] at hm
  | cons c rest ih =>
    intro skip m hm
    cases skip with
    | succ k =>
      rw [scanMounts] at hm
      exact ih k m hm
    | zero =>
      rw [scanMounts] at hm
      split at hm
      · simp only at hm
        split at hm
        · exact ih _ m hm
        · rename_i hne
          rcases List.mem_cons.mp hm with h | h
          · rw [h]
            intro h0
            exact hne (by rw [h0]; rfl)
          · exact ih _ m h
      · exact ih _ m hm

theorem flagSpecs_cons (flag : GoString) (rest : List GoString) :
    flagSpecs (flag :: rest)
      = if strings.HasPrefix flag mountFlag ∧ flag.drop mountFlag.length ≠ []
        then flag.drop mountFlag.length :: flagSpecs rest else flagSpecs rest := by
  unfold flagSpecs
  by_cases h1 : strings.HasPrefix flag mountFlag = true
  · by_cases h2 : flag.drop mountFlag.length = [] <;> simp [List.filter_cons, h1, h2]
  · simp [List.filter_cons, h1]

theorem flagSpecs_append (a b : List GoString) :
    flagSpecs (a ++ b) = flagSpecs a ++ flagSpecs b := by
  simp [flagSpecs, List.filter_append]

theorem flagSpecs_scanned (ms : List GoString) (h : ∀ m ∈ ms, m ≠ []) :
    flagSpecs (ms.map (fun m => mountFlag ++ m)) = ms := by
  induction ms with
  | nil => rfl
  | cons m rest ih =>
    have hm : m ≠ [] := h m (List.mem_cons_self _ _)
    have hd : (mountFlag ++ m).drop mountFlag.length = m := List.drop_left _ _
    rw [List.map_cons, flagSpecs_cons, hd, if_pos ⟨hasPrefix_append _ _, hm⟩,
      ih (fun x hx => h x (List.mem_cons_of_mem _ hx))]

theorem mountLoop_eq (T : CaseTables) :
    ∀ (flags seen : List GoString),
      mountLoop T flags seen
        = ((firstOccurrences (flagSpecs flags)).filter (fun spec => spec ∉ seen)).map
            (mountSpecOf T) := by
  intro flags
  induction flags with
  | nil => intro seen; rfl
  | cons flag rest ih =>
    intro seen
    rw [mountLoop, flagSpecs_cons]
    by_cases h1 : strings.HasPrefix flag mountFlag = true
    · have htrim : strings.TrimPrefix flag mountFlag = flag.drop mountFlag.length := by
        simp [strings.TrimPrefix, h1]
      simp only [h1, Bool.not_true, Bool.false_eq_true, if_false, htrim, true_and]
      by_cases h2 : flag.drop mountFlag.length = []
      · simp only [h2, if_true, ne_eq, not_true_eq_false, if_false]
        exact ih seen
      · simp only [h2, if_false, ne_eq, not_false_eq_true, if_true]
        by_cases h3 : flag.drop mountFlag.length ∈ seen
        · simp only [h3, if_true, firstOccurrences, List.filter_cons, not_true_eq_false,
            decide_False, Bool.false_eq_true, if_false, List.filter_filter]
          rw [ih seen]
          congr 1
          apply List.filter_congr
          intro y _
          by_cases hy : y ∈ seen
          · simp [hy]
          · have : y ≠ flag.drop mountFlag.length := fun h => hy (h ▸ h3)
            simp [hy, this]
        · simp only [h3, if_false, firstOccurrences, List.filter_cons, not_false_eq_true,
            decide_True, if_true, List.map_cons, List.filter_filter]
          rw [ih]
          congr 2
          apply List.filter_congr
          intro y _
          by_cases hy : y = flag.drop mountFlag.length <;> simp [hy, h3]
    · simp only [h1, Bool.not_false, if_true, false_and, if_false]
      exact ih seen

theorem parseRunMounts_eq (T : CaseTables) (command : Option Instruction) (raw : GoString) :
    parseRunMounts T command raw
      = (firstOccurrences (attachedSpecs command ++ scanMounts 0 raw)).map (mountSpecOf T) := by
  have hflags : ∀ fl : List GoString,
      mountLoop T (fl ++ (scanMounts 0 raw).map (fun m => mountFlag ++ m)) []
        = (firstOccurrences (flagSpecs fl ++ scanMounts 0 raw)).map (mountSpecOf T) := by
    intro fl
    rw [mountLoop_eq, flagSpecs_append, flagSpecs_scanned _ (scanMounts_ne_nil raw 0)]
    simp
  unfold parseRunMounts attachedSpecs
  cases command with
  | none => exact hflags []
  | some ins => cases ins <;> exact hflags _

/-- C19: for every instruction and raw text, `parseRunMounts` yields one `MountSpec` for
each distinct spec among the non-empty specs of the flags `--mount=<spec>` attached to the
instruction (none with buildkit) followed by the matches of `--mount=([^\s]+)` in the raw
text, in the order of the first occurrences; the raw specs of the result are pairwise
distinct, are exactly the specs that occur, and none is empty. In particular
`RUN --mount=type=cache,target=/root/.cache --mount=type=secret,id=npm cmd` yields two
mounts, of type `cache` and target `/root/.cache`, and of type `secret` and id `npm`. -/
theorem parseRunMounts_spec (T : CaseTables) (command : Option Instruction) (raw : GoString) :
    parseRunMounts T command raw
      = (firstOccurrences (attachedSpecs command ++ scanMounts 0 raw)).map (mountSpecOf T) ∧
    (parseRunMounts T command raw).map (fun m => m.Raw)
      = firstOccurrences (attachedSpecs command ++ scanMounts 0 raw) ∧
    ((parseRunMounts T command raw).map (fun m => m.Raw)).Nodup ∧
    (∀ spec, spec ∈ (parseRunMounts T command raw).map (fun m => m.Raw) ↔
      spec ∈ attachedSpecs command ++ scanMounts 0 raw) ∧
    (∀ m ∈ parseRunMounts T command raw, m.Raw ≠ []) ∧
    attachedSpecs (some cacheRun) = [] ∧
    scanMounts 0 (dockerRaw cacheRun)
      = ["type=cache,target=/root/.cache".data, "type=secret,id=npm".data] ∧
    (parseRunMounts asciiTables (some cacheRun) (dockerRaw cacheRun)).map
        (fun m => (m.Type_, m.Target, m.ID))
      = [("cache".data, "/root/.cache".data, []), ("secret".data, [], "npm".data)] := by
  have hraw : (parseRunMounts T command raw).map (fun m => m.Raw)
      = firstOccurrences (attachedSpecs command ++ scanMounts 0 raw) := by
    rw [parseRunMounts_eq, List.map_map]
    have : ((fun m : MountSpec => m.Raw) ∘ mountSpecOf T) = id := rfl
    rw [this, List.map_id]
  refine ⟨parseRunMounts_eq T command raw, hraw, ?_, ?_, ?_, by decide, by decide, by decide⟩
  · rw [hraw]
    exact nodup_firstOccurrences _
  · intro spec
    rw [hraw, mem_firstOccurrences]
  · intro m hm
    have h1 : m.Raw ∈ (parseRunMounts T command raw).map (fun m => m.Raw) :=
      List.mem_map_of_mem _ hm
    rw [hraw, mem_firstOccurrences, List.mem_append] at h1
    rcases h1 with h | h
    · cases command with
      | none => simp [attachedSpecs] at h
      | some ins =>
        cases ins <;> simp [attachedSpecs, flagSpecs, List.mem_filter] at h
        exact h.2
    · exact scanMounts_ne_nil raw 0 _ h

/-! ## Loaded matchers -/

/-- C20 (the code departs from the claim): for the list of values with the single entry
` sh `, as written in a rule file, the loaded matcher of op `in` matches the input `sh`,
the loader having trimmed and lower-cased the value, whereas the loaded matcher of op `eq`
with the same value does not, the loader having only lower-cased it. In general the loaded
`in` matcher agrees with the disjunction of the loaded `eq` matchers of the trimmed
values. -/
theorem in_trims_eq_does_not :
    loadedMatch asciiTables literalRegex { Op := "in".data, Values := [" sh ".data] } "sh".data
      = some true ∧
    loadedMatch asciiTables literalRegex { Op := "eq".data, Value := " sh ".data } "sh".data
      = some false ∧
    ∀ (T : CaseTables) (R : RegexLib) (vs : List GoString) (input : GoString),
      strings.ToLower T "in".data = "in".data → strings.ToLower T "eq".data = "eq".data →
      loadedMatch T R { Op := "in".data, Values := vs } input
        = some (vs.any (fun v =>
            loadedMatch T R { Op := "eq".data, Value := strings.TrimSpace v } input
              == some true)) := by
  refine ⟨by decide, by decide, ?_⟩
  intro T R vs input hin heq
  have tin : strings.TrimSpace "in".data = "in".data := by decide
  have teq : strings.TrimSpace "eq".data = "eq".data := by decide
  have n1 : ¬ ("in".data = "regex".data) := by decide
  have n2 : ¬ ("eq".data = "regex".data) := by decide
  have n3 : ¬ ("in".data = "eq".data) := by decide
  have n4 : ¬ ("in".data = "contains".data) := by decide
  have hEq : ∀ v : GoString,
      loadedMatch T R { Op := "eq".data, Value := strings.TrimSpace v } input
        = some (strings.ToLower T input == strings.ToLower T (strings.TrimSpace v)) := by
    intro v
    simp only [loadedMatch, Matcher.UnmarshalJSON, teq, heq, if_neg n2, Matcher.Match, if_true]
  have hIn : loadedMatch T R { Op := "in".data, Values := vs } input
      = some ((toLowerSlice T vs).any (fun item => strings.ToLower T input == item)) := by
    simp only [loadedMatch, Matcher.UnmarshalJSON, tin, hin, if_neg n1, Matcher.Match,
      if_neg n3, if_neg n4, if_true]
  rw [hIn]
  congr 1
  simp only [hEq, toLowerSlice, List.any_map]
  congr 1
  funext v
  simp

/-! ## Matchers, constraint rules off `eof`, transfers without a stage, findings -/

/-- C21: for every matcher and input: op `eq` matches iff the lower-cased input equals the
value, `contains` iff the value occurs in the lower-cased input, `in` iff the lower-cased
input is one of the values, so that these three ops answer alike on two inputs with the
same lower-casing; op `regex` applies the compiled expression (compiled on the spot when
the matcher holds none, a pattern that does not compile matching nothing) to the input
unchanged; the nil matcher matches every input; any other op matches no input. -/
theorem matcher_match_spec (T : CaseTables) (R : RegexLib) (m : Matcher)
    (input input2 : GoString) :
    (m.Op = "eq".data →
      Matcher.Match T R (some m) input = (strings.ToLower T input == m.Value)) ∧
    (m.Op = "contains".data →
      Matcher.Match T R (some m) input = strings.Contains (strings.ToLower T input) m.Value) ∧
    (m.Op = "in".data →
      (Matcher.Match T R (some m) input = true ↔ strings.ToLower T input ∈ m.Values)) ∧
    ((m.Op = "eq".data ∨ m.Op = "contains".data ∨ m.Op = "in".data) →
      strings.ToLower T input = strings.ToLower T input2 →
      Matcher.Match T R (some m) input = Matcher.Match T R (some m) input2) ∧
    (m.Op = "regex".data →
      Matcher.Match T R (some m) input
        = match m.compiled with
          | some rgx => rgx.MatchString input
          | none =>
            match R.Compile m.Pattern with
            | none => false
            | some rgx => rgx.MatchString input) ∧
    Matcher.Match T R none input = true ∧
    (m.Op ≠ "eq".data → m.Op ≠ "contains".data → m.Op ≠ "in".data → m.Op ≠ "regex".data →
      Matcher.Match T R (some m) input = false) := by
  have c1 : ¬ ("contains".data = "eq".data) := by decide
  have i1 : ¬ ("in".data = "eq".data) := by decide
  have i2 : ¬ ("in".data = "contains".data) := by decide
  have r1 : ¬ ("regex".data = "eq".data) := by decide
  have r2 : ¬ ("regex".data = "contains".data) := by decide
  have r3 : ¬ ("regex".data = "in".data) := by decide
  refine ⟨?_, ?_, ?_, ?_, ?_, rfl, ?_⟩
  · intro h
    simp only [Matcher.Match, h, if_true]
  · intro h
    simp only [Matcher.Match, h, if_neg c1, if_true]
  · intro h
    simp only [Matcher.Match, h, if_neg i1, if_neg i2, if_true, List.any_eq_true,
      beq_iff_eq]
    constructor
    · rintro ⟨x, hx, rfl⟩
      exact hx
    · intro hx
      exact ⟨_, hx, rfl⟩
  · intro hop hlow
    rcases hop with h | h | h
    · simp only [Matcher.Match, h, if_true, hlow]
    · simp only [Matcher.Match, h, if_neg c1, if_true, hlow]
    · simp only [Matcher.Match, h, if_neg i1, if_neg i2, if_true, hlow]
  · intro h
    simp only [Matcher.Match, h, if_neg r1, if_neg r2, if_neg r3, if_true]
  · intro h1 h2 h3 h4
    simp only [Matcher.Match, if_neg h1, if_neg h2, if_neg h3, if_neg h4]

/-- C26: for every rule with a `DockerfileConstraint` expression, every stage model and
every step whose subject is not `eof`, `DockerfileRunner.Eval` returns no finding. -/
theorem constraint_only_at_eof (T : CaseTables) (dom : Option DockerStageEval)
    (rule : BaseRule) (e : ExpressionDockerfileConstraint) (step : Step)
    (he : rule.Expression = some (.DockerfileConstraint e))
    (hs : step.Subject ≠ "eof".data) :
    DockerfileRunner.Eval T dom rule step = [] :=
  eval_constraint_off_eof T dom rule e step he hs

/-- C26, on the rule `missing_user_final_stage` with subject `user`, a model whose only
stage has no `USER`, and the step `USER app`: no finding, although the check holds. -/
theorem constraint_only_at_eof_witness :
    userStep.Subject ≠ "eof".data ∧
    matchesDockerfileConstraint (some noUserModel) "missing_user_final_stage".data = true ∧
    DockerfileRunner.Eval asciiTables (some noUserModel)
      (constraintRule "user".data "missing_user_final_stage".data) userStep = [] :=
  ⟨by decide, by decide,
    constraint_only_at_eof asciiTables (some noUserModel)
      (constraintRule "user".data "missing_user_final_stage".data)
      { Check := "missing_user_final_stage".data } userStep rfl (by decide)⟩

/-- C28: when no stage is open, `Transfer` of every step that is not a stage header
returns no error and leaves the driver, and with it the whole stage model, unchanged. -/
theorem transfer_without_stage (T : CaseTables) (d : DockerfileDriver) (step : Step)
    (hclosed : d.dom.hasFinal = false) (hns : step.isStageHeader = false) :
    DockerfileDriver.Transfer T d step = (d, none) := by
  have hdom : transferDom T d.dom step = d.dom := by
    unfold transferDom
    split <;> simp_all [Step.isStageHeader]
  unfold DockerfileDriver.Transfer
  rw [hdom]

/-- C28, on the fresh driver of a recipe that begins with `RUN go build .`: the transfer of
that step changes nothing. -/
theorem transfer_without_stage_witness :
    (NewDockerfileDriver (some (nodesOf 1 [runInstr "go build .".data])) none).dom.hasFinal
      = false ∧
    strayRunStep.isStageHeader = false ∧
    (DockerfileDriver.Transfer asciiTables
        (NewDockerfileDriver (some (nodesOf 1 [runInstr "go build .".data])) none)
        strayRunStep).1.dom = {} ∧
    (DockerfileDriver.Transfer asciiTables
        (NewDockerfileDriver (some (nodesOf 1 [runInstr "go build .".data])) none)
        strayRunStep).2 = none := by
  have h := transfer_without_stage asciiTables
    (NewDockerfileDriver (some (nodesOf 1 [runInstr "go build .".data])) none) strayRunStep
    rfl rfl
  rw [h]
  exact ⟨rfl, rfl, rfl, rfl⟩

/-- C30: for every rule, step and stage model, `DockerfileRunner.Eval` returns no finding
or exactly one, the finding built from the rule and the step: its code sample is the raw
text of the step, its location the location of the step, and its id, name, severity,
confidence and description are those of the metadata of the rule, or empty when the rule has
no metadata. -/
theorem eval_at_most_one_finding (T : CaseTables) (dom : Option DockerStageEval)
    (rule : BaseRule) (step : Step) :
    (DockerfileRunner.Eval T dom rule step = [] ∨
      DockerfileRunner.Eval T dom rule step = [buildFinding rule step]) ∧
    (DockerfileRunner.Eval T dom rule step).length ≤ 1 ∧
    (∀ f ∈ DockerfileRunner.Eval T dom rule step,
      f.CodeSample = step.Raw ∧ f.Location = step.Location ∧
      (∀ md, rule.Metadata = some md →
        f.ID = md.ID ∧ f.Name = md.Name ∧ f.Severity = md.Severity ∧
        f.Confidence = md.Confidence ∧ f.Description = md.Description) ∧
      (rule.Metadata = none →
        f.ID = [] ∧ f.Name = [] ∧ f.Severity = [] ∧ f.Confidence = [] ∧
        f.Description = [])) := by
  have hcases : DockerfileRunner.Eval T dom rule step = [] ∨
      DockerfileRunner.Eval T dom rule step = [buildFinding rule step] := by
    unfold DockerfileRunner.Eval
    by_cases h0 : strings.EqualFold T (strings.TrimSpace rule.Subject)
        (strings.TrimSpace step.Subject) = true
    · simp only [h0, Bool.not_true, Bool.false_eq_true, if_false]
      cases rule.Expression with
      | none => exact Or.inl rfl
      | some ex =>
        cases ex with
        | DockerfileConstraint e =>
          simp only [evalDockerfileConstraint]
          by_cases h1 : step.Subject = "eof".data
          · cases dom with
            | none => simp [h1]
            | some st =>
              by_cases h2 : matchesDockerfileConstraint (some st) e.Check = true <;>
                simp [h1, h2]
          · simp [h1]
        | PerStep mc =>
          by_cases h1 : mc step.Subject step.Command step.Raw = true <;> simp [h1]
    · simp [h0]
  have hfind : ∀ f, f = buildFinding rule step →
      f.CodeSample = step.Raw ∧ f.Location = step.Location ∧
      (∀ md, rule.Metadata = some md →
        f.ID = md.ID ∧ f.Name = md.Name ∧ f.Severity = md.Severity ∧
        f.Confidence = md.Confidence ∧ f.Description = md.Description) ∧
      (rule.Metadata = none →
        f.ID = [] ∧ f.Name = [] ∧ f.Severity = [] ∧ f.Confidence = [] ∧
        f.Description = []) := by
    intro f hf
    subst hf
    unfold buildFinding
    cases hm : rule.Metadata with
    | none => simp
    | some md => simp
  refine ⟨hcases, ?_, ?_⟩
  · rcases hcases with h | h <;> rw [h] <;> simp
  · intro f hf
    rcases hcases with h | h
    · rw [h] at hf
      simp at hf
    · rw [h] at hf
      exact hfind f (by simpa using hf)

/-! ## User ids, integer comparison and the regex expression -/

theorem byteDrop_ascii (n : Nat) (s : GoString)
    (h : ∀ c ∈ s.take n, c.toNat < 128) : byteDrop n s = s.drop n := by
  induction s generalizing n with
  | nil => simp [byteDrop]
  | cons c cs ih =>
    cases n with
    | zero => simp [byteDrop]
    | succ k =>
      have hc : utf8.RuneLen c = 1 := by
        have := h c (by simp)
        simp [utf8.RuneLen, this]
      have hk : ∀ c ∈ cs.take k, c.toNat < 128 := by
        intro x hx
        exact h x (by simp [hx])
      simp [byteDrop, hc, ih k hk]

theorem fieldsLoop_open (s cur : GoString) (hcur : cur ≠ []) :
    (strings.fieldsLoop s cur).head?
      = some (cur.reverse ++ s.takeWhile (fun c => !unicode.IsSpace c)) := by
  induction s generalizing cur with
  | nil => simp [strings.fieldsLoop, hcur]
  | cons c cs ih =>
    by_cases hsp : unicode.IsSpace c = true
    · simp [strings.fieldsLoop, hsp, hcur]
    · simp only [Bool.not_eq_true] at hsp
      simp [strings.fieldsLoop, hsp, ih (c :: cur) (by simp)]

/-- First field of a text: `none` when the text is blank. -/
theorem fields_head (s : GoString) :
    (strings.Fields s).head?
      = match s.dropWhile unicode.IsSpace with
        | [] => none
        | token => some (token.takeWhile (fun c => !unicode.IsSpace c)) := by
  unfold strings.Fields
  induction s with
  | nil => simp [strings.fieldsLoop]
  | cons c cs ih =>
    by_cases hsp : unicode.IsSpace c = true
    · simp only [strings.fieldsLoop, hsp, if_true, List.isEmpty_nil, List.dropWhile_cons_of_pos]
      exact ih
    · simp only [Bool.not_eq_true] at hsp
      have h := fieldsLoop_open cs [c] (by simp)
      simp [strings.fieldsLoop, hsp, h, List.dropWhile_cons]

theorem rdrop_cons (p : Char → Bool) (c : Char) (cs : GoString) :
    ((c :: cs).reverse.dropWhile p).reverse
      = if (cs.reverse.dropWhile p).reverse = [] ∧ p c = true then []
        else c :: (cs.reverse.dropWhile p).reverse := by
  rw [List.reverse_cons, List.dropWhile_append]
  by_cases h : (cs.reverse.dropWhile p).isEmpty = true
  · have h2 : cs.reverse.dropWhile p = [] := by simpa using h
    by_cases hp : p c = true <;> simp [h2, hp]
  · have h2 : cs.reverse.dropWhile p ≠ [] := by simpa using h
    simp [h, h2]

theorem takeWhile_rdrop (p : Char → Bool) (s : GoString) :
    ((s.reverse.dropWhile p).reverse).takeWhile (fun c => !p c)
      = s.takeWhile (fun c => !p c) := by
  induction s with
  | nil => simp
  | cons c cs ih =>
    rw [rdrop_cons]
    by_cases hp : p c = true
    · by_cases h : (cs.reverse.dropWhile p).reverse = [] <;> simp [h, hp, List.takeWhile_cons]
    · simp only [Bool.not_eq_true] at hp
      simp [hp, List.takeWhile_cons, ih]

theorem fields_head_trim (s : GoString) :
    (strings.Fields (strings.TrimSpace s)).head? = (strings.Fields s).head? := by
  rw [fields_head, fields_head]
  unfold strings.TrimSpace
  cases hy : s.dropWhile unicode.IsSpace with
  | nil => simp
  | cons c cs =>
    have hc : unicode.IsSpace c = false := by
      have := List.head_dropWhile_not unicode.IsSpace s (by simp [hy])
      simpa [hy] using this
    rw [rdrop_cons]
    simp only [hc, Bool.false_eq_true, and_false, if_false, List.dropWhile_cons, 
      List.takeWhile_cons, Bool.not_false, if_true]
    simp [takeWhile_rdrop]

theorem split_head (part : GoString) :
    (strings.Split ':' part).headD [] = part.takeWhile (fun c => c != ':') := by
  induction part with
  | nil => simp [strings.Split]
  | cons c cs ih =>
    by_cases h : c = ':'
    · simp [strings.Split, h]
    · have hne : (c == ':') = false := by simpa using h
      have hne2 : (c != ':') = true := by simp [h]
      simp only [strings.Split, hne, Bool.false_eq_true, if_false, List.takeWhile_cons, hne2,
        if_true]
      rw [← ih]
      cases strings.Split ':' cs <;> rfl

theorem first_field (s : GoString) (g : GoString → Option Int) :
    (match strings.Fields s with
      | [] => none
      | part :: _ => g part)
      = match s.dropWhile unicode.IsSpace with
        | [] => none
        | token => g (token.takeWhile (fun c => !unicode.IsSpace c)) := by
  have h := fields_head s
  cases hF : strings.Fields s with
  | nil =>
    cases hd : s.dropWhile unicode.IsSpace with
    | nil => rfl
    | cons a b => simp [hF, hd] at h
  | cons part rest =>
    cases hd : s.dropWhile unicode.IsSpace with
    | nil => simp [hF, hd] at h
    | cons a b =>
      simp only [hF, hd, List.head?_cons, Option.some.injEq] at h
      simp only [h]

theorem first_field_trim (s : GoString) (g : GoString → Option Int) :
    (match strings.Fields (strings.TrimSpace s) with
      | [] => none
      | part :: _ => g part)
      = match strings.Fields s with
        | [] => none
        | part :: _ => g part := by
  have h := fields_head_trim s
  cases hF : strings.Fields s with
  | nil =>
    cases hT : strings.Fields (strings.TrimSpace s) with
    | nil => rfl
    | cons a b => simp [hF, hT] at h
  | cons part rest =>
    cases hT : strings.Fields (strings.TrimSpace s) with
    | nil => simp [hF, hT] at h
    | cons a b =>
      simp only [hF, hT, List.head?_cons, Option.some.injEq] at h
      simp only [h]

/-- On a text whose word `USER`, if it has one, is written in ASCII, `extractUserID` is the
reference parse with the principal `root` read up to case folding and the numeral read by
`strconv.Atoi`. -/
theorem extractUserID_userIDSpec (T : CaseTables) (raw : GoString)
    (hascii : strings.HasPrefix (strings.ToUpper T (strings.TrimSpace raw)) "USER ".data = true →
      ∀ c ∈ (strings.TrimSpace raw).take 4, c.toNat < 128) :
    extractUserID T raw
      = userIDSpec T (fun p => strings.EqualFold T p "root".data) strconv.Atoi raw := by
  unfold extractUserID userIDSpec
  by_cases hnil : strings.TrimSpace raw = []
  · simp only [hnil, List.isEmpty_nil, if_true]
    rfl
  · have hne : (strings.TrimSpace raw).isEmpty = false := by simpa using hnil
    simp only [hne, Bool.false_eq_true, if_false]
    by_cases hp : strings.HasPrefix (strings.ToUpper T (strings.TrimSpace raw)) "USER ".data = true
    · simp only [hp, if_true]
      rw [byteDrop_ascii 4 _ (hascii hp), first_field_trim, first_field]
      simp only [split_head]
    · simp only [hp, Bool.false_eq_true, if_false]
      rw [first_field]
      simp only [split_head]

/-- C22 (the claim as stated fails): on the text `USER ROOT` the code answers uid 0, the
principal being equal to `root` up to case folding, whereas the reference parse that takes
the principal `root` literally and reads a base-10 numeral otherwise fails. -/
theorem upper_case_root_is_uid_zero :
    extractUserID asciiTables "USER ROOT".data = some 0 ∧
    userIDSpec asciiTables (fun p => p == "root".data) decimalSpec "USER ROOT".data = none := by
  decide

/-- C22 (amended): for every raw text whose first four runes are ASCII when the trimmed
text, upper-cased, starts with `USER `, `extractUserID` equals the reference parse: of the
trimmed text, drop that leading word, take the first white-space separated field and keep
the part before the first `:`; the result is uid 0 when that principal equals `root` up to
case folding, the integer `strconv.Atoi` reads from it otherwise, and failure when there is
no field or `strconv.Atoi` rejects the principal. A failure makes
`ExpressionUserIDCompare.Match` false for every operator and value. `USER 0` and
`USER root` both give uid 0, so the expression answers alike on both for every operator and
value. -/
theorem extractUserID_spec (T : CaseTables) (raw : GoString)
    (hascii : strings.HasPrefix (strings.ToUpper T (strings.TrimSpace raw)) "USER ".data = true →
      ∀ c ∈ (strings.TrimSpace raw).take 4, c.toNat < 128) :
    extractUserID T raw
      = userIDSpec T (fun p => strings.EqualFold T p "root".data) strconv.Atoi raw ∧
    (extractUserID T raw = none →
      ∀ e : ExpressionUserIDCompare, ExpressionUserIDCompare.Match T e raw = false) ∧
    (∀ uid, extractUserID T raw = some uid →
      ∀ e : ExpressionUserIDCompare,
        ExpressionUserIDCompare.Match T e raw = compareInt uid e.Operator e.Value) ∧
    extractUserID asciiTables "USER 0".data = some 0 ∧
    extractUserID asciiTables "USER root".data = some 0 ∧
    (∀ e : ExpressionUserIDCompare,
      ExpressionUserIDCompare.Match asciiTables e "USER 0".data
        = ExpressionUserIDCompare.Match asciiTables e "USER root".data) := by
  have h0 : extractUserID asciiTables "USER 0".data = some 0 := by decide
  have hr : extractUserID asciiTables "USER root".data = some 0 := by decide
  refine ⟨extractUserID_userIDSpec T raw hascii, ?_, ?_, h0, hr, ?_⟩
  · intro h e
    simp only [ExpressionUserIDCompare.Match, h]
  · intro uid h e
    simp only [ExpressionUserIDCompare.Match, h]
  · intro e
    simp only [ExpressionUserIDCompare.Match, h0, hr]

/-- C22 (amended), on the text ` user 1000:staff `: the word is stripped, the principal is
`1000`, and the uid is 1000. -/
theorem extractUserID_spec_witness :
    extractUserID asciiTables " user 1000:staff ".data = some 1000 ∧
    userIDSpec asciiTables (fun p => strings.EqualFold asciiTables p "root".data) strconv.Atoi
      " user 1000:staff ".data = some 1000 :=
  ⟨by decide,
    (extractUserID_spec asciiTables " user 1000:staff ".data (by decide)).1 ▸ (by decide)⟩

/-- C23 (the claim as stated fails): the operator string ` < `, with a blank on each side,
is none of the listed operators, yet `compareInt` compares with it: the code trims the
operator first. -/
theorem padded_operator_compares :
    " < ".data ∉ ["<".data, "<=".data, ">".data, ">=".data, "=".data, "==".data, "!=".data] ∧
    compareInt 1 " < ".data 2 = true := by
  decide

/-- C23 (amended): for all integers `uid` and `value`, with the operator string trimmed of
white space first, `compareInt uid op value` is `uid < value` for `<`, `uid ≤ value` for
`<=`, `uid > value` for `>`, `uid ≥ value` for `>=`, `uid = value` for `=` and `==`,
`uid ≠ value` for `!=`, and false for every other trimmed operator. Hence the rule with
subject `user`, expression `user_id_compare` and value 1000 yields on the step `USER 1000`
no finding with operator `<` and exactly one finding with operator `<=`. -/
theorem compareInt_spec (uid value : Int) (op : GoString) :
    (strings.TrimSpace op = "<".data → compareInt uid op value = decide (uid < value)) ∧
    (strings.TrimSpace op = "<=".data → compareInt uid op value = decide (uid ≤ value)) ∧
    (strings.TrimSpace op = ">".data → compareInt uid op value = decide (uid > value)) ∧
    (strings.TrimSpace op = ">=".data → compareInt uid op value = decide (uid ≥ value)) ∧
    (strings.TrimSpace op = "=".data ∨ strings.TrimSpace op = "==".data →
      compareInt uid op value = decide (uid = value)) ∧
    (strings.TrimSpace op = "!=".data → compareInt uid op value = decide (uid ≠ value)) ∧
    (strings.TrimSpace op ∉
        ["<".data, "<=".data, ">".data, ">=".data, "=".data, "==".data, "!=".data] →
      compareInt uid op value = false) ∧
    (∀ dom, DockerfileRunner.Eval asciiTables dom (userIDRule asciiTables "<".data 1000)
      user1000Step = []) ∧
    (∀ dom, DockerfileRunner.Eval asciiTables dom (userIDRule asciiTables "<=".data 1000)
      user1000Step = [buildFinding (userIDRule asciiTables "<=".data 1000) user1000Step]) := by
  refine ⟨?_, ?_, ?_, ?_, ?_, ?_, ?_, ?_, ?_⟩
  · intro h
    simp only [compareInt, h]
    rfl
  · intro h
    simp only [compareInt, h]
    rfl
  · intro h
    simp only [compareInt, h]
    rfl
  · intro h
    simp only [compareInt, h]
    rfl
  · intro h
    rcases h with h | h <;> (simp only [compareInt, h]; rfl)
  · intro h
    simp only [compareInt, h]
    rfl
  · intro h
    simp only [List.mem_cons, List.mem_singleton, not_or, List.mem_nil_iff, or_false] at h
    obtain ⟨h1, h2, h3, h4, h5, h6, h7⟩ := h
    simp only [compareInt, if_neg h1, if_neg h2, if_neg h3, if_neg h4, if_neg h7,
      h5, h6, or_self, if_false]
  · intro dom
    rfl
  · intro dom
    rfl

/-- C24 (the code departs from the claim): a pattern counts as matching only when its
leftmost match is a non-empty text. The empty pattern has a match in `abc`, and the
matcher of op `regex` with that pattern matches `abc`, yet `ExpressionRegex.Match` on the
pattern list with that one pattern is false in mode any and in mode all. In general, with
`cs` the compiled patterns, `ExpressionRegex.Match` is true in mode all iff `cs` is
non-empty and `FindString` returns a non-empty text for every member of `cs`, and in any
other mode iff `FindString` returns a non-empty text for some member of `cs`. -/
theorem regex_empty_match_not_counted :
    (∃ rgx, literalRegex.Compile "".data = some rgx ∧ rgx.MatchString "abc".data = true) ∧
    Matcher.Match asciiTables literalRegex (some { Op := "regex".data, Pattern := "".data })
      "abc".data = true ∧
    ExpressionRegex.Match literalRegex { Type_ := AnyMatch, Expressions := ["".data] }
      "abc".data = false ∧
    ExpressionRegex.Match literalRegex { Type_ := AllMatch, Expressions := ["".data] }
      "abc".data = false ∧
    ∀ (R : RegexLib) (r : ExpressionRegex) (input : GoString),
      (r.Type_ = AllMatch →
        (ExpressionRegex.Match R r input = true ↔
          (r.ensureCompiled R).compiled ≠ [] ∧
          ∀ rgx ∈ (r.ensureCompiled R).compiled, rgx.FindString input ≠ [])) ∧
      (r.Type_ ≠ AllMatch →
        (ExpressionRegex.Match R r input = true ↔
          ∃ rgx ∈ (r.ensureCompiled R).compiled, rgx.FindString input ≠ [])) := by
  refine ⟨⟨_, rfl, by decide⟩, by decide, by decide, by decide, ?_⟩
  intro R r input
  have h01 : ¬ (AllMatch = AnyMatch) := by decide
  constructor
  · intro hall
    have hty : (r.ensureCompiled R).Type_ = AllMatch := by
      unfold ExpressionRegex.ensureCompiled
      split <;> simp [hall]
    simp only [ExpressionRegex.Match, hty, if_neg h01, if_true, ExpressionRegex.runAllMatch]
    by_cases hany : (r.ensureCompiled R).compiled.any
        (fun expression => expression.FindString input == []) = true
    · simp only [hany, if_true, Bool.false_eq_true, false_iff, not_and]
      intro _ hallne
      simp only [List.any_eq_true, beq_iff_eq] at hany
      obtain ⟨x, hx, hx0⟩ := hany
      exact hallne x hx hx0
    · simp only [hany, Bool.false_eq_true, if_false, decide_eq_true_eq]
      simp only [List.any_eq_true, beq_iff_eq, not_exists, not_and] at hany
      constructor
      · intro hlen
        exact ⟨List.ne_nil_of_length_pos hlen, hany⟩
      · intro h2
        exact List.length_pos.mpr h2.1
  · intro hnall
    have hty : (r.ensureCompiled R).Type_ = r.Type_ := by
      unfold ExpressionRegex.ensureCompiled
      split <;> simp
    have hrun : ExpressionRegex.Match R r input
        = (r.ensureCompiled R).runAnyMatch input := by
      simp only [ExpressionRegex.Match, hty, if_neg hnall]
      split <;> rfl
    rw [hrun]
    simp only [ExpressionRegex.runAnyMatch, List.any_eq_true, bne_iff_ne, ne_eq]

/-! ## The dsl expression and the run facts -/

theorem buildRunFacts_mounts (T : CaseTables) (P : ShellParser) (command : Option Instruction)
    (raw : GoString) :
    (buildRunFacts T P command raw).Mounts = parseRunMounts T command raw := by
  unfold buildRunFacts
  simp only []
  split <;> rfl

/-- C27: for every rule with a dsl expression, every step and every stage model: if the
select of the expression, trimmed and lower-cased, is neither `run.script` nor
`run.mounts`, or the subject of the step, trimmed, is not `run` up to case folding, then
`ExpressionDSL.MatchCommand` is false on the step and the rule produces no finding on it,
whatever the node of the expression, the parsed instruction and the raw text. -/
theorem dsl_select_and_subject (T : CaseTables) (R : RegexLib) (P : ShellParser)
    (e : ExpressionDSL) (dom : Option DockerStageEval) (rule : BaseRule) (step : Step)
    (hrule : rule.Expression = some (.PerStep (ExpressionDSL.MatchCommand T R P e)))
    (h : (strings.ToLower T (strings.TrimSpace e.Select) ≠ "run.script".data ∧
          strings.ToLower T (strings.TrimSpace e.Select) ≠ "run.mounts".data) ∨
      strings.EqualFold T (strings.TrimSpace step.Subject) "run".data = false) :
    ExpressionDSL.MatchCommand T R P e step.Subject step.Command step.Raw = false ∧
    DockerfileRunner.Eval T dom rule step = [] := by
  have hm : ExpressionDSL.MatchCommand T R P e step.Subject step.Command step.Raw = false := by
    unfold ExpressionDSL.MatchCommand
    rcases h with ⟨h1, h2⟩ | h
    · by_cases hs : strings.EqualFold T (strings.TrimSpace step.Subject) "run".data = true
      · simp only [hs, Bool.not_true, Bool.false_eq_true, if_false]
        cases e.Expr with
        | none => rfl
        | some expr => simp only [h1, h2, or_self, if_false]
      · simp [hs]
    · simp [h]
  refine ⟨hm, ?_⟩
  unfold DockerfileRunner.Eval
  rw [hrule]
  simp only [hm]
  split <;> rfl

/-- C27, on the rule with subject `run` whose expression looks for `curl` piped into `sh`,
and the step `RUN curl http://x | sh`: with select `run.script` the expression matches the
step, with select `run.files` it does not and the rule produces no finding. -/
theorem dsl_select_and_subject_witness :
    ExpressionDSL.MatchCommand asciiTables literalRegex sampleParser
      { Select := "run.script".data, Expr := some curlPipe }
      curlStep.Subject curlStep.Command curlStep.Raw = true ∧
    ExpressionDSL.MatchCommand asciiTables literalRegex sampleParser
      { Select := "run.files".data, Expr := some curlPipe }
      curlStep.Subject curlStep.Command curlStep.Raw = false ∧
    DockerfileRunner.Eval asciiTables none
      (dslRule asciiTables literalRegex sampleParser "run".data
        { Select := "run.files".data, Expr := some curlPipe }) curlStep = [] :=
  ⟨by decide,
    dsl_select_and_subject asciiTables literalRegex sampleParser
      { Select := "run.files".data, Expr := some curlPipe } none
      (dslRule asciiTables literalRegex sampleParser "run".data
        { Select := "run.files".data, Expr := some curlPipe }) curlStep rfl
      (Or.inl (by decide))⟩

/-- C29: when the shell parser rejects the script of a `RUN` instruction, `buildRunFacts`
returns no calls and no pipes, and its mounts are those `parseRunMounts` extracts from the
instruction and the raw text; the mounts are the same whatever the parser answers. -/
theorem run_facts_on_parse_error (T : CaseTables) (P : ShellParser)
    (command : Option Instruction) (raw : GoString)
    (hrej : P.Parse (extractRunScript T command raw) = none) :
    (buildRunFacts T P command raw).Calls = [] ∧
    (buildRunFacts T P command raw).Pipes = [] ∧
    (buildRunFacts T P command raw).Mounts = parseRunMounts T command raw ∧
    ∀ P2 : ShellParser,
      (buildRunFacts T P2 command raw).Mounts = (buildRunFacts T P command raw).Mounts := by
  refine ⟨?_, ?_, buildRunFacts_mounts T P command raw, ?_⟩
  · unfold buildRunFacts
    simp only [collectScriptFacts, hrej]
    split <;> rfl
  · unfold buildRunFacts
    simp only [collectScriptFacts, hrej]
    split <;> rfl
  · intro P2
    rw [buildRunFacts_mounts, buildRunFacts_mounts]

/-- C29, on the text `RUN --mount=type=secret,id=aws echo 'oops`, whose script the parser
rejects: no calls, no pipes, and the one mount of the text. -/
theorem run_facts_on_parse_error_witness :
    sampleParser.Parse
      (extractRunScript asciiTables none "RUN --mount=type=secret,id=aws echo 'oops".data)
      = none ∧
    (buildRunFacts asciiTables sampleParser none
      "RUN --mount=type=secret,id=aws echo 'oops".data).Calls = [] ∧
    (buildRunFacts asciiTables sampleParser none
      "RUN --mount=type=secret,id=aws echo 'oops".data).Pipes = [] ∧
    (buildRunFacts asciiTables sampleParser none
      "RUN --mount=type=secret,id=aws echo 'oops".data).Mounts.map MountSpec.Raw
      = ["type=secret,id=aws".data] :=
  ⟨rfl,
    (run_facts_on_parse_error asciiTables sampleParser none
      "RUN --mount=type=secret,id=aws echo 'oops".data rfl).1,
    by decide, by decide⟩

/-! ## Loading a serialized rule -/

theorem dropWhile_fixed (p : Char → Bool) (s : GoString) :
    (s.dropWhile p).dropWhile p = s.dropWhile p := by
  induction s with
  | nil => rfl
  | cons c cs ih =>
    by_cases h : p c = true
    · simp [List.dropWhile_cons, h, ih]
    · simp [List.dropWhile_cons, h]

theorem trimSpace_map (T : CaseTables)
    (hsp : ∀ c, unicode.IsSpace (T.lower c) = unicode.IsSpace c) (s : GoString) :
    strings.TrimSpace (s.map T.lower) = (strings.TrimSpace s).map T.lower := by
  have hcomp : (unicode.IsSpace ∘ T.lower) = unicode.IsSpace := by
    funext c
    exact hsp c
  unfold strings.TrimSpace
  rw [List.dropWhile_map, hcomp, ← List.map_reverse, List.dropWhile_map, hcomp,
    List.map_reverse]

theorem trimSpace_idem (s : GoString) :
    strings.TrimSpace (strings.TrimSpace s) = strings.TrimSpace s := by
  unfold strings.TrimSpace
  cases hy : s.dropWhile unicode.IsSpace with
  | nil => rfl
  | cons c cs =>
    have hc : unicode.IsSpace c = false := by
      have := List.head_dropWhile_not unicode.IsSpace s (by simp [hy])
      simpa [hy] using this
    have h1 : ((c :: cs).reverse.dropWhile unicode.IsSpace).reverse
        = c :: (cs.reverse.dropWhile unicode.IsSpace).reverse := by
      rw [rdrop_cons]
      simp [hc]
    rw [h1]
    have h2 : (c :: (cs.reverse.dropWhile unicode.IsSpace).reverse).dropWhile unicode.IsSpace
        = c :: (cs.reverse.dropWhile unicode.IsSpace).reverse := by
      simp [List.dropWhile_cons, hc]
    rw [h2, rdrop_cons]
    simp [hc, dropWhile_fixed]

theorem norm_idem (T : CaseTables) (hlow : ∀ c, T.lower (T.lower c) = T.lower c)
    (hsp : ∀ c, unicode.IsSpace (T.lower c) = unicode.IsSpace c) (s : GoString) :
    strings.ToLower T (strings.TrimSpace (strings.ToLower T (strings.TrimSpace s)))
      = strings.ToLower T (strings.TrimSpace s) := by
  unfold strings.ToLower
  rw [trimSpace_map T hsp, trimSpace_idem, List.map_map]
  congr 1
  funext c
  exact hlow c

theorem lower_idem (T : CaseTables) (hlow : ∀ c, T.lower (T.lower c) = T.lower c)
    (s : GoString) : strings.ToLower T (strings.ToLower T s) = strings.ToLower T s := by
  unfold strings.ToLower
  rw [List.map_map]
  congr 1
  funext c
  exact hlow c

theorem toLowerSlice_idem (T : CaseTables) (hlow : ∀ c, T.lower (T.lower c) = T.lower c)
    (hsp : ∀ c, unicode.IsSpace (T.lower c) = unicode.IsSpace c) (xs : List GoString) :
    toLowerSlice T (toLowerSlice T xs) = toLowerSlice T xs := by
  unfold toLowerSlice
  rw [List.map_map]
  congr 1
  funext x
  exact norm_idem T hlow hsp x

theorem matcher_reload (T : CaseTables) (R : RegexLib)
    (hlow : ∀ c, T.lower (T.lower c) = T.lower c)
    (hsp : ∀ c, unicode.IsSpace (T.lower c) = unicode.IsSpace c)
    (aux : MatcherJSON) (m : Matcher) (h : Matcher.UnmarshalJSON T R {} aux = .ok m) :
    Matcher.UnmarshalJSON T R {} (marshalMatcher m) = .ok m := by
  unfold Matcher.UnmarshalJSON at h
  simp only [] at h
  by_cases hop : strings.ToLower T (strings.TrimSpace aux.Op) = "regex".data
  · rw [if_pos hop] at h
    cases hc : R.Compile aux.Pattern with
    | none => simp [hc] at h
    | some rgx =>
      simp only [hc, Except.ok.injEq] at h
      subst h
      have hN : strings.ToLower T (strings.TrimSpace "regex".data) = "regex".data := by
        rw [← hop]
        exact norm_idem T hlow hsp aux.Op
      simp only [Matcher.UnmarshalJSON, marshalMatcher, hop, hN, if_true, hc,
        lower_idem T hlow, toLowerSlice_idem T hlow hsp]
  · rw [if_neg hop] at h
    simp only [Except.ok.injEq] at h
    subst h
    simp only [Matcher.UnmarshalJSON, marshalMatcher, norm_idem T hlow hsp, if_neg hop,
      lower_idem T hlow, toLowerSlice_idem T hlow hsp]

theorem decodeMatcher_reload (T : CaseTables) (R : RegexLib)
    (hlow : ∀ c, T.lower (T.lower c) = T.lower c)
    (hsp : ∀ c, unicode.IsSpace (T.lower c) = unicode.IsSpace c)
    (aux : Option MatcherJSON) (m : Option Matcher) (h : decodeMatcher T R aux = some m) :
    decodeMatcher T R (m.map marshalMatcher) = some m := by
  cases aux with
  | none =>
    simp only [decodeMatcher, Option.some.injEq] at h
    subst h
    rfl
  | some a =>
    cases hm : Matcher.UnmarshalJSON T R {} a with
    | error e => simp [decodeMatcher, hm] at h
    | ok m0 =>
      simp only [decodeMatcher, hm, Option.some.injEq] at h
      subst h
      simp only [Option.map, decodeMatcher, matcher_reload T R hlow hsp a m0 hm]
theorem unmarshal_unfold (T : CaseTables) (R : RegexLib) (Op : GoString) (ArgsKind : RawKind)
    (ArgsItems : List NodeJSON) (ArgsCall : CallArgsJSON) (Arg Where Left Right : Option NodeJSON)
    (Name : Option MatcherJSON) (Call : Option CallArgsJSON) (MountType : GoString)
    (Target : Option MatcherJSON) (Has Missing : List GoString)
    (ID Sharing : Option MatcherJSON) :
    ExprNode.UnmarshalJSON T R (.node Op ArgsKind ArgsItems ArgsCall Arg Where Left Right Name
      Call MountType Target Has Missing ID Sharing)
      = match decodeMatcher T R Name, decodeCallArgsPtr T R Call, decodeMatcher T R Target,
          decodeMatcher T R ID, decodeMatcher T R Sharing with
        | some name, some call, some target, some id, some sharing =>
          unmarshalBody T R Op ArgsKind ArgsCall Arg Where Left Right name call MountType
            target Has Missing id sharing (unmarshalNodes T R ArgsItems)
            (unmarshalRaw T R Arg) (unmarshalRaw T R Where) (unmarshalRaw T R Left)
            (unmarshalRaw T R Right)
        | _, _, _, _, _ => none := by
  rw [ExprNode.UnmarshalJSON]

theorem unmarshalNodes_cons (T : CaseTables) (R : RegexLib) (raw : NodeJSON)
    (rest : List NodeJSON) :
    unmarshalNodes T R (raw :: rest)
      = match ExprNode.UnmarshalJSON T R raw, unmarshalNodes T R rest with
        | some child, some children => some (child :: children)
        | _, _ => none := by
  rw [unmarshalNodes]

theorem unmarshalRaw_some (T : CaseTables) (R : RegexLib) (raw : NodeJSON) :
    unmarshalRaw T R (some raw) = ExprNode.UnmarshalJSON T R raw := by
  rw [unmarshalRaw]

theorem plain_unfold (Op : GoString) (Args : List (Option ExprNode))
    (Arg Where Left Right : Option ExprNode) (Name : Option Matcher) (Call : Option CallArgs)
    (MountType : GoString) (Target : Option Matcher) (Has Missing : List GoString)
    (ID Sharing : Option Matcher) :
    (ExprNode.mk Op Args Arg Where Left Right Name Call MountType Target Has Missing ID
        Sharing).plain
      = (Call.isNone && (!(Op == "all".data || Op == "any".data) || !Args.isEmpty)
          && plainChildren Args && plainChild Arg && plainChild Where && plainChild Left
          && plainChild Right) := by
  rw [ExprNode.plain]

theorem marshalNode_unfold (Op : GoString) (Args : List (Option ExprNode))
    (Arg Where Left Right : Option ExprNode) (Name : Option Matcher) (Call : Option CallArgs)
    (MountType : GoString) (Target : Option Matcher) (Has Missing : List GoString)
    (ID Sharing : Option Matcher) :
    marshalNode (.mk Op Args Arg Where Left Right Name Call MountType Target Has Missing ID
        Sharing)
      = .node Op (if Args.isEmpty then .absent else .array) (marshalChildren Args) {}
          (marshalChild Arg) (marshalChild Where) (marshalChild Left) (marshalChild Right)
          (Name.map marshalMatcher) none MountType (Target.map marshalMatcher) Has Missing
          (ID.map marshalMatcher) (Sharing.map marshalMatcher) := by
  rw [marshalNode]
theorem lower_literal (T : CaseTables) (hlow : ∀ c, T.lower (T.lower c) = T.lower c)
    (s lit : GoString) (h : strings.ToLower T s = lit) : strings.ToLower T lit = lit := by
  rw [← h]
  exact lower_idem T hlow s

theorem marshalChildren_some (nodes : List ExprNode) :
    marshalChildren (nodes.map some) = nodes.map marshalNode := by
  induction nodes with
  | nil => rw [List.map_nil, marshalChildren, List.map_nil]
  | cons a rest ih => rw [List.map_cons, marshalChildren, ih, List.map_cons]

theorem body_all_any (T : CaseTables) (R : RegexLib) (Op : GoString) (ArgsCall : CallArgsJSON)
    (Arg Where Left Right : Option NodeJSON) (name : Option Matcher) (call : Option CallArgs)
    (MountType : GoString) (target : Option Matcher) (Has Missing : List GoString)
    (id sharing : Option Matcher) (nodes : List ExprNode) (arg wh left right : Option ExprNode)
    (hop : strings.ToLower T (strings.TrimSpace Op) = "all".data ∨
      strings.ToLower T (strings.TrimSpace Op) = "any".data) :
    unmarshalBody T R Op .array ArgsCall Arg Where Left Right name call MountType target Has
      Missing id sharing (some nodes) arg wh left right
      = some (.mk (strings.ToLower T (strings.TrimSpace Op)) (nodes.map some) none none none
          none name call (strings.ToLower T (strings.TrimSpace MountType)) target
          (toLowerSlice T Has) (toLowerSlice T Missing) id sharing) := by
  unfold unmarshalBody
  simp only []
  rw [if_pos hop]

theorem body_not (T : CaseTables) (R : RegexLib) (Op : GoString) (ArgsKind : RawKind)
    (ArgsCall : CallArgsJSON) (raw : NodeJSON)
    (Where Left Right : Option NodeJSON) (name : Option Matcher) (call : Option CallArgs)
    (MountType : GoString) (target : Option Matcher) (Has Missing : List GoString)
    (id sharing : Option Matcher) (children : Option (List ExprNode)) (child : ExprNode)
    (wh left right : Option ExprNode)
    (hop : strings.ToLower T (strings.TrimSpace Op) = "not".data) :
    unmarshalBody T R Op ArgsKind ArgsCall (some raw) Where Left Right name call MountType
      target Has Missing id sharing children (some child) wh left right
      = some (.mk (strings.ToLower T (strings.TrimSpace Op)) [] (some child) none none none
          name call (strings.ToLower T (strings.TrimSpace MountType)) target
          (toLowerSlice T Has) (toLowerSlice T Missing) id sharing) := by
  unfold unmarshalBody
  simp [hop]

theorem body_exists (T : CaseTables) (R : RegexLib) (Op : GoString) (ArgsKind : RawKind)
    (ArgsCall : CallArgsJSON) (raw : NodeJSON)
    (Arg Left Right : Option NodeJSON) (name : Option Matcher) (call : Option CallArgs)
    (MountType : GoString) (target : Option Matcher) (Has Missing : List GoString)
    (id sharing : Option Matcher) (children : Option (List ExprNode)) (child : ExprNode)
    (arg left right : Option ExprNode)
    (hop : strings.ToLower T (strings.TrimSpace Op) = "exists".data) :
    unmarshalBody T R Op ArgsKind ArgsCall Arg (some raw) Left Right name call MountType
      target Has Missing id sharing children arg (some child) left right
      = some (.mk (strings.ToLower T (strings.TrimSpace Op)) [] none (some child) none none
          name call (strings.ToLower T (strings.TrimSpace MountType)) target
          (toLowerSlice T Has) (toLowerSlice T Missing) id sharing) := by
  unfold unmarshalBody
  simp [hop]

theorem body_pipe (T : CaseTables) (R : RegexLib) (Op : GoString) (ArgsKind : RawKind)
    (ArgsCall : CallArgsJSON) (rawL rawR : NodeJSON)
    (Arg Where : Option NodeJSON) (name : Option Matcher) (call : Option CallArgs)
    (MountType : GoString) (target : Option Matcher) (Has Missing : List GoString)
    (id sharing : Option Matcher) (children : Option (List ExprNode)) (l r : ExprNode)
    (arg wh : Option ExprNode)
    (hop : strings.ToLower T (strings.TrimSpace Op) = "pipe".data) :
    unmarshalBody T R Op ArgsKind ArgsCall Arg Where (some rawL) (some rawR) name call
      MountType target Has Missing id sharing children arg wh (some l) (some r)
      = some (.mk (strings.ToLower T (strings.TrimSpace Op)) [] none none (some l) (some r)
          name call (strings.ToLower T (strings.TrimSpace MountType)) target
          (toLowerSlice T Has) (toLowerSlice T Missing) id sharing) := by
  unfold unmarshalBody
  simp [hop]

theorem body_call (T : CaseTables) (R : RegexLib) (Op : GoString)
    (ArgsCall : CallArgsJSON) (Arg Where Left Right : Option NodeJSON)
    (name : Option Matcher) (call : Option CallArgs)
    (MountType : GoString) (target : Option Matcher) (Has Missing : List GoString)
    (id sharing : Option Matcher) (children : Option (List ExprNode))
    (arg wh left right : Option ExprNode)
    (hop : strings.ToLower T (strings.TrimSpace Op) = "call".data) :
    unmarshalBody T R Op .absent ArgsCall Arg Where Left Right name call
      MountType target Has Missing id sharing children arg wh left right
      = some (.mk (strings.ToLower T (strings.TrimSpace Op)) [] none none none none
          name call (strings.ToLower T (strings.TrimSpace MountType)) target
          (toLowerSlice T Has) (toLowerSlice T Missing) id sharing) := by
  unfold unmarshalBody
  simp [hop]

theorem body_mount (T : CaseTables) (R : RegexLib) (Op : GoString) (ArgsKind : RawKind)
    (ArgsCall : CallArgsJSON) (Arg Where Left Right : Option NodeJSON)
    (name : Option Matcher) (call : Option CallArgs)
    (MountType : GoString) (target : Option Matcher) (Has Missing : List GoString)
    (id sharing : Option Matcher) (children : Option (List ExprNode))
    (arg wh left right : Option ExprNode)
    (hop : strings.ToLower T (strings.TrimSpace Op) = "mount".data) :
    unmarshalBody T R Op ArgsKind ArgsCall Arg Where Left Right name call
      MountType target Has Missing id sharing children arg wh left right
      = some (.mk (strings.ToLower T (strings.TrimSpace Op)) [] none none none none
          name call (strings.ToLower T (strings.TrimSpace MountType)) target
          (toLowerSlice T Has) (toLowerSlice T Missing) id sharing) := by
  unfold unmarshalBody
  simp [hop]
theorem plain_parts (Op : GoString) (Args : List (Option ExprNode))
    (Arg Where Left Right : Option ExprNode) (Name : Option Matcher) (Call : Option CallArgs)
    (MountType : GoString) (Target : Option Matcher) (Has Missing : List GoString)
    (ID Sharing : Option Matcher)
    (hp : (ExprNode.mk Op Args Arg Where Left Right Name Call MountType Target Has Missing ID
        Sharing).plain = true) :
    Call = none ∧ ((Op = "all".data ∨ Op = "any".data) → Args.isEmpty = false) ∧
      plainChildren Args = true ∧ plainChild Arg = true ∧ plainChild Where = true ∧
      plainChild Left = true ∧ plainChild Right = true := by
  rw [plain_unfold] at hp
  simp only [Bool.and_eq_true, Option.isNone_iff_eq_none, Bool.or_eq_true, Bool.not_eq_true',
    beq_iff_eq, Bool.not_eq_true, Bool.or_eq_false_iff] at hp
  obtain ⟨⟨⟨⟨⟨⟨hcall, hne⟩, hch⟩, ha⟩, hw⟩, hl⟩, hr⟩ := hp
  refine ⟨hcall, ?_, hch, ha, hw, hl, hr⟩
  intro hop
  rcases hne with hne | hne
  · rcases hop with h | h
    · exact absurd h (by simpa using hne.1)
    · exact absurd h (by simpa using hne.2)
  · simpa using hne

theorem marshalChild_some (child : ExprNode) :
    marshalChild (some child) = some (marshalNode child) := by
  rw [marshalChild]

set_option maxHeartbeats 1600000 in
theorem body_reload (T : CaseTables) (R : RegexLib)
    (hlow : ∀ c, T.lower (T.lower c) = T.lower c)
    (hsp : ∀ c, unicode.IsSpace (T.lower c) = unicode.IsSpace c)
    (Op : GoString) (ArgsKind : RawKind) (ArgsCall : CallArgsJSON)
    (Arg Where Left Right : Option NodeJSON) (name : Option Matcher) (call : Option CallArgs)
    (MountType : GoString) (target : Option Matcher) (Has Missing : List GoString)
    (id sharing : Option Matcher) (children : Option (List ExprNode))
    (arg wh left right : Option ExprNode) (n : ExprNode)
    (h : unmarshalBody T R Op ArgsKind ArgsCall Arg Where Left Right name call MountType
      target Has Missing id sharing children arg wh left right = some n)
    (hp : n.plain = true)
    (ihC : ∀ nodes, children = some nodes → plainChildren (nodes.map some) = true →
      unmarshalNodes T R (marshalChildren (nodes.map some)) = some nodes)
    (ihA : ∀ c, arg = some c → c.plain = true →
      ExprNode.UnmarshalJSON T R (marshalNode c) = some c)
    (ihW : ∀ c, wh = some c → c.plain = true →
      ExprNode.UnmarshalJSON T R (marshalNode c) = some c)
    (ihL : ∀ c, left = some c → c.plain = true →
      ExprNode.UnmarshalJSON T R (marshalNode c) = some c)
    (ihR : ∀ c, right = some c → c.plain = true →
      ExprNode.UnmarshalJSON T R (marshalNode c) = some c)
    (hname : decodeMatcher T R (name.map marshalMatcher) = some name)
    (htarget : decodeMatcher T R (target.map marshalMatcher) = some target)
    (hid : decodeMatcher T R (id.map marshalMatcher) = some id)
    (hsharing : decodeMatcher T R (sharing.map marshalMatcher) = some sharing) :
    ExprNode.UnmarshalJSON T R (marshalNode n) = some n := by
  have hmt := norm_idem T hlow hsp MountType
  have hhas := toLowerSlice_idem T hlow hsp Has
  have hmis := toLowerSlice_idem T hlow hsp Missing
  have hop2 := norm_idem T hlow hsp Op
  have hptr : decodeCallArgsPtr T R none = some none := rfl
  have hnil : ([] : List (Option ExprNode)).isEmpty = true := rfl
  have hraw : ∀ c : ExprNode, c.plain = true →
      ExprNode.UnmarshalJSON T R (marshalNode c) = some c →
      unmarshalRaw T R (marshalChild (some c)) = some c := by
    intro c _ hc
    rw [marshalChild, unmarshalRaw_some, hc]
  unfold unmarshalBody at h
  simp only [] at h
  by_cases hAA : strings.ToLower T (strings.TrimSpace Op) = "all".data ∨
      strings.ToLower T (strings.TrimSpace Op) = "any".data
  · rw [if_pos hAA] at h
    cases ArgsKind with
    | null =>
      simp only [Option.some.injEq] at h
      subst h
      have hne := (plain_parts _ _ _ _ _ _ _ _ _ _ _ _ _ _ hp).2.1 hAA
      simp at hne
    | array =>
      cases children with
      | none => simp at h
      | some nodes =>
        simp only [Option.some.injEq] at h
        subst h
        obtain ⟨hcall, hne, hch, _, _, _, _⟩ := plain_parts _ _ _ _ _ _ _ _ _ _ _ _ _ _ hp
        subst hcall
        rw [marshalNode_unfold, unmarshal_unfold, hname, htarget, hid, hsharing, hptr]
        simp only []
        rw [if_neg (by rw [hne hAA]; exact Bool.false_ne_true), ihC nodes rfl hch,
          body_all_any T R _ _ _ _ _ _ _ _ _ _ _ _ _ _ _ _ _ _ _ (by rw [hop2]; exact hAA),
          hop2, hmt, hhas, hmis]
    | absent => simp at h
    | object => simp at h
    | other => simp at h
  · rw [if_neg hAA] at h
    by_cases hNot : strings.ToLower T (strings.TrimSpace Op) = "not".data
    · rw [if_pos hNot] at h
      cases Arg with
      | none => simp at h
      | some raw =>
        cases arg with
        | none => simp at h
        | some child =>
          simp only [Option.isNone_some, Bool.false_eq_true, if_false, Option.some.injEq] at h
          subst h
          obtain ⟨hcall, _, _, ha, _, _, _⟩ := plain_parts _ _ _ _ _ _ _ _ _ _ _ _ _ _ hp
          subst hcall
          rw [plainChild] at ha
          rw [marshalNode_unfold, unmarshal_unfold, hname, htarget, hid, hsharing, hptr]
          simp only []
          rw [if_pos hnil, hraw child ha (ihA child rfl ha), marshalChild_some,
            body_not T R _ _ _ _ _ _ _ _ _ _ _ _ _ _ _ _ _ _ _ _ (by rw [hop2]; exact hNot),
            hop2, hmt, hhas, hmis]
    · rw [if_neg hNot] at h
      by_cases hEx : strings.ToLower T (strings.TrimSpace Op) = "exists".data
      · rw [if_pos hEx] at h
        cases Where with
        | none => simp at h
        | some raw =>
          cases wh with
          | none => simp at h
          | some child =>
            simp only [Option.isNone_some, Bool.false_eq_true, if_false,
              Option.some.injEq] at h
            subst h
            obtain ⟨hcall, _, _, _, hw, _, _⟩ := plain_parts _ _ _ _ _ _ _ _ _ _ _ _ _ _ hp
            subst hcall
            rw [plainChild] at hw
            rw [marshalNode_unfold, unmarshal_unfold, hname, htarget, hid, hsharing, hptr]
            simp only []
            rw [if_pos hnil, hraw child hw (ihW child rfl hw), marshalChild_some,
              body_exists T R _ _ _ _ _ _ _ _ _ _ _ _ _ _ _ _ _ _ _ _
                (by rw [hop2]; exact hEx),
              hop2, hmt, hhas, hmis]
      · rw [if_neg hEx] at h
        by_cases hPipe : strings.ToLower T (strings.TrimSpace Op) = "pipe".data
        · rw [if_pos hPipe] at h
          cases Left with
          | none => simp at h
          | some rawL =>
            cases Right with
            | none => simp at h
            | some rawR =>
              cases left with
              | none => simp at h
              | some l =>
                cases right with
                | none => simp at h
                | some r =>
                  simp only [Option.isNone_some, Bool.false_eq_true, or_self, if_false,
                    Option.some.injEq] at h
                  subst h
                  obtain ⟨hcall, _, _, _, _, hl, hr⟩ :=
                    plain_parts _ _ _ _ _ _ _ _ _ _ _ _ _ _ hp
                  subst hcall
                  rw [plainChild] at hl hr
                  rw [marshalNode_unfold, unmarshal_unfold, hname, htarget, hid, hsharing,
                    hptr]
                  simp only []
                  rw [if_pos hnil, hraw l hl (ihL l rfl hl), hraw r hr (ihR r rfl hr),
                    marshalChild_some, marshalChild_some,
                    body_pipe T R _ _ _ _ _ _ _ _ _ _ _ _ _ _ _ _ _ _ _ _
                      (by rw [hop2]; exact hPipe),
                    hop2, hmt, hhas, hmis]
        · rw [if_neg hPipe] at h
          by_cases hCall : strings.ToLower T (strings.TrimSpace Op) = "call".data
          · rw [if_pos hCall] at h
            have hshape : ∃ c, n = .mk (strings.ToLower T (strings.TrimSpace Op)) [] none none
                none none name c (strings.ToLower T (strings.TrimSpace MountType)) target
                (toLowerSlice T Has) (toLowerSlice T Missing) id sharing := by
              cases ArgsKind with
              | absent => exact ⟨call, by simpa using h.symm⟩
              | null => exact ⟨some {}, by simpa using h.symm⟩
              | object =>
                cases hd : decodeCallArgs T R ArgsCall with
                | none => simp [hd] at h
                | some ca => exact ⟨some ca, by simpa [hd] using h.symm⟩
              | array => simp at h
              | other => simp at h
            obtain ⟨c, hn⟩ := hshape
            subst hn
            obtain ⟨hcall, _, _, _, _, _, _⟩ := plain_parts _ _ _ _ _ _ _ _ _ _ _ _ _ _ hp
            subst hcall
            rw [marshalNode_unfold, unmarshal_unfold, hname, htarget, hid, hsharing, hptr]
            simp only []
            rw [if_pos hnil,
              body_call T R _ _ _ _ _ _ _ _ _ _ _ _ _ _ _ _ _ _ _
                (by rw [hop2]; exact hCall),
              hop2, hmt, hhas, hmis]
          · rw [if_neg hCall] at h
            by_cases hMount : strings.ToLower T (strings.TrimSpace Op) = "mount".data
            · rw [if_pos hMount] at h
              simp only [Option.some.injEq] at h
              subst h
              obtain ⟨hcall, _, _, _, _, _, _⟩ := plain_parts _ _ _ _ _ _ _ _ _ _ _ _ _ _ hp
              subst hcall
              rw [marshalNode_unfold, unmarshal_unfold, hname, htarget, hid, hsharing, hptr]
              simp only []
              rw [body_mount T R _ _ _ _ _ _ _ _ _ _ _ _ _ _ _ _ _ _ _ _
                  (by rw [hop2]; exact hMount),
                hop2, hmt, hhas, hmis]
            · rw [if_neg hMount] at h
              simp at h
mutual
theorem node_reload (T : CaseTables) (R : RegexLib)
    (hlow : ∀ c, T.lower (T.lower c) = T.lower c)
    (hsp : ∀ c, unicode.IsSpace (T.lower c) = unicode.IsSpace c) :
    ∀ (raw : NodeJSON) (n : ExprNode), ExprNode.UnmarshalJSON T R raw = some n →
      n.plain = true → ExprNode.UnmarshalJSON T R (marshalNode n) = some n
  | .invalid, n, h, _ => by
    rw [ExprNode.UnmarshalJSON] at h
    cases h
  | .node Op ArgsKind ArgsItems ArgsCall Arg Where Left Right Name Call MountType Target Has
      Missing ID Sharing, n, h, hp => by
    rw [unmarshal_unfold] at h
    cases hName : decodeMatcher T R Name with
    | none => simp [hName] at h
    | some name =>
      cases hCall : decodeCallArgsPtr T R Call with
      | none => simp [hName, hCall] at h
      | some call =>
        cases hTarget : decodeMatcher T R Target with
        | none => simp [hName, hCall, hTarget] at h
        | some target =>
          cases hID : decodeMatcher T R ID with
          | none => simp [hName, hCall, hTarget, hID] at h
          | some id =>
            cases hSharing : decodeMatcher T R Sharing with
            | none => simp [hName, hCall, hTarget, hID, hSharing] at h
            | some sharing =>
              simp only [hName, hCall, hTarget, hID, hSharing] at h
              exact body_reload T R hlow hsp Op ArgsKind ArgsCall Arg Where Left Right name call
                MountType target Has Missing id sharing _ _ _ _ _ n h hp
                (fun nodes hc hpl => nodes_reload T R hlow hsp ArgsItems nodes hc hpl)
                (fun c hc hpl => raw_reload T R hlow hsp Arg c hc hpl)
                (fun c hc hpl => raw_reload T R hlow hsp Where c hc hpl)
                (fun c hc hpl => raw_reload T R hlow hsp Left c hc hpl)
                (fun c hc hpl => raw_reload T R hlow hsp Right c hc hpl)
                (decodeMatcher_reload T R hlow hsp Name name hName)
                (decodeMatcher_reload T R hlow hsp Target target hTarget)
                (decodeMatcher_reload T R hlow hsp ID id hID)
                (decodeMatcher_reload T R hlow hsp Sharing sharing hSharing)
theorem nodes_reload (T : CaseTables) (R : RegexLib)
    (hlow : ∀ c, T.lower (T.lower c) = T.lower c)
    (hsp : ∀ c, unicode.IsSpace (T.lower c) = unicode.IsSpace c) :
    ∀ (raws : List NodeJSON) (nodes : List ExprNode), unmarshalNodes T R raws = some nodes →
      plainChildren (nodes.map some) = true →
      unmarshalNodes T R (marshalChildren (nodes.map some)) = some nodes
  | [], nodes, h, _ => by
    rw [unmarshalNodes] at h
    cases h
    rfl
  | raw :: rest, nodes, h, hp => by
    rw [unmarshalNodes_cons] at h
    cases h1 : ExprNode.UnmarshalJSON T R raw with
    | none => simp [h1] at h
    | some child =>
      cases h2 : unmarshalNodes T R rest with
      | none => simp [h1, h2] at h
      | some children =>
        simp only [h1, h2, Option.some.injEq] at h
        subst h
        rw [List.map_cons, plainChildren, plainChild, Bool.and_eq_true] at hp
        rw [List.map_cons, marshalChildren, unmarshalNodes_cons,
          node_reload T R hlow hsp raw child h1 hp.1,
          nodes_reload T R hlow hsp rest children h2 hp.2]
theorem raw_reload (T : CaseTables) (R : RegexLib)
    (hlow : ∀ c, T.lower (T.lower c) = T.lower c)
    (hsp : ∀ c, unicode.IsSpace (T.lower c) = unicode.IsSpace c) :
    ∀ (raw : Option NodeJSON) (c : ExprNode), unmarshalRaw T R raw = some c →
      c.plain = true → ExprNode.UnmarshalJSON T R (marshalNode c) = some c
  | none, c, h, _ => by
    rw [unmarshalRaw] at h
    cases h
  | some raw, c, h, hp => by
    rw [unmarshalRaw_some] at h
    exact node_reload T R hlow hsp raw c h hp
end
theorem ascii_lower_idem (c : Char) :
    asciiTables.lower (asciiTables.lower c) = asciiTables.lower c := by
  show Char.toLower (Char.toLower c) = Char.toLower c
  by_cases h : c.toNat ≥ 65 ∧ c.toNat ≤ 90
  · have hc : c = Char.ofNat c.toNat := (Char.ofNat_toNat c).symm
    obtain ⟨h1, h2⟩ := h
    generalize c.toNat = n at hc h1 h2
    subst hc
    interval_cases n <;> rfl
  · have h1 : Char.toLower c = c := by
      unfold Char.toLower
      simp only [h, if_false]
    rw [h1, h1]

theorem ascii_lower_space (c : Char) :
    unicode.IsSpace (asciiTables.lower c) = unicode.IsSpace c := by
  show unicode.IsSpace (Char.toLower c) = unicode.IsSpace c
  by_cases h : c.toNat ≥ 65 ∧ c.toNat ≤ 90
  · have hc : c = Char.ofNat c.toNat := (Char.ofNat_toNat c).symm
    obtain ⟨h1, h2⟩ := h
    generalize c.toNat = n at hc h1 h2
    subst hc
    interval_cases n <;> rfl
  · have h1 : Char.toLower c = c := by
      unfold Char.toLower
      simp only [h, if_false]
    rw [h1]

theorem compileAll_same (T : CaseTables) (R : RegexLib) (aux : ExprJSON)
    (e : ExpressionRegex) (h : ExpressionRegex.UnmarshalJSON T R aux = some e) :
    e.ExprKind = "regex".data ∧ e.KindAlias = aux.KindAlias ∧ e.Type_ = aux.Type_ ∧
      e.Expressions = aux.Expressions ∧ compileAll R aux.Expressions = some e.compiled := by
  unfold ExpressionRegex.UnmarshalJSON at h
  simp only [] at h
  cases hc : compileAll R aux.Expressions with
  | none =>
    rw [hc] at h
    split_ifs at h
  | some cs =>
    rw [hc] at h
    split_ifs at h
    all_goals
      simp only [Option.some.injEq] at h
      subst h
      exact ⟨rfl, rfl, rfl, rfl, rfl⟩

theorem expression_reload (T : CaseTables) (R : RegexLib)
    (hlow : ∀ c, T.lower (T.lower c) = T.lower c)
    (hsp : ∀ c, unicode.IsSpace (T.lower c) = unicode.IsSpace c)
    (raw : Option ExprJSON) (expr : Option LoadedExpression)
    (h : UnmarshalExpression T R raw = some expr)
    (hp : ∀ e n, expr = some (.DSL e) → e.Expr = some n → n.plain = true) :
    UnmarshalExpression T R (marshalExpressionPtr expr) = some expr := by
  have hempty : UnmarshalExpression T R (some {}) = some none := by
    have h0 : strings.ToLower T [] = [] := rfl
    simp only [UnmarshalExpression, List.isEmpty_nil, if_true, h0]
    rfl
  cases raw with
  | none =>
    simp only [UnmarshalExpression, Option.some.injEq] at h
    subst h
    exact hempty
  | some probe =>
    simp only [UnmarshalExpression] at h
    by_cases hR : strings.ToLower T (if probe.ExprKind.isEmpty then probe.KindAlias
        else probe.ExprKind) = "regex".data
    · rw [if_pos hR] at h
      cases hE : ExpressionRegex.UnmarshalJSON T R probe with
      | none => simp [hE] at h
      | some e =>
        simp only [hE, Option.some.injEq] at h
        subst h
        obtain ⟨hk, ha, ht, hx, hc⟩ := compileAll_same T R probe e hE
        have hL := lower_literal T hlow _ _ hR
        have hne : ("regex".data).isEmpty = false := rfl
        have hreload : ExpressionRegex.UnmarshalJSON T R
            { ExprKind := "regex".data, KindAlias := e.KindAlias, Type_ := e.Type_
              Expressions := e.Expressions } = some e := by
          unfold ExpressionRegex.UnmarshalJSON
          simp only [hne, Bool.false_eq_true, if_false, hL, ne_eq, not_true_eq_false, hx, hc]
          cases e
          simp_all
        simp only [marshalExpressionPtr, marshalExpression, UnmarshalExpression, hk, hne, Bool.false_eq_true,
          if_false, hL, if_true, hreload]
    · rw [if_neg hR] at h
      by_cases hU : strings.ToLower T (if probe.ExprKind.isEmpty then probe.KindAlias
          else probe.ExprKind) = "user_id_compare".data
      · rw [if_pos hU] at h
        simp only [Option.some.injEq] at h
        subst h
        simp only [marshalExpressionPtr, marshalExpression, UnmarshalExpression, if_neg hR,
          if_pos hU]
      · rw [if_neg hU] at h
        by_cases hC : strings.ToLower T (if probe.ExprKind.isEmpty then probe.KindAlias
            else probe.ExprKind) = "dockerfile_constraint".data
        · rw [if_pos hC] at h
          simp only [Option.some.injEq] at h
          subst h
          simp only [marshalExpressionPtr, marshalExpression, UnmarshalExpression, if_neg hR,
            if_neg hU, if_pos hC]
        · rw [if_neg hC] at h
          by_cases hD : strings.ToLower T (if probe.ExprKind.isEmpty then probe.KindAlias
              else probe.ExprKind) = "dsl".data
          · rw [if_pos hD] at h
            cases hX : decodeExpr T R probe.Expr with
            | none => simp [hX] at h
            | some x =>
              simp only [hX, Option.some.injEq] at h
              subst h
              have hx2 : decodeExpr T R (x.map marshalNode) = some x := by
                cases x with
                | none => rfl
                | some n =>
                  have hpn := hp _ n rfl rfl
                  cases hpe : probe.Expr with
                  | none => simp [decodeExpr, hpe] at hX
                  | some rawn =>
                    rw [hpe] at hX
                    cases hU2 : ExprNode.UnmarshalJSON T R rawn with
                    | none => simp [decodeExpr, hU2] at hX
                    | some n2 =>
                      simp only [decodeExpr, hU2, Option.some.injEq] at hX
                      subst hX
                      simp only [Option.map, decodeExpr,
                        node_reload T R hlow hsp rawn n2 hU2 hpn]
              simp only [marshalExpressionPtr, marshalExpression, UnmarshalExpression,
                if_neg hR, if_neg hU, if_neg hC, if_pos hD, hx2]
          · rw [if_neg hD] at h
            by_cases hN : strings.ToLower T (if probe.ExprKind.isEmpty then probe.KindAlias
                else probe.ExprKind) = []
            · rw [if_pos hN] at h
              simp only [Option.some.injEq] at h
              subst h
              exact hempty
            · rw [if_neg hN] at h
              cases h
/-- C25 (the claim as stated fails): the rule whose dsl expression is the call node with
name `curl` and `args_match.any` holding the matcher of the flag `-k` loads, and its node
does not match the script `curl http://x`; the text serialized from the loaded rule loads
again, but the node of the rule so obtained has no args matchers left, the field `Call`
being tagged `-`, and matches that script. The rule whose dsl expression is the node `all`
with the empty args list loads, and the text serialized from it does not load: an empty
`args`, tagged `omitempty`, is not written, and the loader requires the array. -/
theorem serialized_rule_loses_args :
    evalOnCurl (BaseRule.UnmarshalJSON asciiTables literalRegex (dslRuleJSON curlInsecureJSON))
      = some false ∧
    evalOnCurl (loadTwice asciiTables literalRegex (dslRuleJSON curlInsecureJSON))
      = some true ∧
    (BaseRule.UnmarshalJSON asciiTables literalRegex (dslRuleJSON emptyAllJSON)).isSome
      = true ∧
    (loadTwice asciiTables literalRegex (dslRuleJSON emptyAllJSON)).isSome = false := by
  refine ⟨by decide, by decide, by decide, by decide⟩

/-- C25 (amended): for case tables whose lower-casing is idempotent and neither makes nor
removes white space, and for every rule obtained from the loader in which no node of the
dsl expression carries args matchers and every node of op `all` or `any` has at least one
child: serializing the rule by the struct field tags and loading the result succeeds and
yields the same rule, with the same target, phase, subject, metadata, expression variant
and operands. -/
theorem load_serialized_rule (T : CaseTables) (R : RegexLib)
    (hlow : ∀ c, T.lower (T.lower c) = T.lower c)
    (hsp : ∀ c, unicode.IsSpace (T.lower c) = unicode.IsSpace c)
    (aux : baseRuleAlias) (rule : LoadedRule)
    (hload : BaseRule.UnmarshalJSON T R aux = some rule) (hplain : rule.plain = true) :
    BaseRule.UnmarshalJSON T R (marshalRule rule) = some rule := by
  unfold BaseRule.UnmarshalJSON at hload
  cases hE : UnmarshalExpression T R aux.Expression with
  | none => simp [hE] at hload
  | some expr =>
    simp only [hE, Option.some.injEq] at hload
    subst hload
    have hp : ∀ e n, expr = some (.DSL e) → e.Expr = some n → n.plain = true := by
      intro e n he hn
      subst he
      simp only [LoadedRule.plain, LoadedRule.node, hn, plainChild] at hplain
      exact hplain
    have hr := expression_reload T R hlow hsp aux.Expression expr hE hp
    unfold BaseRule.UnmarshalJSON marshalRule
    simp only [hr]

/-- C25 (amended), on the rule whose dsl expression is the pipe of `curl` into `sh` or
`bash`, written with upper-case letters and blanks in the rule file: the rule loads, the
loader normalizing the operands, and the text serialized from the loaded rule loads to the
same rule. -/
theorem load_serialized_rule_witness :
    BaseRule.UnmarshalJSON asciiTables literalRegex (dslRuleJSON curlPipeJSON)
      = some curlPipeRule ∧
    curlPipeRule.plain = true ∧
    BaseRule.UnmarshalJSON asciiTables literalRegex (marshalRule curlPipeRule)
      = some curlPipeRule :=
  ⟨rfl, rfl,
    load_serialized_rule asciiTables literalRegex ascii_lower_idem ascii_lower_space
      (dslRuleJSON curlPipeJSON) curlPipeRule rfl rfl⟩

/-! ## The kind tag of an expression -/

theorem unmarshalExpression_kind (T : CaseTables) (R : RegexLib) (probe : ExprJSON) :
    UnmarshalExpression T R (some probe)
      = if kindTag T probe = "regex".data then
          match ExpressionRegex.UnmarshalJSON T R probe with
          | none => none
          | some expr => some (some (.Regex expr))
        else if kindTag T probe = "user_id_compare".data then
          some (some (.UserIDCompare
            { ExprKind := probe.ExprKind, KindAlias := probe.KindAlias
              Operator := probe.Operator, Value := probe.Value }))
        else if kindTag T probe = "dockerfile_constraint".data then
          some (some (.DockerfileConstraint
            { ExprKind := probe.ExprKind, KindAlias := probe.KindAlias, Check := probe.Check }))
        else if kindTag T probe = "dsl".data then
          match decodeExpr T R probe.Expr with
          | none => none
          | some expr =>
            some (some (.DSL
              { ExprKind := probe.ExprKind, KindAlias := probe.KindAlias
                Select := probe.Select, Expr := expr }))
        else if kindTag T probe = [] then some none
        else none := by
  have hk : strings.ToLower T (if probe.ExprKind.isEmpty then probe.KindAlias
      else probe.ExprKind) = kindTag T probe := by
    unfold kindTag
    cases probe.ExprKind <;> rfl
  unfold UnmarshalExpression
  simp only [hk]

theorem eval_no_expression (T : CaseTables) (dom : Option DockerStageEval) (rule : BaseRule)
    (step : Step) (h : rule.Expression = none) : DockerfileRunner.Eval T dom rule step = [] := by
  unfold DockerfileRunner.Eval
  rw [h]
  split <;> rfl

/-- C31: loading an expression dispatches on its kind tag, the value of `expr_kind`, or of
`kind` when `expr_kind` is empty, lower-cased. A tag that is non-empty and none of
`regex`, `user_id_compare`, `dockerfile_constraint`, `dsl` makes `UnmarshalExpression`, and
with it the load of the rule, fail. An empty tag, like an absent expression, yields no
expression and no error. A tag among the four yields, when the load succeeds, an
expression of that variant, and the tags `user_id_compare` and `dockerfile_constraint`
always load. A rule with no expression is inert: `DockerfileRunner.Eval` returns no
finding for it on every step and stage model, and so it does for the rule loaded from an
empty tag. So the kind `shell` fails to load, and `expr_kind` `User_ID_Compare` loads as a
user id comparison whatever `kind` says. -/
theorem expression_kind_dispatch (T : CaseTables) (R : RegexLib) (P : ShellParser)
    (aux : baseRuleAlias) (probe : ExprJSON) :
    (kindTag T probe ≠ [] → kindTag T probe ∉ knownKinds →
      UnmarshalExpression T R (some probe) = none ∧
      (aux.Expression = some probe → BaseRule.UnmarshalJSON T R aux = none)) ∧
    (kindTag T probe = [] ↔
      (if probe.ExprKind = [] then probe.KindAlias else probe.ExprKind) = []) ∧
    (kindTag T probe = [] → UnmarshalExpression T R (some probe) = some none) ∧
    UnmarshalExpression T R none = some none ∧
    (kindTag T probe = "regex".data → ∀ expr,
      UnmarshalExpression T R (some probe) = some expr → ∃ e, expr = some (.Regex e)) ∧
    (kindTag T probe = "user_id_compare".data →
      ∃ e, UnmarshalExpression T R (some probe) = some (some (.UserIDCompare e))) ∧
    (kindTag T probe = "dockerfile_constraint".data →
      ∃ e, UnmarshalExpression T R (some probe) = some (some (.DockerfileConstraint e))) ∧
    (kindTag T probe = "dsl".data → ∀ expr,
      UnmarshalExpression T R (some probe) = some expr → ∃ e, expr = some (.DSL e)) ∧
    (∀ (dom : Option DockerStageEval) (rule : BaseRule) (step : Step),
      rule.Expression = none → DockerfileRunner.Eval T dom rule step = []) ∧
    ((aux.Expression = none ∨ (aux.Expression = some probe ∧ kindTag T probe = [])) →
      ∃ rule, BaseRule.UnmarshalJSON T R aux = some rule ∧ rule.Expression = none ∧
        ∀ (dom : Option DockerStageEval) (step : Step),
          DockerfileRunner.Eval T dom (rule.toBaseRule T R P) step = []) ∧
    (UnmarshalExpression asciiTables literalRegex (some { KindAlias := "shell".data })).isNone
      = true ∧
    UnmarshalExpression asciiTables literalRegex
        (some { ExprKind := "User_ID_Compare".data, KindAlias := "regex".data
                Operator := "<".data, Value := 1000 })
      = some (some (.UserIDCompare
          { ExprKind := "User_ID_Compare".data, KindAlias := "regex".data
            Operator := "<".data, Value := 1000 })) := by
  have n1 : ¬ ("user_id_compare".data = "regex".data) := by decide
  have n2 : ¬ ("dockerfile_constraint".data = "regex".data) := by decide
  have n3 : ¬ ("dockerfile_constraint".data = "user_id_compare".data) := by decide
  have n4 : ¬ ("dsl".data = "regex".data) := by decide
  have n5 : ¬ ("dsl".data = "user_id_compare".data) := by decide
  have n6 : ¬ ("dsl".data = "dockerfile_constraint".data) := by decide
  have e1 : ¬ (([] : GoString) = "regex".data) := by decide
  have e2 : ¬ (([] : GoString) = "user_id_compare".data) := by decide
  have e3 : ¬ (([] : GoString) = "dockerfile_constraint".data) := by decide
  have e4 : ¬ (([] : GoString) = "dsl".data) := by decide
  have hempty : kindTag T probe = [] → UnmarshalExpression T R (some probe) = some none := by
    intro h
    rw [unmarshalExpression_kind, h, if_neg e1, if_neg e2, if_neg e3, if_neg e4, if_pos rfl]
  refine ⟨?_, ?_, hempty, rfl, ?_, ?_, ?_, ?_, ?_, ?_, by decide, rfl⟩
  · intro hne hnot
    simp only [knownKinds, List.mem_cons, List.mem_singleton, not_or, List.mem_nil_iff,
      or_false] at hnot
    obtain ⟨h1, h2, h3, h4⟩ := hnot
    have hu : UnmarshalExpression T R (some probe) = none := by
      rw [unmarshalExpression_kind, if_neg h1, if_neg h2, if_neg h3, if_neg h4, if_neg hne]
    refine ⟨hu, ?_⟩
    intro ha
    unfold BaseRule.UnmarshalJSON
    rw [ha, hu]
  · unfold kindTag strings.ToLower
    exact List.map_eq_nil_iff
  · intro h expr hx
    rw [unmarshalExpression_kind, if_pos h] at hx
    cases hr : ExpressionRegex.UnmarshalJSON T R probe with
    | none => simp [hr] at hx
    | some e =>
      simp only [hr, Option.some.injEq] at hx
      exact ⟨e, hx.symm⟩
  · intro h
    rw [unmarshalExpression_kind, h, if_neg n1, if_pos rfl]
    exact ⟨_, rfl⟩
  · intro h
    rw [unmarshalExpression_kind, h, if_neg n2, if_neg n3, if_pos rfl]
    exact ⟨_, rfl⟩
  · intro h expr hx
    rw [unmarshalExpression_kind, h, if_neg n4, if_neg n5, if_neg n6, if_pos rfl] at hx
    cases hr : decodeExpr T R probe.Expr with
    | none => simp [hr] at hx
    | some e =>
      simp only [hr, Option.some.injEq] at hx
      exact ⟨_, hx.symm⟩
  · intro dom rule step h
    exact eval_no_expression T dom rule step h
  · intro h
    have hu : UnmarshalExpression T R aux.Expression = some none := by
      rcases h with h | ⟨h, hk⟩
      · rw [h]
        rfl
      · rw [h]
        exact hempty hk
    refine ⟨{ Target := aux.Target, Phase := aux.Phase, Subject := aux.Subject
              Expression := none, Metadata := aux.Metadata }, ?_, rfl, ?_⟩
    · unfold BaseRule.UnmarshalJSON
      rw [hu]
    · intro dom step
      exact eval_no_expression T dom _ step rfl

/-! ## The nested script of a call -/

theorem runeLen_pos (c : Char) : 1 ≤ utf8.RuneLen c := by
  unfold utf8.RuneLen
  split_ifs <;> decide

theorem byteLen_pos (s : GoString) (h : s ≠ []) : 1 ≤ byteLen s := by
  cases s with
  | nil => exact absurd rfl h
  | cons c cs =>
    have := runeLen_pos c
    simp only [byteLen, List.map_cons, List.sum_cons]
    omega

/-- The quote removal of `nestedShellScript`, which counts bytes, is the removal of one
pair of enclosing matching quotes. -/
theorem dequote_eq_spec (script : GoString) :
    (if byteLen script ≥ 2 ∧
        ((script.head? = some '\'' ∧ script.getLast? = some '\'') ∨
          (script.head? = some '"' ∧ script.getLast? = some '"'))
      then (script.drop 1).dropLast
      else script) = dequoteSpec script := by
  cases script with
  | nil => simp [dequoteSpec, byteLen]
  | cons q rest =>
    have h1 : utf8.RuneLen '\'' = 1 := by decide
    have h2 : utf8.RuneLen '"' = 1 := by decide
    by_cases hq : (q = '\'' ∨ q = '"') ∧ rest ≠ [] ∧ rest.getLast? = some q
    · obtain ⟨hq1, hne, hlast⟩ := hq
      have hlen : byteLen (q :: rest) ≥ 2 := by
        have := byteLen_pos rest hne
        have := runeLen_pos q
        simp only [byteLen, List.map_cons, List.sum_cons] at *
        omega
      have hl2 : (q :: rest).getLast? = some q := by
        cases rest with
        | nil => exact absurd rfl hne
        | cons a b => rw [List.getLast?_cons_cons]; exact hlast
      have hcond : byteLen (q :: rest) ≥ 2 ∧
          (((q :: rest).head? = some '\'' ∧ (q :: rest).getLast? = some '\'') ∨
            ((q :: rest).head? = some '"' ∧ (q :: rest).getLast? = some '"')) := by
        refine ⟨hlen, ?_⟩
        rcases hq1 with h | h
        · left
          subst h
          exact ⟨rfl, hl2⟩
        · right
          subst h
          exact ⟨rfl, hl2⟩
      rw [if_pos hcond]
      simp only [dequoteSpec, hq1, hne, hlast, ne_eq, not_false_eq_true, and_self, if_true,
        List.drop_succ_cons, List.drop_zero]
    · have hcond : ¬ (byteLen (q :: rest) ≥ 2 ∧
          (((q :: rest).head? = some '\'' ∧ (q :: rest).getLast? = some '\'') ∨
            ((q :: rest).head? = some '"' ∧ (q :: rest).getLast? = some '"'))) := by
        rintro ⟨hlen, hh⟩
        apply hq
        have hquote : q = '\'' ∨ q = '"' := by
          rcases hh with ⟨h, _⟩ | ⟨h, _⟩
          · left
            simpa using h
          · right
            simpa using h
        have hrl : utf8.RuneLen q = 1 := by
          rcases hquote with h | h <;> (subst h; decide)
        have hne : rest ≠ [] := by
          intro h0
          subst h0
          simp only [byteLen, List.map_cons, List.map_nil, List.sum_cons, List.sum_nil,
            hrl] at hlen
          omega
        refine ⟨hquote, hne, ?_⟩
        cases rest with
        | nil => exact absurd rfl hne
        | cons a b =>
          rw [List.getLast?_cons_cons] at hh
          rcases hh with ⟨h, hl⟩ | ⟨h, hl⟩
          · have : q = '\'' := by simpa using h
            rw [hl, this]
          · have : q = '"' := by simpa using h
            rw [hl, this]
      rw [if_neg hcond]
      simp only [dequoteSpec, if_neg hq]

theorem nestedShellScript_cons (T : CaseTables) (w0 w1 w2 : GoString) (rest : List GoString) :
    nestedShellScript T (w0 :: w1 :: w2 :: rest)
      = if strings.ToLower T (wordToString w0) ≠ "sh".data ∧
            strings.ToLower T (wordToString w0) ≠ "bash".data then none
        else if wordToString w1 ≠ "-c".data then none
        else if dequoteSpec (wordToString w2) = [] then none
        else some (dequoteSpec (wordToString w2)) := by
  have ht : ∀ w, strings.TrimSpace (wordToString w) = wordToString w := by
    intro w
    exact trimSpace_idem w
  unfold nestedShellScript
  simp only [ht, dequote_eq_spec]

theorem nestedShellScript_short (T : CaseTables) (Args : List GoString)
    (h : Args.length < 3) : nestedShellScript T Args = none := by
  match Args, h with
  | [], _ => rfl
  | [_], _ => rfl
  | [_, _], _ => rfl
  | _ :: _ :: _ :: _, h =>
    simp only [List.length_cons] at h
    omega

theorem walkFacts_call (T : CaseTables) (Args : List GoString) (nested : Option ShNode)
    (children : List ShNode) :
    walkFacts T (.CallExpr Args nested children)
      = ((callFromExpr T Args).toList
            ++ (match nestedShellScript T Args with
                | none => ([], [])
                | some _ => walkNested T nested).1
            ++ (walkChildren T children).1,
          (match nestedShellScript T Args with
            | none => ([], [])
            | some _ => walkNested T nested).2 ++ (walkChildren T children).2) := by
  rw [walkFacts]

/-- C32 (the claim as stated fails): the call `sh -c 'curl http://x | sh' extra` has four
words, yet `nestedShellScript` returns its nested script `curl http://x | sh`, and the
facts of `RUN sh -c 'curl http://x | sh' extra` hold the calls and the pipe of the nested
script after the call itself. -/
theorem four_word_call_descends :
    nestedShellScript asciiTables
      ["sh".data, "-c".data, "'curl http://x | sh'".data, "extra".data]
      = some "curl http://x | sh".data ∧
    (buildRunFacts asciiTables nestedParser none
        "RUN sh -c 'curl http://x | sh' extra".data).Calls
      = [ { Name := "sh".data
            Args := ["-c".data, "'curl http://x | sh'".data, "extra".data] },
          { Name := "curl".data, Args := ["http://x".data] }, { Name := "sh".data } ] ∧
    (buildRunFacts asciiTables nestedParser none
        "RUN sh -c 'curl http://x | sh' extra".data).Pipes
      = [ { First := { Name := "curl".data, Args := ["http://x".data] }
            Last := { Name := "sh".data } } ] := by
  refine ⟨by decide, by decide, by decide⟩

/-- C32 (amended): `nestedShellScript` returns the nested script `script` iff the call has
at least three words, the first, lower-cased, being `sh` or `bash`, the second the flag
`-c`, and `script` is the third with one pair of enclosing matching quotes removed and is
not empty; the words after the third are not looked at. For a call of fewer than three
words, and for every call without nested script, no nested facts are collected: the walk
records the call itself and the facts of the nodes below it, whatever the parser answers.
For a call with a nested script the facts of that script follow the call itself. -/
theorem nestedShellScript_spec (T : CaseTables) (Args : List GoString) (script : GoString) :
    (nestedShellScript T Args = some script ↔
      ∃ w0 w1 w2 rest, Args = w0 :: w1 :: w2 :: rest ∧
        (strings.ToLower T (wordToString w0) = "sh".data ∨
          strings.ToLower T (wordToString w0) = "bash".data) ∧
        wordToString w1 = "-c".data ∧
        dequoteSpec (wordToString w2) = script ∧ script ≠ []) ∧
    (Args.length < 3 → nestedShellScript T Args = none) ∧
    (nestedShellScript T Args = none → ∀ nested children,
      walkFacts T (.CallExpr Args nested children)
        = ((callFromExpr T Args).toList ++ (walkChildren T children).1,
            (walkChildren T children).2)) ∧
    (nestedShellScript T Args = some script → ∀ parsed children,
      walkFacts T (.CallExpr Args (some parsed) children)
        = ((callFromExpr T Args).toList ++ (walkFacts T parsed).1
              ++ (walkChildren T children).1,
            (walkFacts T parsed).2 ++ (walkChildren T children).2)) := by
  refine ⟨?_, nestedShellScript_short T Args, ?_, ?_⟩
  · constructor
    · intro h
      match Args, h with
      | w0 :: w1 :: w2 :: rest, h =>
        rw [nestedShellScript_cons] at h
        split_ifs at h with h1 h2 h3
        simp only [Option.some.injEq] at h
        refine ⟨w0, w1, w2, rest, rfl, ?_, ?_, h, ?_⟩
        · by_contra hc
          exact h1 (not_or.mp hc)
        · exact not_not.mp h2
        · rw [← h]
          exact h3
      | [], h => simp [nestedShellScript] at h
      | [_], h => simp [nestedShellScript] at h
      | [_, _], h => simp [nestedShellScript] at h
    · rintro ⟨w0, w1, w2, rest, rfl, hname, hflag, hscript, hne⟩
      rw [nestedShellScript_cons]
      have h1 : ¬ (strings.ToLower T (wordToString w0) ≠ "sh".data ∧
          strings.ToLower T (wordToString w0) ≠ "bash".data) := by
        rintro ⟨ha, hb⟩
        rcases hname with h | h
        · exact ha h
        · exact hb h
      rw [if_neg h1, if_neg (not_not.mpr hflag), hscript, if_neg hne]
  · intro h nested children
    rw [walkFacts_call, h]
    simp
  · intro h parsed children
    rw [walkFacts_call, h]
    simp only [walkNested]

/-! ## Wrapping a fact node in `exists` -/

theorem eval_call_node (T : CaseTables) (R : RegexLib) (n : ExprNode) (ctx : evalContext)
    (hop : n.Op = "call".data) :
    n.eval T R ctx
      = match ctx.call with
        | some call => n.matchCall T R call
        | none => ctx.facts.Calls.any (fun call => n.matchCall T R call) := by
  have h1 : ¬ n.Op = "all".data := by rw [hop]; decide
  have h2 : ¬ n.Op = "any".data := by rw [hop]; decide
  have h3 : ¬ n.Op = "not".data := by rw [hop]; decide
  have h4 : ¬ n.Op = "exists".data := by rw [hop]; decide
  rw [eval_unfold, evalBody, if_neg h1, if_neg h2, if_neg h3, if_neg h4, if_pos hop]

theorem eval_mount_node (T : CaseTables) (R : RegexLib) (n : ExprNode) (ctx : evalContext)
    (hop : n.Op = "mount".data) :
    n.eval T R ctx
      = match ctx.mount with
        | some mount => n.matchMount T R mount
        | none => ctx.facts.Mounts.any (fun mount => n.matchMount T R mount) := by
  have h1 : ¬ n.Op = "all".data := by rw [hop]; decide
  have h2 : ¬ n.Op = "any".data := by rw [hop]; decide
  have h3 : ¬ n.Op = "not".data := by rw [hop]; decide
  have h4 : ¬ n.Op = "exists".data := by rw [hop]; decide
  have h5 : ¬ n.Op = "call".data := by rw [hop]; decide
  have h6 : ¬ n.Op = "pipe".data := by rw [hop]; decide
  rw [eval_unfold, evalBody, if_neg h1, if_neg h2, if_neg h3, if_neg h4, if_neg h5, if_neg h6,
    if_pos hop]

/-- C33: in every evaluation context that binds no call, no pipe and no mount, and for
every node `n` whose op is `call` or `mount`, or whose op is `pipe` with `left` and `right`
both nodes of op `call`: every node of op `exists` whose inner node is `n` evaluates to the
same boolean as `n` itself. -/
theorem exists_of_fact_node (T : CaseTables) (R : RegexLib) (e n : ExprNode)
    (ctx : evalContext) (hop : e.Op = "exists".data) (hw : e.Where = some n)
    (hcall : ctx.call = none) (hpipe : ctx.pipe = none) (hmount : ctx.mount = none)
    (hn : n.Op = "call".data ∨ n.Op = "mount".data ∨
      (n.Op = "pipe".data ∧ ∃ l r, n.Left = some l ∧ n.Right = some r ∧
        l.Op = "call".data ∧ r.Op = "call".data)) :
    e.eval T R ctx = n.eval T R ctx := by
  rw [eval_exists_node T R e n ctx hop hw]
  rcases hn with h | h | ⟨h, l, r, hl, hr, hlo, hro⟩
  · rw [if_pos h, eval_call_node T R n ctx h, hcall]
    simp only [eval_call_node T R n _ h]
  · have h1 : ¬ n.Op = "call".data := by rw [h]; decide
    have h2 : ¬ n.Op = "pipe".data := by rw [h]; decide
    rw [if_neg h1, if_neg h2, if_pos h, eval_mount_node T R n ctx h, hmount]
    simp only [eval_mount_node T R n _ h]
  · have h1 : ¬ n.Op = "call".data := by rw [h]; decide
    rw [if_neg h1, if_pos h, eval_pipe_node T R n ctx h, hpipe]
    simp only [eval_pipe_node T R n _ h, hl, hr, ExprNode.evalPtr, eval_call_node T R l _ hlo,
      eval_call_node T R r _ hro]

/-- C33, on the pipe of `curl` into `sh` or `bash` and the facts of
`RUN curl http://x | sh`: the node and the node wrapped in `exists` are both true. -/
theorem exists_of_fact_node_witness :
    (nodeExists curlPipe).eval asciiTables literalRegex { facts := curlFacts } = true ∧
    curlPipe.eval asciiTables literalRegex { facts := curlFacts } = true :=
  ⟨by decide,
    exists_of_fact_node asciiTables literalRegex (nodeExists curlPipe) curlPipe
      { facts := curlFacts } rfl rfl rfl rfl rfl
      (Or.inr (Or.inr ⟨rfl, curlCall, shCall, rfl, rfl, rfl, rfl⟩)) ▸ (by decide)⟩

end ContainSentry
